import Mathlib

/-!
Verification of the spacegraphcats catlas-construction core
(`src/spacegraphcats/rdomset.py` and `src/spacegraphcats/catlas.py`).

The graph collaborator (`spacegraphcats.graph`: `Graph`, `DictGraph`) is not
part of the provided sources; following §6 of the specification it is modelled
here as a vertex list together with a list of weighted arcs `(u, v, w)`
(an arc set: `add_arc` is idempotent, as multiple weighted arcs between the
same ordered pair may coexist only at distinct weights).  All mutating
operations of the Python code are embedded as state-passing functions.
-/

set_option maxHeartbeats 1000000

namespace SGC

/-- Pointwise update of a function at one key (embeds a Python dict/list write). -/
def upd {α : Type} (f : Nat → α) (k : Nat) (a : α) : Nat → α :=
  fun x => if x = k then a else f x

/-- Modelled from the spec (§6 "Graph collaborator"): a mutable directed
multigraph with integer vertices and weighted arcs `(u, v, w)`, `w ≥ 1`.
`spacegraphcats.graph` itself is not among the provided sources. -/
structure Graph where
  nodes : List Nat
  arcs : List (Nat × Nat × Nat)
deriving DecidableEq

/-- Modelled from the spec: `in_neighbors(v)` yields the pairs `(u, weight)`
with an arc `u → v` (all weights). -/
def in_neighbors (g : Graph) (v : Nat) : List (Nat × Nat) :=
  g.arcs.filterMap (fun a => if a.2.1 = v then some (a.1, a.2.2) else none)

/-- Modelled from the spec: `in_neighbors(v, w)` yields the in-neighbours of
`v` along arcs of weight exactly `w` (the form used as
`graph.in_neighbors(v, 1)` in `low_degree_orientation` and `make_connected`). -/
def in_neighbors_w (g : Graph) (v w : Nat) : List Nat :=
  g.arcs.filterMap (fun a => if a.2.1 = v ∧ a.2.2 = w then some a.1 else none)

/-- Modelled from the spec: `in_degree(v)` counts all arcs into `v`. -/
def in_degree (g : Graph) (v : Nat) : Nat :=
  (in_neighbors g v).length

/-- Modelled from the spec: `arcs(w)` yields the arcs of weight `w`
(used as `fratGraph.arcs(1)` in `dtf_step`). -/
def arcs_w (g : Graph) (w : Nat) : List (Nat × Nat) :=
  g.arcs.filterMap (fun a => if a.2.2 = w then some (a.1, a.2.1) else none)

/-- Modelled from the spec: `add_arc(u, v, w)`; an already present arc is not
duplicated (the collaborator stores arc sets). -/
def add_arc (g : Graph) (u v w : Nat) : Graph :=
  if (u, v, w) ∈ g.arcs then g else { g with arcs := g.arcs ++ [(u, v, w)] }

/-- Modelled from the spec: `remove_arc(u, v)` deletes the arc(s) from `u` to
`v`.  At every call site (`low_degree_orientation`) all arcs have weight 1,
so deleting every weight is observationally the same as deleting weight 1. -/
def remove_arc (g : Graph) (u v : Nat) : Graph :=
  { g with arcs := g.arcs.filter (fun a => ¬(a.1 = u ∧ a.2.1 = v)) }

/-- Modelled from the spec: add an (isolated) vertex, as `DictGraph.add_node`. -/
def add_node (g : Graph) (v : Nat) : Graph :=
  if v ∈ g.nodes then g else { g with nodes := g.nodes ++ [v] }

/-- The empty `DictGraph()` that `dtf_step` allocates for fraternal edges. -/
def empty_graph : Graph := { nodes := [], arcs := [] }

/-- Stable insertion of `v` behind every element whose key is `≤ key v`
(together with `sort_by_key` this embeds Python's stable ascending `sorted`). -/
def insert_by_key (key : Nat → Nat) (v : Nat) : List Nat → List Nat
  | [] => [v]
  | x :: xs => if key x ≤ key v then x :: insert_by_key key v xs else v :: x :: xs

/-- Stable ascending sort by a key, embedding `sorted(nodes, key=...)` of
`compute_domset` (Python's sort is stable, so ties keep iteration order). -/
def sort_by_key (key : Nat → Nat) (l : List Nat) : List Nat :=
  l.foldl (fun acc v => insert_by_key key v acc) []

/-- State of `compute_domset`: the dominating set collected so far (in
insertion order) and the `domdistance` map (`⊤` is the initial `infinity`). -/
structure DomsetResult where
  domset : List Nat
  domdistance : Nat → ℕ∞

/-- Body of the main loop of `compute_domset` (rdomset.py lines 216-234) for
one vertex `v` of the processing order. -/
def compute_domset_step (g : Graph) (radius : Nat) (st : DomsetResult) (v : Nat) :
    DomsetResult :=
  -- if v is already dominated at radius, no need to work
  if st.domdistance v ≤ (radius : ℕ∞) then st
  else
    -- look at the in neighbors to update the distance
    let dd := (in_neighbors g v).foldl
      (fun d p => upd d v (min (d v) ((p.2 : ℕ∞) + d p.1))) st.domdistance
    -- if v is dominated at radius now, keep going
    if dd v ≤ (radius : ℕ∞) then { st with domdistance := dd }
    else
      -- otherwise put v in the dominating set ...
      let dd0 := upd dd v 0
      -- ... and update distances of neighbors of v if v is closer
      let ddn := (in_neighbors g v).foldl
        (fun d p => upd d p.1 (min (d p.1) (p.2 : ℕ∞))) dd0
      { domset := st.domset ++ [v], domdistance := ddn }

/-- Embedding of `compute_domset(graph, radius, comp)` (rdomset.py 194-236).
`nodes` is the vertex iteration order (`comp`, or the graph's nodes when
`comp` is `None`). -/
def compute_domset (g : Graph) (radius : Nat) (nodes : List Nat) : DomsetResult :=
  let order := sort_by_key (in_degree g) nodes
  order.foldl (compute_domset_step g radius) { domset := [], domdistance := fun _ => ⊤ }

/-! ### Bucket peeling engine (`low_degree_orientation`, rdomset.py 5-121) -/

/-- The mutable state of `low_degree_orientation`: the bucket array `bins`,
the per-degree start pointers `bin_starts`, the residual-degree and location
maps, and the graph being re-oriented. -/
structure LdoState where
  bins : List Nat
  bin_starts : List Nat
  degrees : Nat → Nat
  location : Nat → Nat
  graph : Graph

/-- The bin-assignment loop of `ldo_setup` (rdomset.py 110-118): place each
vertex at its bin pointer and advance the pointer.  The state is
`(bins, location, bin_ptrs)`. -/
def ldo_assign (deg : Nat → Nat) (st : List Nat × (Nat → Nat) × List Nat)
    (v : Nat) : List Nat × (Nat → Nat) × List Nat :=
  let loc := st.2.2.getD (deg v) 0
  (st.1.set loc v, upd st.2.1 v loc, st.2.2.set (deg v) (loc + 1))

/-- The `max(degrees.values())` of `ldo_setup` (rdomset.py 91/96). -/
def ldo_maxdeg (g : Graph) (comp : List Nat) : Nat :=
  comp.foldl (fun m v => max m (in_degree g v)) 0

/-- Embedding of `ldo_setup(graph, comp)` (rdomset.py 75-121).  The dict/list
storage distinction of the source is representation only; both are embedded
as functions.  `bins` entries start as 0 standing for Python's `None`. -/
def ldo_setup (g : Graph) (comp : List Nat) : LdoState :=
  let degrees : Nat → Nat := fun v => in_degree g v
  let max_deg := ldo_maxdeg g comp
  let degree_counts := comp.foldl
    (fun dc v => dc.set (degrees v) (dc.getD (degrees v) 0 + 1))
    (List.replicate (max_deg + 1) 0)
  let bin_starts := (List.range (max_deg + 1)).map (fun i => (degree_counts.take i).sum)
  let init : List Nat × (Nat → Nat) × List Nat :=
    (List.replicate comp.length 0, fun _ => 0, bin_starts)
  let fin := comp.foldl (ldo_assign degrees) init
  { bins := fin.1, bin_starts := bin_starts, degrees := degrees,
    location := fin.2.1, graph := g }

/-- Body of the in-neighbour loop of `low_degree_orientation`
(rdomset.py 48-69) while vertex `v` is being extracted: orient towards an
already removed `u` by deleting the arc `u → v`, otherwise decrement `u`'s
residual degree by the swap-with-first-of-bin trick.  (`d_u - 1` is the
source's decrement; at every reachable call `d_u ≥ 1`, see the bucket
invariant below, so natural subtraction agrees with Python.) -/
def ldo_nbr_step (v : Nat) (s : LdoState) (u : Nat) : LdoState :=
  let d_u := s.degrees u
  let loc_u := s.location u
  -- if we've removed u, we orient the arc towards u by deleting uv
  if s.location u < s.location v then
    { s with graph := remove_arc s.graph u v }
  else
    -- swap u with w, the first vertex with the same degree
    let loc_w := s.bin_starts.getD d_u 0
    let w := s.bins.getD loc_w 0
    let s1 :=
      if w ≠ u then
        { s with bins := (s.bins.set loc_u w).set loc_w u,
                 location := upd (upd s.location w loc_u) u loc_w }
      else s
    -- move the bin start one place over and decrement u's degree
    { s1 with bin_starts := s1.bin_starts.set d_u (s1.bin_starts.getD d_u 0 + 1),
              degrees := upd s1.degrees u (d_u - 1) }

/-- The adjustment at the top of a main-loop iteration (rdomset.py 38-44):
"move" the extracted vertex into bin 0 if it isn't there, shifting the bin
starts, and fix its degree to 0. -/
def ldo_extract_pre (s : LdoState) (curr : Nat) : LdoState :=
  let v := s.bins.getD curr 0
  let d_v := s.degrees v
  { s with
    bin_starts :=
      if d_v > 0 then
        s.bin_starts.mapIdx (fun i x => if 1 ≤ i ∧ i ≤ d_v then x + 1 else x)
      else s.bin_starts,
    degrees := upd s.degrees v 0 }

/-- One iteration of the main loop of `low_degree_orientation`
(rdomset.py 36-69): extract the vertex at position `curr`, move it
conceptually into bin 0, then process its weight-1 in-neighbours. -/
def ldo_extract (s : LdoState) (curr : Nat) : LdoState :=
  let v := s.bins.getD curr 0
  let s1 := ldo_extract_pre s curr
  (in_neighbors_w s1.graph v 1).foldl (ldo_nbr_step v) s1

/-- The state after `k` iterations of the main loop, starting from setup. -/
def ldo_run (g : Graph) (comp : List Nat) (k : Nat) : LdoState :=
  (List.range k).foldl ldo_extract (ldo_setup g comp)

/-- Embedding of `low_degree_orientation(graph, comp)` (rdomset.py 5-73),
returning the re-oriented graph.  `comp` is the component vertex list (the
graph's own nodes when the source passes `comp=None`). -/
def low_degree_orientation (g : Graph) (comp : List Nat) : Graph :=
  if comp.length = 0 then g
  else (ldo_run g comp comp.length).graph

/-- The state in the middle of main-loop iteration `k`, after the first `j`
in-neighbours of the extracted vertex have been handled (the granularity of
one degree decrement or arc deletion). -/
def ldo_mid (g : Graph) (comp : List Nat) (k j : Nat) : LdoState :=
  let s := ldo_run g comp k
  let v := s.bins.getD k 0
  let s1 := ldo_extract_pre s k
  ((in_neighbors_w s1.graph v 1).take j).foldl (ldo_nbr_step v) s1

/-- The bucket-structure properties asserted by the spec's degree-bucket
invariant: `location` points at the slot of `bins` holding each vertex (and
conversely), and the vertices of `bins` are in non-decreasing order of
residual degree (equal degrees therefore occupy contiguous runs). -/
def bucket_invariant (comp : List Nat) (s : LdoState) : Prop :=
  (∀ x ∈ comp, s.location x < comp.length ∧ s.bins.getD (s.location x) 0 = x) ∧
  (∀ p, p < comp.length →
    s.bins.getD p 0 ∈ comp ∧ s.location (s.bins.getD p 0) = p) ∧
  (∀ q, q < comp.length → ∀ p, p ≤ q →
    s.degrees (s.bins.getD p 0) ≤ s.degrees (s.bins.getD q 0))

instance (comp : List Nat) (s : LdoState) : Decidable (bucket_invariant comp s) := by
  unfold bucket_invariant
  infer_instance

/-- The precondition of `low_degree_orientation` (rdomset.py 10-12): every
edge of the component is an antiparallel pair of weight-1 arcs; arcs are
loop-free, distinct, and stay inside the component, whose vertex list has no
duplicates. -/
def ldo_precondition (g : Graph) (comp : List Nat) : Prop :=
  (∀ a ∈ g.arcs, (a.2.1, a.1, a.2.2) ∈ g.arcs) ∧
  (∀ a ∈ g.arcs, a.1 ≠ a.2.1) ∧
  (∀ a ∈ g.arcs, a.2.2 = 1) ∧
  (∀ a ∈ g.arcs, a.1 ∈ comp ∧ a.2.1 ∈ comp) ∧
  g.arcs.Nodup ∧ comp.Nodup

instance (g : Graph) (comp : List Nat) : Decidable (ldo_precondition g comp) := by
  unfold ldo_precondition
  infer_instance

/-- The `degree_counts` array of `ldo_setup` (rdomset.py 99-102). -/
def ldo_degree_counts (g : Graph) (comp : List Nat) : List Nat :=
  comp.foldl (fun dc v => dc.set (in_degree g v) (dc.getD (in_degree g v) 0 + 1))
    (List.replicate (ldo_maxdeg g comp + 1) 0)

/-- The initial bin boundary for degree `e`: `sum(degree_counts[:e])`
(rdomset.py 104). -/
def ldo_bstart (g : Graph) (comp : List Nat) (e : Nat) : Nat :=
  ((ldo_degree_counts g comp).take e).sum

/-- Number of vertices of `l` whose initial in-degree is exactly `d`. -/
def ldo_deg_count (g : Graph) (l : List Nat) (d : Nat) : Nat :=
  (l.filter (fun v => decide (in_degree g v = d))).length

/-- Number of bucket positions whose current residual degree is below `d`. -/
def ldo_pos_count (comp : List Nat) (s : LdoState) (d : Nat) : Nat :=
  ((List.range comp.length).filter
    (fun p => decide (s.degrees (s.bins.getD p 0) < d))).length

/-- Number of still-unremoved out-neighbours of `u` (location at least `c`)
in the current graph; a lower bound witness for `u`'s residual degree. -/
def ldo_out_count (comp : List Nat) (s : LdoState) (c u : Nat) : Nat :=
  (comp.filter (fun x => decide ((u, x, 1) ∈ s.graph.arcs ∧ c ≤ s.location x))).length

/-- Invariant of the bucket-peeling state at the main-loop boundary after `k`
extractions: the spec's bucket invariant (`hloc`, `hpos`, `hsort`) plus the
bookkeeping facts needed to push it through one more iteration. -/
structure LdoInv (g0 : Graph) (comp : List Nat) (k : Nat) (s : LdoState) : Prop where
  hbins : s.bins.length = comp.length
  hbs : s.bin_starts.length = ldo_maxdeg g0 comp + 1
  hloc : ∀ x ∈ comp, s.location x < comp.length ∧ s.bins.getD (s.location x) 0 = x
  hpos : ∀ p, p < comp.length → s.bins.getD p 0 ∈ comp ∧ s.location (s.bins.getD p 0) = p
  hsort : ∀ q, q < comp.length → ∀ p, p ≤ q →
    s.degrees (s.bins.getD p 0) ≤ s.degrees (s.bins.getD q 0)
  hstart : ∀ d, d ≤ ldo_maxdeg g0 comp → s.bin_starts.getD d 0 = ldo_pos_count comp s d
  hdeg : ∀ x ∈ comp, s.degrees x ≤ ldo_maxdeg g0 comp
  hzero : ∀ p, p < k → s.degrees (s.bins.getD p 0) = 0
  hsub : s.graph.arcs.Sublist g0.arcs
  hcount : ∀ u ∈ comp, k ≤ s.location u → ldo_out_count comp s k u ≤ s.degrees u

/-- Invariant in the middle of main-loop iteration `k` extracting pivot `v`,
with `l` the in-neighbours of `v` still to be handled. -/
structure LdoMid (g0 : Graph) (comp : List Nat) (k v : Nat) (l : List Nat)
    (s : LdoState) : Prop where
  hbins : s.bins.length = comp.length
  hbs : s.bin_starts.length = ldo_maxdeg g0 comp + 1
  hloc : ∀ x ∈ comp, s.location x < comp.length ∧ s.bins.getD (s.location x) 0 = x
  hpos : ∀ p, p < comp.length → s.bins.getD p 0 ∈ comp ∧ s.location (s.bins.getD p 0) = p
  hsort : ∀ q, q < comp.length → ∀ p, p ≤ q →
    s.degrees (s.bins.getD p 0) ≤ s.degrees (s.bins.getD q 0)
  hstart : ∀ d, d ≤ ldo_maxdeg g0 comp → s.bin_starts.getD d 0 = ldo_pos_count comp s d
  hdeg : ∀ x ∈ comp, s.degrees x ≤ ldo_maxdeg g0 comp
  hzero : ∀ p, p ≤ k → s.degrees (s.bins.getD p 0) = 0
  hsub : s.graph.arcs.Sublist g0.arcs
  hcount : ∀ u ∈ comp, k + 1 ≤ s.location u →
    ldo_out_count comp s (k + 1) u + (if u ∈ l then 1 else 0) ≤ s.degrees u
  hk : k < comp.length
  hvbin : s.bins.getD k 0 = v
  hvloc : s.location v = k
  hlnd : l.Nodup
  harcs : ∀ u ∈ l, (u, v, 1) ∈ g0.arcs

/-- Invariant of the bin-assignment fold of `ldo_setup` (rdomset.py 110-118)
after the prefix `done` of `comp` has been placed. -/
structure LdoAssignInv (g0 : Graph) (comp done : List Nat)
    (st : List Nat × (Nat → Nat) × List Nat) : Prop where
  hlen : st.1.length = comp.length
  hplen : st.2.2.length = ldo_maxdeg g0 comp + 1
  hptr : ∀ d, d ≤ ldo_maxdeg g0 comp →
    st.2.2.getD d 0 = ldo_bstart g0 comp d + ldo_deg_count g0 done d
  hvert : ∀ v ∈ done, ldo_bstart g0 comp (in_degree g0 v) ≤ st.2.1 v ∧
    st.2.1 v < ldo_bstart g0 comp (in_degree g0 v) +
      ldo_deg_count g0 done (in_degree g0 v) ∧
    st.1.getD (st.2.1 v) 0 = v

/-! ### DTF augmentation (`dtf_step` and `dtf`, rdomset.py 123-192) -/

/-- All unordered pairs of a list, in order: `itertools.combinations(l, 2)`. -/
def pairs_of {α : Type} : List α → List (α × α)
  | [] => []
  | x :: xs => xs.map (fun y => (x, y)) ++ pairs_of xs

/-- Whether some arc (of any weight, in either direction) joins `x` and `y`. -/
def adjacent (g : Graph) (x y : Nat) : Bool :=
  g.arcs.any (fun a => (a.1 = x ∧ a.2.1 = y) ∨ (a.1 = y ∧ a.2.1 = x))

/-- Modelled from the spec (§4.2): the transitive pairs of `v` at distance
`d` are the pairs `(x, v)` reachable by chaining an existing weight-`(d-1)`
arc `x → m` with a weight-1 arc `m → v` (the enumeration anchors at the head
`v` so that only small in-neighbourhoods are traversed); degenerate
self-chains are discarded.  `graph.transitive_pairs` lives in the absent
graph collaborator. -/
def transitive_pairs (g : Graph) (v d : Nat) : List (Nat × Nat) :=
  (in_neighbors_w g v 1).flatMap (fun m =>
    (in_neighbors_w g m (d - 1)).filterMap (fun x =>
      if x ≠ v then some (x, v) else none))

/-- Modelled from the spec (§4.2): the fraternal pairs of `v` at distance `d`
are the pairs of distinct in-neighbours of `v` (so `v` is a shared
out-neighbour) whose arc weights sum to `d` and that are not already joined
by an arc; the adjacency exclusion against the current graph realises the
source's guarantee that "no fraternal edge conflicts with a transitive
edge".  `graph.fraternal_pairs` lives in the absent graph collaborator. -/
def fraternal_pairs (g : Graph) (v d : Nat) : List (Nat × Nat) :=
  (pairs_of (in_neighbors g v)).filterMap (fun pq =>
    if pq.1.2 + pq.2.2 = d ∧ pq.1.1 ≠ pq.2.1 ∧ adjacent g pq.1.1 pq.2.1 = false
    then some (pq.1.1, pq.2.1) else none)

/-- Embedding of `dtf_step(graph, dist, comp)` (rdomset.py 123-164): add all
transitive arcs at weight `dist`, collect the fraternal pairs into a side
graph with antiparallel weight-1 arcs, orient that side graph with
`low_degree_orientation`, and merge its surviving arcs at weight `dist`. -/
def dtf_step (g : Graph) (dist : Nat) (nodes : List Nat) : Graph :=
  let g1 := nodes.foldl (fun h v =>
    (transitive_pairs h v dist).foldl (fun h2 p => add_arc h2 p.1 p.2 dist) h) g
  let frat := nodes.foldl (fun f v =>
    (fraternal_pairs g1 v dist).foldl (fun f2 p =>
      let f3 := add_node (add_node f2 p.1) p.2
      add_arc (add_arc f3 p.1 p.2 1) p.2 p.1 1) f) empty_graph
  let frat2 := low_degree_orientation frat frat.nodes
  (arcs_w frat2 1).foldl (fun h p => add_arc h p.1 p.2 dist) g1

/-- Embedding of `dtf(graph, radius, comp)` (rdomset.py 166-192): the first
augmentation is the acyclic orientation, then one `dtf_step` for every
distance `d` from 2 to `radius` (the commented-out early exit of the source
is not part of the loop). -/
def dtf (g : Graph) (radius : Nat) (nodes : List Nat) : Graph :=
  let g1 := low_degree_orientation g nodes
  (List.range' 2 (radius - 1)).foldl (fun h d => dtf_step h d nodes) g1

/-- Embedding of `rdomset(graph, radius, comp)` (rdomset.py 370-373); the
source mutates `graph` in place, so the augmented graph is returned next to
the dominating set. -/
def rdomset (g : Graph) (radius : Nat) (nodes : List Nat) : Graph × DomsetResult :=
  let g1 := dtf g radius nodes
  (g1, compute_domset g1 radius nodes)

/-- The ordering `compute_domset` actually processes (its `order` local):
ascending current in-degree, ties kept in node-iteration order. -/
def domset_order (g : Graph) (nodes : List Nat) : List Nat :=
  sort_by_key (in_degree g) nodes

/-- Stated from the spec's words for claim C5 (not from the source): the
ordering the spec asserts, namely ascending in-degree of the graph as it was
before dtf augmentation started, with ties broken by vertex id. -/
def spec_domset_order (g : Graph) (nodes : List Nat) : List Nat :=
  sort_by_key (in_degree g) (sort_by_key (fun v => v) nodes)

/-- Whether some arc (of any weight) points from `x` to `y`. -/
def has_arc (g : Graph) (x y : Nat) : Bool :=
  g.arcs.any (fun a => a.1 = x ∧ a.2.1 = y)

/-- Undirected weight-1 adjacency (an original edge of the input graph). -/
def adj1 (g : Graph) (x y : Nat) : Prop :=
  (x, y, 1) ∈ g.arcs ∨ (y, x, 1) ∈ g.arcs

instance (g : Graph) (x y : Nat) : Decidable (adj1 g x y) := by
  unfold adj1; infer_instance

/-- True distance at most `k` between two vertices along original
(weight-1, undirected) edges, through the graph's vertices. -/
def within (g : Graph) : Nat → Nat → Nat → Prop
  | 0, x, y => x = y
  | k + 1, x, y => x = y ∨ ∃ m ∈ g.nodes, adj1 g x m ∧ within g k m y

instance (g : Graph) (k x y : Nat) : Decidable (within g k x y) := by
  induction k generalizing x y with
  | zero => unfold within; infer_instance
  | succ k ih =>
      unfold within
      have : DecidablePred fun m => m ∈ g.nodes ∧ adj1 g x m ∧ within g k m y := by
        intro m
        have := ih m y
        infer_instance
      infer_instance

/-- Embedding of the per-level radius choice of `CAtlas.build`
(catlas.py 183-187): the base level uses the configured radius, every level
above uses radius 1. -/
def level_radius (r level : Nat) : Nat :=
  if level = 0 then r else 1

/-! ### Dominator assignment (`assign_to_dominators`, rdomset.py 238-281) -/

/-- Set union on vertex lists (the `|=` of Python sets, embedded with a
kernel-reducible carrier: members of `b` not yet in `a` are appended). -/
def lunion (a b : List Nat) : List Nat :=
  a ++ b.filter (fun x => decide (x ∉ a))

/-- Set difference on vertex lists (the `-=` of Python sets). -/
def lsdiff (a b : List Nat) : List Nat :=
  a.filter (fun x => decide (x ∉ b))

/-- One vertex step of the two assignment passes (rdomset.py 258-270): pull
the dominators of every in-neighbour to `v` (shifted by the arc weight),
then push the dominators of `v` to every in-neighbour.  The source iterates
the keys of the inner dictionaries; iterating every radius `0..radius`
instead is observationally equal, because absent keys hold the empty set,
which contributes nothing to a union, and keys above the radius are never
written. -/
def atd_vertex_step (g : Graph) (radius : Nat)
    (dar : Nat → Nat → List Nat) (v : Nat) : Nat → Nat → List Nat :=
  -- Pull dominators from in-neighbourhood
  let dar1 := (in_neighbors g v).foldl (fun d p =>
    (List.range (radius + 1)).foldl (fun d2 r2 =>
      if p.2 + r2 ≤ radius then
        fun x r => if x = v ∧ r = p.2 + r2 then lunion (d2 x r) (d2 p.1 r2) else d2 x r
      else d2) d) dar
  -- Push dominators to in-neighbourhood
  (in_neighbors g v).foldl (fun d p =>
    (List.range (radius + 1)).foldl (fun d2 r2 =>
      if p.2 + r2 ≤ radius then
        fun x r => if x = p.1 ∧ r = p.2 + r2 then lunion (d2 x r) (d2 v r2) else d2 x r
      else d2) d) dar1

/-- The cleanup loop of `assign_to_dominators` for one vertex
(rdomset.py 275-279): strip every dominator from the buckets above its
minimal distance, carrying the cumulated union of the already cleaned
buckets. -/
def atd_cleanup_vertex (radius : Nat) (darv : Nat → List Nat) : Nat → List Nat :=
  ((List.range (radius + 1)).foldl
    (fun st r =>
      let cleaned := lsdiff (st.1 r) st.2
      (upd st.1 r cleaned, lunion st.2 cleaned))
    (darv, [])).1

/-- Embedding of `assign_to_dominators(graph, domset, radius, comp)`
(rdomset.py 238-281): every dominator starts as a zero-distance dominator of
itself, two pull/push passes run over the vertex list, then the cleanup
keeps each dominator only at its minimal distance. -/
def assign_to_dominators (g : Graph) (domset : List Nat) (radius : Nat)
    (nodes : List Nat) : Nat → Nat → List Nat :=
  let init : Nat → Nat → List Nat :=
    fun v r => if r = 0 ∧ v ∈ domset then [v] else []
  let after := (List.range 2).foldl
    (fun dar _ => nodes.foldl (atd_vertex_step g radius) dar) init
  fun v => atd_cleanup_vertex radius (after v)

/-! ### Components and the domination graph (rdomset.py 283-368) -/

/-- Undirected adjacency: some arc of some weight joins `x` and `y`. -/
def adjU (g : Graph) (x y : Nat) : Prop :=
  ∃ a ∈ g.arcs, (a.1 = x ∧ a.2.1 = y) ∨ (a.1 = y ∧ a.2.1 = x)

instance (g : Graph) (x y : Nat) : Decidable (adjU g x y) := by
  unfold adjU; infer_instance

/-- One synchronous label-propagation round: every vertex of the graph takes
the minimum label of its closed undirected neighbourhood. -/
def ci_round (g : Graph) (lab : Nat → Nat) : Nat → Nat :=
  fun v =>
    if v ∈ g.nodes then
      g.arcs.foldl (fun m a =>
        if a.1 = v then min m (lab a.2.1)
        else if a.2.1 = v then min m (lab a.1) else m) (lab v)
    else lab v

/-- Modelled from the spec (§6): `component_index()` maps every vertex to a
component identifier, equal exactly for connected vertices.  The absent
collaborator's concrete label values are unspecified; the minimum vertex id
of the component, reached after `|V|` propagation rounds, is one
deterministic realisation. -/
def component_index (g : Graph) : Nat → Nat :=
  (ci_round g)^[g.nodes.length] id

/-- A walk of at most `k` undirected steps from `v` to `u` whose interior
(every vertex but possibly the endpoint) lies in the graph's node set; the
exact shape propagated by one `ci_round` per step. -/
def ci_walk (g : Graph) : Nat → Nat → Nat → Prop
  | 0, v, u => v = u
  | k + 1, v, u => v = u ∨ (v ∈ g.nodes ∧ ∃ m, adjU g v m ∧ ci_walk g k m u)

/-- Embedding of `make_connected(domgraph, domset, closest_dominators,
graph)` (rdomset.py 331-368): if the domination graph has more than one
component, scan every non-dominator's weight-1 in-neighbours and, whenever
an edge bridges two components, connect every pair of the two endpoints'
closest dominators.  `nodes` is the key set of `closest_dominators` (the
component's vertices). -/
def make_connected (domgraph : Graph) (domset : List Nat)
    (closest : Nat → List Nat) (g : Graph) (nodes : List Nat) : Graph :=
  let dom_components := component_index domgraph
  let num_comps := (domset.map dom_components).dedup.length
  -- don't do anything if it's already connected!
  if num_comps = 1 then domgraph
  else
    -- all of a vertex's dominators lie in one component, so the first
    -- listed one is a valid representative
    let nondom_components := fun u => dom_components ((closest u).headD 0)
    nodes.foldl (fun h u =>
      if u ∈ domset then h
      else (in_neighbors_w g u 1).foldl (fun h2 v =>
        if nondom_components u ≠ nondom_components v then
          (closest u).foldl (fun h3 x =>
            (closest v).foldl (fun h4 y => add_arc (add_arc h4 x y 1) y x 1) h3) h2
        else h2) h) domgraph

/-- The closest-dominator list of one vertex (rdomset.py 301-309): the
dominators at the smallest distance bearing any, listed in ascending order
(Python iterates a set of small integers; no conclusion below depends on the
order, only on the underlying set). -/
def closest_dominators_of (radius : Nat) (darv : Nat → List Nat) : List Nat :=
  sort_by_key (fun v => v)
    (((List.range (radius + 1)).filterMap
      (fun r => if darv r ≠ [] then some (darv r) else none)).headD [])

/-- The domination graph as it stands before `make_connected` runs
(the `domgraph` value of rdomset.py 294-323): the closest-dominator cliques
plus the adjacent-dominator arcs; named separately so the connectivity
argument can speak about the pre-bridging graph. -/
def dg_pre (g : Graph) (domset : List Nat) (radius : Nat) (nodes : List Nat) : Graph :=
  let dar := assign_to_dominators g domset radius nodes
  let closest := fun v => closest_dominators_of radius (dar v)
  let dg1 := nodes.foldl (fun h v =>
    (pairs_of (closest v)).foldl
      (fun h2 p => add_arc (add_arc h2 p.1 p.2 1) p.2 p.1 1) h)
    { nodes := domset, arcs := [] }
  domset.foldl (fun h v =>
    (sort_by_key (fun u => u) (dar v 1)).foldl
      (fun h2 u => add_arc (add_arc h2 u v 1) v u 1) h) dg1

/-- Embedding of `domination_graph(graph, domset, radius, comp)`
(rdomset.py 283-329): assign every vertex to its closest dominators, make
each closest-dominator set a clique, connect dominators adjacent at
distance 1, then repair connectivity with `make_connected`.  Returns the
domination graph and the closest-dominator map. -/
def domination_graph (g : Graph) (domset : List Nat) (radius : Nat)
    (nodes : List Nat) : Graph × (Nat → List Nat) :=
  let dar := assign_to_dominators g domset radius nodes
  let closest := fun v => closest_dominators_of radius (dar v)
  -- all closest dominating nodes should form a clique
  let dg1 := nodes.foldl (fun h v =>
    (pairs_of (closest v)).foldl
      (fun h2 p => add_arc (add_arc h2 p.1 p.2 1) p.2 p.1 1) h)
    { nodes := domset, arcs := [] }
  -- adjacent dominators should also be adjacent in the domination graph
  let dg2 := domset.foldl (fun h v =>
    (sort_by_key (fun u => u) (dar v 1)).foldl
      (fun h2 u => add_arc (add_arc h2 u v 1) v u 1) h) dg1
  (make_connected dg2 domset closest g nodes, closest)

/-! ### The CAtlas node structure (catlas.py 155-332) -/

/-- A CAtlas node (catlas.py 160-175): integer id, cDBG vertex, level, and
children.  Python shares child objects by reference; the inductive tree
duplicates shared children structurally, which leaves every record and map
computed below unchanged. -/
inductive CAtlas where
  | node (idx vertex level : Nat) (children : List CAtlas)

mutual

/-- Structural decidable equality on CAtlas nodes.  (Python's `seen` set
compares node objects by identity; structurally equal nodes emit identical
records, so conflating them is invisible in the emitted record list.) -/
def CAtlas.deq : (a b : CAtlas) → Decidable (a = b)
  | .node i v l c, .node j w m d =>
      match Nat.decEq i j with
      | isFalse h => isFalse (fun hh => by cases hh; exact h rfl)
      | isTrue h1 =>
        match Nat.decEq v w with
        | isFalse h => isFalse (fun hh => by cases hh; exact h rfl)
        | isTrue h2 =>
          match Nat.decEq l m with
          | isFalse h => isFalse (fun hh => by cases hh; exact h rfl)
          | isTrue h3 =>
            match CAtlas.deq_list c d with
            | isFalse h => isFalse (fun hh => by cases hh; exact h rfl)
            | isTrue h4 => isTrue (by rw [h1, h2, h3, h4])

def CAtlas.deq_list : (a b : List CAtlas) → Decidable (a = b)
  | [], [] => isTrue rfl
  | [], _ :: _ => isFalse (fun h => List.noConfusion h)
  | _ :: _, [] => isFalse (fun h => List.noConfusion h)
  | x :: xs, y :: ys =>
      match CAtlas.deq x y with
      | isFalse h => isFalse (fun hh => by cases hh; exact h rfl)
      | isTrue h1 =>
        match CAtlas.deq_list xs ys with
        | isFalse h => isFalse (fun hh => by cases hh; exact h rfl)
        | isTrue h2 => isTrue (by rw [h1, h2])

end

instance : DecidableEq CAtlas := CAtlas.deq

def CAtlas.idx : CAtlas → Nat
  | .node i _ _ _ => i

def CAtlas.vertex : CAtlas → Nat
  | .node _ v _ _ => v

def CAtlas.level : CAtlas → Nat
  | .node _ _ l _ => l

def CAtlas.children : CAtlas → List CAtlas
  | .node _ _ _ c => c

mutual

/-- Total number of nodes of the tree (with multiplicity), the termination
measure of the write traversal. -/
def CAtlas.size : CAtlas → Nat
  | .node _ _ _ c => 1 + CAtlas.size_list c

def CAtlas.size_list : List CAtlas → Nat
  | [] => 0
  | x :: xs => CAtlas.size x + CAtlas.size_list xs

end

/-- One record of the persisted line-oriented format: node id, cDBG vertex,
level, space-separated children ids (catlas.py 288-292; `int` rendering and
parsing are mutually inverse and elided). -/
abbrev CRecord := Nat × Nat × Nat × List Nat

def CAtlas.record : CAtlas → CRecord
  | .node i v l c => (i, v, l, c.map CAtlas.idx)

theorem size_list_append (l1 l2 : List CAtlas) :
    CAtlas.size_list (l1 ++ l2) = CAtlas.size_list l1 + CAtlas.size_list l2 := by
  induction l1 with
  | nil => simp [CAtlas.size_list]
  | cons x xs ih =>
      simp only [List.cons_append, CAtlas.size_list, List.append_eq] at ih ⊢
      omega

theorem size_list_reverse (l : List CAtlas) :
    CAtlas.size_list l.reverse = CAtlas.size_list l := by
  induction l with
  | nil => rfl
  | cons x xs ih =>
      simp only [List.reverse_cons, size_list_append, ih, CAtlas.size_list]
      omega

theorem size_list_filter_le (p : CAtlas → Bool) (l : List CAtlas) :
    CAtlas.size_list (l.filter p) ≤ CAtlas.size_list l := by
  induction l with
  | nil => simp [List.filter]
  | cons x xs ih =>
      cases hp : p x <;> simp [List.filter_cons, hp, CAtlas.size_list] <;> omega

theorem catlas_size_eq (a : CAtlas) :
    CAtlas.size a = 1 + CAtlas.size_list a.children := by
  cases a
  rfl

/-- The write traversal's measure strictly drops at every pop. -/
theorem write_measure_lt (curr : CAtlas) (rest : List CAtlas)
    (p : CAtlas → Bool) :
    CAtlas.size_list ((curr.children.filter p).reverse ++ rest) <
      CAtlas.size_list (curr :: rest) := by
  have h1 := size_list_filter_le p curr.children
  have h2 := size_list_append (curr.children.filter p).reverse rest
  have h3 := size_list_reverse (curr.children.filter p)
  have h4 := catlas_size_eq curr
  have h5 : CAtlas.size_list (curr :: rest) =
      CAtlas.size curr + CAtlas.size_list rest := rfl
  omega

/-- The stack/seen DFS of `CAtlas.write` (catlas.py 278-295): pop the top of
the stack, emit its record, mark it seen, push the not-yet-seen children.
Python's stack top is the list end; the head of the Lean list is used as the
top, with children pushed in reversed order so that pops agree.  The fuel
argument only bounds the number of pops, so that the kernel can evaluate the
traversal; `write_measure_lt` shows the summed node sizes of the stack drop
at every pop, so fuel at least that sum never runs out. -/
def write_go : Nat → List CAtlas → List CAtlas → List CRecord
  | _, [], _ => []
  | 0, _ :: _, _ => []
  | fuel + 1, curr :: rest, seen =>
      let seen2 := curr :: seen
      let pushed := (curr.children.filter (fun c => decide (c ∉ seen2))).reverse
      curr.record :: write_go fuel (pushed ++ rest) seen2

/-- The same DFS collecting the popped nodes themselves; `write_go` emits
exactly their records (`write_go_eq_visited`). -/
def write_visited : Nat → List CAtlas → List CAtlas → List CAtlas
  | _, [], _ => []
  | 0, _ :: _, _ => []
  | fuel + 1, curr :: rest, seen =>
      let seen2 := curr :: seen
      let pushed := (curr.children.filter (fun c => decide (c ∉ seen2))).reverse
      curr :: write_visited fuel (pushed ++ rest) seen2

/-- Embedding of `CAtlas.write` (catlas.py 278-295), as the list of emitted
records; the initial fuel covers the whole traversal. -/
def CAtlas.write (a : CAtlas) : List CRecord :=
  write_go (CAtlas.size a) [a] []

mutual

/-- Every node reachable from `a` through children (with multiplicity). -/
def CAtlas.reach : CAtlas → List CAtlas
  | .node i v lv c => .node i v lv c :: CAtlas.reach_list c

def CAtlas.reach_list : List CAtlas → List CAtlas
  | [] => []
  | x :: xs => CAtlas.reach x ++ CAtlas.reach_list xs

end

/-- State built by the record loop of `CAtlas.read` (catlas.py 300-325):
the length of the `children`/`nodes` arrays, the accumulated children-id
lists, and the latest `(vertex, level)` stored for every id. -/
structure ReadState where
  len : Nat
  childIds : Nat → List Nat
  entry : Nat → Option (Nat × Nat)

def read_init : ReadState :=
  { len := 0, childIds := fun _ => [], entry := fun _ => none }

/-- Processing of one line of the catlas file (catlas.py 304-325): extend
the arrays up to the node id, append the children ids, store the node. -/
def read_record (st : ReadState) (rec : CRecord) : ReadState :=
  { len := max st.len (rec.1 + 1),
    childIds := upd st.childIds rec.1 (st.childIds rec.1 ++ rec.2.2.2),
    entry := upd st.entry rec.1 (some (rec.2.1, rec.2.2.1)) }

/-- The linking loop of `CAtlas.read` (catlas.py 327-330), which in Python
mutates `children` lists of shared node objects; reconstructed here by
recursion with fuel (on well-formed files children ids are strictly below
their parent's id, so `len` rounds reach every node). -/
def link_node (st : ReadState) : Nat → Nat → CAtlas
  | 0, i => CAtlas.node i ((st.entry i).getD (0, 0)).1 ((st.entry i).getD (0, 0)).2 []
  | fuel + 1, i =>
      CAtlas.node i ((st.entry i).getD (0, 0)).1 ((st.entry i).getD (0, 0)).2
        ((st.childIds i).map (link_node st fuel))

/-- Embedding of `CAtlas.read` (catlas.py 297-332): fold the records, link
children, return `nodes[-1]` -- the node with the largest id. -/
def CAtlas.read (recs : List CRecord) : CAtlas :=
  let st := recs.foldl read_record read_init
  link_node st st.len (st.len - 1)

/-! ### The checkpoint sanity check (`Project.__handle_missing_nodes`) -/

/-- The per-vertex loop of `__handle_missing_nodes` (catlas.py 128-134): a
missing vertex with exactly one dominating parent is inserted as an isolated
vertex, any other parent count raises `ValueError`. -/
def handle_missing_loop (pc : Nat → Nat) : List Nat → Graph → Except Unit Graph
  | [], g => .ok g
  | v :: vs, g =>
      if pc v ≠ 1 then .error ()
      else handle_missing_loop pc vs (add_node g v)

/-- The `missing` set of `__handle_missing_nodes` (catlas.py 111): the
node-map vertices absent from the restored graph, in key order. -/
def missing_of (level_nodes : List (Nat × CAtlas)) (g : Graph) : List Nat :=
  (level_nodes.map (fun p => p.1)).filter (fun v => v ∉ g.nodes)

/-- The `parent_count` table of `__handle_missing_nodes` (catlas.py
124-127): how many children entries of the restored nodes carry vertex
`u`. -/
def parent_count_of (level_nodes : List (Nat × CAtlas)) (u : Nat) : Nat :=
  (level_nodes.map
    (fun p => (p.2.children.filter (fun c => c.vertex = u)).length)).sum

/-- Embedding of `Project.__handle_missing_nodes` (catlas.py 107-134).
`level_nodes` is the restored vertex-to-node association of the checkpoint,
`g` the restored graph, `level` the restored level; the result is the graph
with missing isolated vertices re-inserted, or the raised `ValueError`. -/
def handle_missing_nodes (level_nodes : List (Nat × CAtlas)) (g : Graph)
    (level : Nat) : Except Unit Graph :=
  let num_missing : Int := (level_nodes.length : Int) - (g.nodes.length : Int)
  if 0 < num_missing then
    if level = 1 then
      -- at level 1 the domination relationship is not captured by the
      -- children, so the vertices are assumed isolated and inserted
      Except.ok ((missing_of level_nodes g).foldl add_node g)
    else
      handle_missing_loop (parent_count_of level_nodes) (missing_of level_nodes g) g
  else
    Except.ok g

/-! ### The hierarchical builder (`CAtlas.build` and `_build_level`) -/

/-- Embedding of `CAtlas._build_level(graph, radius, level, min_id,
prev_nodes)` (catlas.py 231-259): run the radius-`r` pipeline, invert the
closest-dominator assignment, and create one CAtlas node per dominator with
ids continuing from `min_id`.  Returns the per-vertex node association (in
dominator order), the domination graph, and the dominator-to-dominated
map. -/
def build_level (g : Graph) (radius level min_id : Nat)
    (prev_nodes : Option (List (Nat × CAtlas))) :
    List (Nat × CAtlas) × Graph × List (Nat × List Nat) :=
  let gd := rdomset g radius g.nodes
  let g1 := gd.1
  let domset := gd.2.domset
  let dgc := domination_graph g1 domset radius g1.nodes
  let dominated := domset.map (fun v => (v, g1.nodes.filter (fun u => v ∈ dgc.2 u)))
  let mk_children : Nat → List CAtlas := fun v =>
    match prev_nodes with
    | none => []
    | some pn =>
        (((dominated.lookup v).getD []).filterMap (fun u => pn.lookup u))
  let assoc := domset.enum.map
    (fun p => (p.2, CAtlas.node (min_id + p.1) p.2 level (mk_children p.2)))
  (assoc, dgc.1, dominated)

/-- The project state threaded through `CAtlas.build` (catlas.py 18-34,
177-229): current graph, previous level's node map, running id counter,
level, and configured radius. -/
structure ProjState where
  graph : Graph
  level_nodes : Option (List (Nat × CAtlas))
  idx : Nat
  level : Nat
  r : Nat

/-- Embedding of the `while True` loop of `CAtlas.build` (catlas.py
177-229) with explicit fuel bounding the number of levels (the source
iterates until the size threshold is reached; any sufficiently large fuel
gives the source's behaviour).  Checkpoint and domination-file writes are
external output and are dropped.  `LEVEL_THRESHOLD = 10`. -/
def build_loop : Nat → ProjState → Option CAtlas
  | 0, _ => none
  | fuel + 1, proj =>
      let r := level_radius proj.r proj.level
      let bl := build_level proj.graph r proj.level proj.idx proj.level_nodes
      let nodes := bl.1
      let domgraph := bl.2.1
      let idx2 := proj.idx + nodes.length
      let level2 := proj.level + 1
      if domgraph.nodes.length ≤ 10 ∨
          domgraph.nodes.length = proj.graph.nodes.length then
        let root_children := nodes.map (fun p => p.2)
        some (CAtlas.node idx2 (root_children.headD (CAtlas.node 0 0 0 [])).vertex
          level2 root_children)
      else
        build_loop fuel
          { graph := domgraph, level_nodes := some nodes,
            idx := idx2, level := level2, r := proj.r }

/-- Embedding of `CAtlas.build(proj)` for a fresh project (no checkpoint):
level 0, empty node map, id counter 0. -/
def catlas_build (g : Graph) (r fuel : Nat) : Option CAtlas :=
  build_loop fuel { graph := g, level_nodes := none, idx := 0, level := 0, r := r }

/-! ### Small concrete inputs used by witnesses and counterexamples -/

/-- A single undirected edge 0-1 as an antiparallel weight-1 arc pair. -/
def edge_graph : Graph :=
  { nodes := [0, 1], arcs := [(0, 1, 1), (1, 0, 1)] }

/-- The path 0-1-2 with every edge as an antiparallel weight-1 arc pair. -/
def path3_graph : Graph :=
  { nodes := [0, 1, 2],
    arcs := [(0, 1, 1), (1, 0, 1), (1, 2, 1), (2, 1, 1)] }

/-- Two disjoint triangles 0-1-2 and 3-4-5, a disconnected base graph (every
edge as an antiparallel weight-1 arc pair). -/
def two_triangles : Graph :=
  { nodes := [0, 1, 2, 3, 4, 5],
    arcs := [(0, 1, 1), (1, 0, 1), (1, 2, 1), (2, 1, 1), (0, 2, 1), (2, 0, 1),
             (3, 4, 1), (4, 3, 1), (4, 5, 1), (5, 4, 1), (3, 5, 1), (5, 3, 1)] }

/-- A restored level-1 checkpoint node map whose vertex 7 is missing from the
restored graph `cp_graph_cex` and has zero dominating parents. -/
def cp_nodes_cex : List (Nat × CAtlas) :=
  [(5, CAtlas.node 0 5 0 []), (7, CAtlas.node 1 7 0 [])]

/-- The restored graph of the level-1 checkpoint counterexample. -/
def cp_graph_cex : Graph := { nodes := [5], arcs := [] }

/-- A two-level atlas: a root (id 2) over two leaves (ids 0 and 1). -/
def atlas2 : CAtlas :=
  CAtlas.node 2 9 1 [CAtlas.node 0 10 0 [], CAtlas.node 1 11 0 []]

end SGC

namespace SGC

/-! Lemmas about `compute_domset` leading to claim C1. -/

theorem upd_same {α : Type} (f : Nat → α) (k : Nat) (a : α) : upd f k a k = a := by
  simp [upd]

theorem upd_other {α : Type} (f : Nat → α) (k x : Nat) (a : α) (h : x ≠ k) :
    upd f k a x = f x := by
  simp [upd, h]

/-- Relaxation folds only ever decrease the distance map pointwise. -/
theorem relax_fold_le (l : List (Nat × Nat)) (v : Nat) (d : Nat → ℕ∞) (x : Nat) :
    l.foldl (fun d p => upd d v (min (d v) ((p.2 : ℕ∞) + d p.1))) d x ≤ d x := by
  induction l generalizing d with
  | nil => exact le_rfl
  | cons p l ih =>
      refine le_trans (ih _) ?_
      by_cases hx : x = v
      · subst hx; simp [upd]
      · simp [upd, hx]

/-- The neighbour-update fold of a fresh dominator only decreases distances. -/
theorem relax_nbrs_le (l : List (Nat × Nat)) (d : Nat → ℕ∞) (x : Nat) :
    l.foldl (fun d p => upd d p.1 (min (d p.1) (p.2 : ℕ∞))) d x ≤ d x := by
  induction l generalizing d with
  | nil => exact le_rfl
  | cons p l ih =>
      refine le_trans (ih _) ?_
      by_cases hx : x = p.1
      · subst hx; simp [upd]
      · simp [upd, hx]

theorem compute_domset_step_dd_le (g : Graph) (radius : Nat) (st : DomsetResult)
    (v x : Nat) (hx : x ∉ (compute_domset_step g radius st v).domset) :
    (compute_domset_step g radius st v).domdistance x ≤ st.domdistance x := by
  unfold compute_domset_step
  by_cases h1 : st.domdistance v ≤ (radius : ℕ∞)
  · simp [h1]
  · simp only [h1, if_false]
    set dd := (in_neighbors g v).foldl
      (fun d p => upd d v (min (d v) ((p.2 : ℕ∞) + d p.1))) st.domdistance with hdd
    by_cases h2 : dd v ≤ (radius : ℕ∞)
    · simpa [h2] using relax_fold_le (in_neighbors g v) v st.domdistance x
    · simp only [h2, if_false]
      refine le_trans (relax_nbrs_le _ _ x) ?_
      by_cases hxv : x = v
      · subst hxv
        -- x = v would be a member of the new domset, contradiction
        exfalso
        apply hx
        unfold compute_domset_step
        simp [h1, ← hdd, h2]
      · rw [upd_other _ _ _ _ hxv]
        exact relax_fold_le _ _ _ x

theorem compute_domset_step_domset_mono (g : Graph) (radius : Nat)
    (st : DomsetResult) (v : Nat) :
    st.domset ⊆ (compute_domset_step g radius st v).domset := by
  unfold compute_domset_step
  by_cases h1 : st.domdistance v ≤ (radius : ℕ∞)
  · simp [h1]
  · simp only [h1, if_false]
    by_cases h2 : (in_neighbors g v).foldl
        (fun d p => upd d v (min (d v) ((p.2 : ℕ∞) + d p.1))) st.domdistance v ≤ (radius : ℕ∞)
    · simp [h2]
    · simp only [h2, if_false]
      intro x hxm
      exact List.mem_append_left _ hxm

/-- Processing step preserves "every collected dominator has distance 0". -/
theorem compute_domset_step_zero (g : Graph) (radius : Nat) (st : DomsetResult)
    (v : Nat) (h0 : ∀ u ∈ st.domset, st.domdistance u = 0) :
    ∀ u ∈ (compute_domset_step g radius st v).domset,
      (compute_domset_step g radius st v).domdistance u = 0 := by
  intro u hu
  unfold compute_domset_step at hu ⊢
  by_cases h1 : st.domdistance v ≤ (radius : ℕ∞)
  · simp only [h1, if_true] at hu ⊢
    exact h0 u hu
  · simp only [h1, if_false] at hu ⊢
    set dd := (in_neighbors g v).foldl
      (fun d p => upd d v (min (d v) ((p.2 : ℕ∞) + d p.1))) st.domdistance with hdd
    by_cases h2 : dd v ≤ (radius : ℕ∞)
    · simp only [h2, if_true] at hu ⊢
      have hle : dd u ≤ st.domdistance u := relax_fold_le _ _ _ u
      rw [h0 u hu] at hle
      exact le_antisymm hle (zero_le _)
    · simp only [h2, if_false] at hu ⊢
      have hmem : u ∈ st.domset ∨ u = v := by
        rcases List.mem_append.mp hu with h | h
        · exact Or.inl h
        · exact Or.inr (List.mem_singleton.mp h)
      have hdd0 : upd dd v 0 u = 0 := by
        rcases hmem with h | h
        · by_cases huv : u = v
          · subst huv; exact upd_same _ _ _
          · rw [upd_other _ _ _ _ huv]
            have hle : dd u ≤ st.domdistance u := relax_fold_le _ _ _ u
            rw [h0 u h] at hle
            exact le_antisymm hle (zero_le _)
        · subst h; exact upd_same _ _ _
      have hle2 := relax_nbrs_le (in_neighbors g v) (upd dd v 0) u
      rw [hdd0] at hle2
      exact le_antisymm hle2 (zero_le _)

/-- After its own processing step, a vertex is either a dominator or
dominated within the radius. -/
theorem compute_domset_step_self (g : Graph) (radius : Nat) (st : DomsetResult)
    (v : Nat) :
    v ∈ (compute_domset_step g radius st v).domset ∨
      (compute_domset_step g radius st v).domdistance v ≤ (radius : ℕ∞) := by
  unfold compute_domset_step
  by_cases h1 : st.domdistance v ≤ (radius : ℕ∞)
  · right; simp [h1]
  · simp only [h1, if_false]
    set dd := (in_neighbors g v).foldl
      (fun d p => upd d v (min (d v) ((p.2 : ℕ∞) + d p.1))) st.domdistance with hdd
    by_cases h2 : dd v ≤ (radius : ℕ∞)
    · right; simp [h2]
    · left; simp [h2]

/-- The collected dominator list only grows along the processing fold. -/
theorem compute_domset_fold_domset_mono (g : Graph) (radius : Nat) (l : List Nat)
    (st : DomsetResult) :
    st.domset ⊆ (l.foldl (compute_domset_step g radius) st).domset := by
  induction l generalizing st with
  | nil => exact fun x h => h
  | cons v l ih =>
      intro x hx
      exact ih _ (compute_domset_step_domset_mono g radius st v hx)

/-- Fold version of pointwise decrease (for vertices not collected later). -/
theorem compute_domset_fold_dd_le (g : Graph) (radius : Nat) (l : List Nat)
    (st : DomsetResult) (x : Nat)
    (hx : x ∉ (l.foldl (compute_domset_step g radius) st).domset) :
    (l.foldl (compute_domset_step g radius) st).domdistance x ≤ st.domdistance x := by
  induction l generalizing st with
  | nil => exact le_rfl
  | cons v l ih =>
      simp only [List.foldl_cons] at hx ⊢
      have hx1 : x ∉ (compute_domset_step g radius st v).domset := by
        intro hmem
        exact hx (compute_domset_fold_domset_mono g radius l _ hmem)
      exact le_trans (ih _ hx) (compute_domset_step_dd_le g radius st v x hx1)

/-- Fold version of the dominator-distance-zero invariant. -/
theorem compute_domset_fold_zero (g : Graph) (radius : Nat) (l : List Nat)
    (st : DomsetResult) (h0 : ∀ u ∈ st.domset, st.domdistance u = 0) :
    ∀ u ∈ (l.foldl (compute_domset_step g radius) st).domset,
      (l.foldl (compute_domset_step g radius) st).domdistance u = 0 := by
  induction l generalizing st with
  | nil => exact h0
  | cons v l ih =>
      simp only [List.foldl_cons]
      exact ih _ (compute_domset_step_zero g radius st v h0)

/-- Every processed vertex ends up a dominator or dominated within radius. -/
theorem compute_domset_fold_covers (g : Graph) (radius : Nat) (l : List Nat)
    (v : Nat) : ∀ st : DomsetResult, v ∈ l →
    v ∈ (l.foldl (compute_domset_step g radius) st).domset ∨
      (l.foldl (compute_domset_step g radius) st).domdistance v ≤ (radius : ℕ∞) := by
  induction l with
  | nil => intro st hv; cases hv
  | cons w l ih =>
      intro st hv
      simp only [List.foldl_cons]
      rcases List.mem_cons.mp hv with h | h
      · subst h
        rcases compute_domset_step_self g radius st v with hmem | hle
        · exact Or.inl (compute_domset_fold_domset_mono g radius l _ hmem)
        · by_cases hfin : v ∈ (l.foldl (compute_domset_step g radius)
              (compute_domset_step g radius st v)).domset
          · exact Or.inl hfin
          · exact Or.inr (le_trans (compute_domset_fold_dd_le g radius l _ v hfin) hle)
      · exact ih _ h

/-- Sorted insertion produces a permutation (so the processing order covers
exactly the supplied vertices). -/
theorem insert_by_key_perm (key : Nat → Nat) (v : Nat) (l : List Nat) :
    (insert_by_key key v l).Perm (v :: l) := by
  induction l with
  | nil => simp [insert_by_key]
  | cons x xs ih =>
      by_cases h : key x ≤ key v
      · simp only [insert_by_key, h, if_true]
        exact List.Perm.trans (List.Perm.cons x ih) (List.Perm.swap v x xs)
      · simp [insert_by_key, h]

theorem sort_by_key_perm (key : Nat → Nat) (l : List Nat) :
    (sort_by_key key l).Perm l := by
  suffices h : ∀ acc : List Nat,
      (l.foldl (fun acc v => insert_by_key key v acc) acc).Perm (acc ++ l) by
    simpa using h []
  induction l with
  | nil => simp
  | cons v xs ih =>
      intro acc
      simp only [List.foldl_cons]
      refine (ih _).trans ?_
      exact ((insert_by_key_perm key v acc).append_right xs).trans List.perm_middle.symm

/-- C1: for every graph (in particular every dtf-augmented one), radius, and
processed vertex set, `compute_domset` returns a dominator set `D` and a
domination-distance map such that at the end every processed vertex not in
`D` has distance at most the radius and every vertex of `D` has distance
exactly 0. -/
theorem compute_domset_domination (g : Graph) (radius : Nat) (nodes : List Nat)
    (v : Nat) (hv : v ∈ nodes) :
    (v ∉ (compute_domset g radius nodes).domset →
      (compute_domset g radius nodes).domdistance v ≤ (radius : ℕ∞)) ∧
    (v ∈ (compute_domset g radius nodes).domset →
      (compute_domset g radius nodes).domdistance v = 0) := by
  constructor
  · intro hnot
    have hvord : v ∈ sort_by_key (in_degree g) nodes :=
      (sort_by_key_perm (in_degree g) nodes).mem_iff.mpr hv
    rcases compute_domset_fold_covers g radius (sort_by_key (in_degree g) nodes) v
        { domset := [], domdistance := fun _ => ⊤ } hvord with h | h
    · exact absurd h hnot
    · exact h
  · intro hmem
    exact compute_domset_fold_zero g radius (sort_by_key (in_degree g) nodes)
      { domset := [], domdistance := fun _ => ⊤ } (by intro u hu; cases hu) v hmem

/-- Witness for C1 on the single-edge graph at radius 1. -/
theorem compute_domset_domination_witness :
    (0 : Nat) ∈ [0, 1] ∧
    ((0 ∉ (compute_domset edge_graph 1 [0, 1]).domset →
        (compute_domset edge_graph 1 [0, 1]).domdistance 0 ≤ (1 : ℕ∞)) ∧
      (0 ∈ (compute_domset edge_graph 1 [0, 1]).domset →
        (compute_domset edge_graph 1 [0, 1]).domdistance 0 = 0)) :=
  ⟨by decide, compute_domset_domination edge_graph 1 [0, 1] 0 (by decide)⟩

/-! ### The stable sort used by `compute_domset` (claims C5) -/

theorem insert_by_key_sorted (key : Nat → Nat) (v : Nat) (l : List Nat)
    (hs : l.Sorted (fun a b => key a ≤ key b)) :
    (insert_by_key key v l).Sorted (fun a b => key a ≤ key b) := by
  induction l with
  | nil => simp [insert_by_key]
  | cons x xs ih =>
      rw [List.sorted_cons] at hs
      by_cases h : key x ≤ key v
      · simp only [insert_by_key, h, if_true, List.sorted_cons]
        refine ⟨?_, ih hs.2⟩
        intro b hb
        have hb2 : b ∈ v :: xs := (insert_by_key_perm key v xs).mem_iff.mp hb
        rcases List.mem_cons.mp hb2 with hb3 | hb3
        · exact hb3 ▸ h
        · exact hs.1 b hb3
      · have hvx : key v ≤ key x := le_of_not_le h
        simp only [insert_by_key, h, if_false, List.sorted_cons]
        refine ⟨?_, ?_⟩
        · intro b hb
          rcases List.mem_cons.mp hb with hb3 | hb3
          · exact hb3 ▸ hvx
          · exact le_trans hvx (hs.1 b hb3)
        · exact ⟨hs.1, hs.2⟩

theorem insert_by_key_filter (key : Nat → Nat) (v : Nat) (l : List Nat)
    (hs : l.Sorted (fun a b => key a ≤ key b)) (k : Nat) :
    (insert_by_key key v l).filter (fun x => key x == k) =
      if key v = k then l.filter (fun x => key x == k) ++ [v]
      else l.filter (fun x => key x == k) := by
  induction l with
  | nil =>
      by_cases hv : key v = k <;>
        simp [insert_by_key, List.filter_cons, beq_iff_eq, hv]
  | cons x xs ih =>
      rw [List.sorted_cons] at hs
      by_cases h : key x ≤ key v
      · have ihx := ih hs.2
        have hins : insert_by_key key v (x :: xs) = x :: insert_by_key key v xs := by
          simp [insert_by_key, h]
        rw [hins, List.filter_cons, ihx, List.filter_cons]
        by_cases hx : key x = k <;> by_cases hv : key v = k <;>
          simp [beq_iff_eq, hx, hv]
      · have hxgt : key v < key x := lt_of_not_le h
        have hins : insert_by_key key v (x :: xs) = v :: x :: xs := by
          simp [insert_by_key, h]
        rw [hins]
        by_cases hv : key v = k
        · have hxs : xs.filter (fun y => key y == k) = [] := by
            rw [List.filter_eq_nil_iff]
            intro a ha
            have h1 := hs.1 a ha
            simp only [beq_iff_eq]
            omega
          have hxk : ¬ key x = k := by omega
          simp [List.filter_cons, beq_iff_eq, hv, hxk, hxs]
        · simp [List.filter_cons, beq_iff_eq, hv]

theorem sort_by_key_sorted (key : Nat → Nat) (l : List Nat) :
    (sort_by_key key l).Sorted (fun a b => key a ≤ key b) := by
  suffices h : ∀ acc : List Nat, acc.Sorted (fun a b => key a ≤ key b) →
      (l.foldl (fun acc v => insert_by_key key v acc) acc).Sorted
        (fun a b => key a ≤ key b) by
    exact h [] (by simp)
  induction l with
  | nil => intro acc hacc; simpa using hacc
  | cons v xs ih =>
      intro acc hacc
      simp only [List.foldl_cons]
      exact ih _ (insert_by_key_sorted key v acc hacc)

/-- Stability of the sort: vertices of any fixed key keep their original
relative order. -/
theorem sort_by_key_stable (key : Nat → Nat) (l : List Nat) (k : Nat) :
    (sort_by_key key l).filter (fun x => key x == k) =
      l.filter (fun x => key x == k) := by
  suffices h : ∀ acc : List Nat, acc.Sorted (fun a b => key a ≤ key b) →
      (l.foldl (fun acc v => insert_by_key key v acc) acc).filter
          (fun x => key x == k) =
        acc.filter (fun x => key x == k) ++ l.filter (fun x => key x == k) by
    simpa using h [] (by simp)
  induction l with
  | nil => intro acc hacc; simp
  | cons v xs ih =>
      intro acc hacc
      simp only [List.foldl_cons, List.filter_cons]
      rw [ih _ (insert_by_key_sorted key v acc hacc),
          insert_by_key_filter key v acc hacc k]
      by_cases hv : key v = k
      · simp [hv]
      · simp [hv, beq_iff_eq]

/-- C5 (counterexample): on the path 0-1-2 at radius 2, the order
`compute_domset` processes inside `rdomset` is the ascending order of the
dtf-augmented in-degrees, `[1, 0, 2]`, and not the spec's order by
pre-augmentation in-degree with ties broken by id, `[0, 2, 1]`. -/
theorem rdomset_order_cex :
    domset_order (dtf path3_graph 2 [0, 1, 2]) [0, 1, 2] = [1, 0, 2] ∧
    spec_domset_order path3_graph [0, 1, 2] = [0, 2, 1] ∧
    domset_order (dtf path3_graph 2 [0, 1, 2]) [0, 1, 2] ≠
      spec_domset_order path3_graph [0, 1, 2] := by
  refine ⟨by decide, by decide, by decide⟩

/-- C5 (amended): inside `rdomset`, `compute_domset` processes the vertices
in ascending order of in-degree of the graph as dtf-augmented at the moment
it is called (not the pre-augmentation degree); the ordering is computed
once, is a permutation of the node list, and ties are broken by the position
of the vertex in the node iteration order (the sort is stable). -/
theorem rdomset_order_properties (g : Graph) (radius : Nat) (nodes : List Nat) :
    (rdomset g radius nodes).2 =
      compute_domset (dtf g radius nodes) radius nodes ∧
    (domset_order (dtf g radius nodes) nodes).Perm nodes ∧
    (domset_order (dtf g radius nodes) nodes).Sorted
      (fun a b => in_degree (dtf g radius nodes) a ≤ in_degree (dtf g radius nodes) b) ∧
    ∀ k, (domset_order (dtf g radius nodes) nodes).filter
        (fun v => in_degree (dtf g radius nodes) v == k) =
      nodes.filter (fun v => in_degree (dtf g radius nodes) v == k) :=
  ⟨rfl, sort_by_key_perm _ nodes, sort_by_key_sorted _ nodes,
    fun k => sort_by_key_stable _ nodes k⟩

/-! ### Arc-pair resolution in the peeling loop (claim C4) -/

/-- C4 (counterexample): peeling the single edge 0-1 removes vertex 0 first
(its bucket position precedes vertex 1's when 1 is extracted), and the pair
is resolved by deleting the arc `0 → 1`, so that only `1 → 0` survives -- not
`0 → 1` as claimed. -/
theorem ldo_resolution_direction_cex :
    (ldo_run edge_graph [0, 1] 1).location 0 <
      (ldo_run edge_graph [0, 1] 1).location 1 ∧
    (ldo_run edge_graph [0, 1] 1).bins.getD 1 0 = 1 ∧
    (0, 1, 1) ∉ (low_degree_orientation edge_graph [0, 1]).arcs ∧
    (1, 0, 1) ∈ (low_degree_orientation edge_graph [0, 1]).arcs := by
  refine ⟨by decide, by decide, by decide, by decide⟩

/-- C4 (amended): in the peeling loop, when the extracted vertex `v` reaches
an in-neighbour `u` that was already removed (`u`'s bucket position precedes
`v`'s), the antiparallel pair between them is resolved so that only the arc
`v → u` remains: every arc `u → v` is deleted and every arc `v → u` is kept
(the survivor points toward the earlier-removed vertex). -/
theorem ldo_nbr_step_resolves (s : LdoState) (v u : Nat)
    (hloc : s.location u < s.location v) :
    (∀ w, (u, v, w) ∉ (ldo_nbr_step v s u).graph.arcs) ∧
    (∀ w, (v, u, w) ∈ s.graph.arcs → (v, u, w) ∈ (ldo_nbr_step v s u).graph.arcs) := by
  have huv : u ≠ v := fun h => absurd hloc (h ▸ lt_irrefl _)
  unfold ldo_nbr_step
  simp only [hloc, if_true]
  constructor
  · intro w hw
    have := List.of_mem_filter hw
    simp at this
  · intro w hw
    refine List.mem_filter.mpr ⟨hw, ?_⟩
    simp [huv.symm]

/-- Witness for the amended C4 on the state right after extracting vertex 0
from the single-edge graph. -/
theorem ldo_nbr_step_resolves_witness :
    (ldo_run edge_graph [0, 1] 1).location 0 <
      (ldo_run edge_graph [0, 1] 1).location 1 ∧
    ((∀ w, (0, 1, w) ∉
        (ldo_nbr_step 1 (ldo_run edge_graph [0, 1] 1) 0).graph.arcs) ∧
      (∀ w, (1, 0, w) ∈ (ldo_run edge_graph [0, 1] 1).graph.arcs →
        (1, 0, w) ∈ (ldo_nbr_step 1 (ldo_run edge_graph [0, 1] 1) 0).graph.arcs)) :=
  ⟨by decide, ldo_nbr_step_resolves (ldo_run edge_graph [0, 1] 1) 1 0 (by decide)⟩

/-! ### The dtf postcondition on the 3-path (claim C2) -/

/-- C2 (failing input): on the path 0-1-2 (all edges as antiparallel weight-1
arc pairs) the true shortest distance between 0 and 2 is exactly 2, yet after
`dtf` to radius 2 no arc joins 0 and 2 in either direction: the peeling loop
orients both edges away from vertex 1, after which 0 and 2 have no outgoing
arcs and no shared out-neighbour, so neither a transitive nor a fraternal
pair ever joins them.  This contradicts the postcondition stated in `dtf`'s
own docstring (rdomset.py 170-173). -/
theorem dtf_path3_postcondition_fails :
    (within path3_graph 2 0 2 ∧ ¬ within path3_graph 1 0 2) ∧
    has_arc (dtf path3_graph 2 [0, 1, 2]) 0 2 = false ∧
    has_arc (dtf path3_graph 2 [0, 1, 2]) 2 0 = false := by
  refine ⟨⟨?_, ?_⟩, by decide, by decide⟩
  · exact Or.inr ⟨1, by decide, by decide, Or.inr ⟨2, by decide, by decide, rfl⟩⟩
  · decide

/-! ### Radius-1 dtf is orientation only (claim C10) -/

theorem ldo_nbr_step_arcs_subset (v : Nat) (s : LdoState) (u : Nat) :
    (ldo_nbr_step v s u).graph.arcs ⊆ s.graph.arcs := by
  unfold ldo_nbr_step
  by_cases h : s.location u < s.location v
  · simp only [h, if_true]
    exact fun a ha => List.mem_of_mem_filter ha
  · simp only [h, if_false]
    split <;> exact fun a ha => ha

theorem foldl_nbr_arcs_subset (v : Nat) (l : List Nat) (s : LdoState) :
    (l.foldl (ldo_nbr_step v) s).graph.arcs ⊆ s.graph.arcs := by
  induction l generalizing s with
  | nil => exact fun a ha => ha
  | cons u l ih =>
      exact fun a ha => ldo_nbr_step_arcs_subset v s u (ih _ ha)

theorem ldo_extract_arcs_subset (s : LdoState) (curr : Nat) :
    (ldo_extract s curr).graph.arcs ⊆ s.graph.arcs := by
  have h : ∀ s1 : LdoState, s1.graph = s.graph → ∀ (v : Nat) (l : List Nat),
      (l.foldl (ldo_nbr_step v) s1).graph.arcs ⊆ s.graph.arcs := by
    intro s1 hg v l a ha
    have h2 := foldl_nbr_arcs_subset v l s1 ha
    rwa [hg] at h2
  simp only [ldo_extract]
  apply h
  rfl

theorem low_degree_orientation_arcs_subset (g : Graph) (comp : List Nat) :
    (low_degree_orientation g comp).arcs ⊆ g.arcs := by
  unfold low_degree_orientation
  by_cases h : comp.length = 0
  · simp [h]
  · simp only [h, if_false]
    unfold ldo_run
    have hsetup : (ldo_setup g comp).graph = g := rfl
    generalize hl : List.range comp.length = l
    clear hl
    induction l using List.reverseRecOn with
    | nil => simp [hsetup]
    | append_singleton l curr ih =>
        simp only [List.foldl_append, List.foldl_cons, List.foldl_nil]
        exact fun a ha => ih (ldo_extract_arcs_subset _ curr ha)

/-- C10: with radius exactly 1, `dtf` performs only the low-degree
orientation and never executes an augmentation step; if every input arc has
weight 1, the result has no arc of weight 2 or more; and in `CAtlas.build`
every hierarchy level above level 0 requests radius exactly 1, hence
coarsens by orientation alone. -/
theorem dtf_radius_one_orientation_only (g : Graph) (nodes : List Nat)
    (hw : ∀ a ∈ g.arcs, a.2.2 = 1) :
    dtf g 1 nodes = low_degree_orientation g nodes ∧
    (∀ a ∈ (dtf g 1 nodes).arcs, a.2.2 = 1) ∧
    (∀ r level, 0 < level → level_radius r level = 1) := by
  refine ⟨rfl, ?_, ?_⟩
  · intro a ha
    have : a ∈ g.arcs := by
      have h1 : (dtf g 1 nodes).arcs ⊆ (low_degree_orientation g nodes).arcs := by
        intro x hx; exact hx
      exact low_degree_orientation_arcs_subset g nodes (h1 ha)
    exact hw a this
  · intro r level hlevel
    unfold level_radius
    simp [Nat.pos_iff_ne_zero.mp hlevel]

/-- Witness for C10 on the single-edge graph. -/
theorem dtf_radius_one_orientation_only_witness :
    (∀ a ∈ edge_graph.arcs, a.2.2 = 1) ∧
    (dtf edge_graph 1 [0, 1] = low_degree_orientation edge_graph [0, 1] ∧
      (∀ a ∈ (dtf edge_graph 1 [0, 1]).arcs, a.2.2 = 1) ∧
      (∀ r level, 0 < level → level_radius r level = 1)) :=
  ⟨by decide, dtf_radius_one_orientation_only edge_graph [0, 1] (by decide)⟩

/-! ### Disconnected input and `CAtlas.build` (claim C7) -/

/-- Walks of the two-triangle graph never leave the first triangle. -/
theorem two_triangles_component_closed (x z : Nat) (hx : x ∈ [0, 1, 2])
    (hz : Relation.ReflTransGen (adjU two_triangles) x z) : z ∈ [0, 1, 2] := by
  induction hz with
  | refl => exact hx
  | tail hab hadj ih =>
      rcases hadj with ⟨a, ha, hcase⟩
      fin_cases ha <;> rcases hcase with ⟨h1, h2⟩ | ⟨h1, h2⟩ <;>
        subst h1 <;> subst h2 <;> revert ih <;> decide

/-- C7 (counterexample): the two-triangle base graph is disconnected (vertex
0 cannot reach vertex 3), yet `CAtlas.build` raises no error at all: it runs
to completion and returns an index root. -/
theorem build_disconnected_no_error_cex :
    (0 ∈ two_triangles.nodes ∧ 3 ∈ two_triangles.nodes ∧
      ¬ Relation.ReflTransGen (adjU two_triangles) 0 3) ∧
    (catlas_build two_triangles 1 3).isSome = true := by
  refine ⟨⟨by decide, by decide, ?_⟩, by decide⟩
  intro h
  have := two_triangles_component_closed 0 3 (by decide) h
  exact absurd this (by decide)

/-- C7 (amended): `CAtlas.build` performs no connectivity check; on the
disconnected two-triangle graph it silently builds one index whose root
spans both components -- its two children are the dominators of the two
separate triangles (vertices 2 and 5), which are not connected to each other
in the base graph. -/
theorem build_disconnected_single_index :
    catlas_build two_triangles 1 3 =
      some (CAtlas.node 2 2 1 [CAtlas.node 0 2 0 [], CAtlas.node 1 5 0 []]) ∧
    ¬ Relation.ReflTransGen (adjU two_triangles) 2 5 := by
  refine ⟨by decide, ?_⟩
  intro h
  have := two_triangles_component_closed 2 5 (by decide) h
  exact absurd this (by decide)

/-! ### Checkpoint sanity check (claim C9) -/

theorem handle_missing_loop_error_iff (pc : Nat → Nat) (l : List Nat) (g : Graph) :
    handle_missing_loop pc l g = .error () ↔ ∃ v ∈ l, pc v ≠ 1 := by
  induction l generalizing g with
  | nil => simp [handle_missing_loop]
  | cons v vs ih =>
      by_cases hv : pc v ≠ 1
      · simp [handle_missing_loop, hv]
      · simp only [handle_missing_loop, hv, if_false, ih]
        simp only [not_not] at hv
        constructor
        · intro ⟨u, hu, hpc⟩; exact ⟨u, List.mem_cons_of_mem v hu, hpc⟩
        · intro ⟨u, hu, hpc⟩
          rcases List.mem_cons.mp hu with h | h
          · exact absurd (h ▸ hpc) (by simp [hv])
          · exact ⟨u, h, hpc⟩

/-- C9 (counterexample): a restored checkpoint at level 1 whose node map
contains vertex 7, absent from the restored graph and with zero dominating
parents: the code does not abort; it silently inserts 7 as an isolated
vertex. -/
theorem handle_missing_nodes_level1_cex :
    parent_count_of cp_nodes_cex 7 = 0 ∧
    7 ∈ missing_of cp_nodes_cex cp_graph_cex ∧
    handle_missing_nodes cp_nodes_cex cp_graph_cex 1 =
      .ok { nodes := [5, 7], arcs := [] } := by
  refine ⟨by decide, by decide, rfl⟩

/-- C9 (amended): when a restored checkpoint contains node-map vertices
absent from the restored graph, then at restored levels other than 1 the
build aborts with the fatal `ValueError` exactly when some missing vertex
has a dominating-parent count different from one (vertices with exactly one
dominating parent are auto-inserted as genuinely isolated); at restored
level 1 every missing vertex is auto-inserted without any parent check. -/
theorem handle_missing_nodes_spec (level_nodes : List (Nat × CAtlas))
    (g : Graph) (level : Nat)
    (hmiss : g.nodes.length < level_nodes.length) :
    (level = 1 →
      handle_missing_nodes level_nodes g level =
        .ok ((missing_of level_nodes g).foldl add_node g)) ∧
    (level ≠ 1 →
      (handle_missing_nodes level_nodes g level = .error () ↔
        ∃ v ∈ missing_of level_nodes g, parent_count_of level_nodes v ≠ 1)) := by
  have hpos : (0 : Int) < (level_nodes.length : Int) - (g.nodes.length : Int) := by
    omega
  constructor
  · intro hl
    simp [handle_missing_nodes, hpos, hl]
  · intro hl
    simp only [handle_missing_nodes, hpos, if_true, hl, if_false]
    exact handle_missing_loop_error_iff _ _ g

/-! ### Write/read round trip (claim C8) -/

theorem write_go_eq_visited (fuel : Nat) : ∀ stack seen,
    write_go fuel stack seen = (write_visited fuel stack seen).map CAtlas.record := by
  induction fuel with
  | zero => intro stack seen; cases stack <;> rfl
  | succ fuel ih =>
      intro stack seen
      cases stack with
      | nil => rfl
      | cons curr rest => simp only [write_go, write_visited, List.map_cons, ih]

theorem catlas_size_pos (a : CAtlas) : 1 ≤ CAtlas.size a := by
  cases a
  simp [CAtlas.size]

theorem size_list_cons (x : CAtlas) (l : List CAtlas) :
    CAtlas.size_list (x :: l) = CAtlas.size x + CAtlas.size_list l := rfl

/-- With fuel at least the summed sizes, every stacked node is popped. -/
theorem write_visited_stack_mem (fuel : Nat) : ∀ stack seen x,
    CAtlas.size_list stack ≤ fuel → x ∈ stack →
    x ∈ write_visited fuel stack seen := by
  induction fuel with
  | zero =>
      intro stack seen x hf hx
      cases stack with
      | nil => cases hx
      | cons c r =>
          exfalso
          have := catlas_size_pos c
          rw [size_list_cons] at hf
          omega
  | succ fuel ih =>
      intro stack seen x hf hx
      cases stack with
      | nil => cases hx
      | cons curr rest =>
          simp only [write_visited]
          rcases List.mem_cons.mp hx with h | h
          · exact h ▸ List.mem_cons_self _ _
          · refine List.mem_cons_of_mem _ (ih _ _ x ?_ (List.mem_append_right _ h))
            have := write_measure_lt curr rest
              (fun c => decide (c ∉ curr :: seen))
            rw [size_list_cons] at hf this
            omega

theorem reach_head (a : CAtlas) : a ∈ CAtlas.reach a := by
  cases a
  simp [CAtlas.reach]

theorem reach_list_append (l1 l2 : List CAtlas) :
    CAtlas.reach_list (l1 ++ l2) = CAtlas.reach_list l1 ++ CAtlas.reach_list l2 := by
  induction l1 with
  | nil => rfl
  | cons x xs ih => simp [CAtlas.reach_list, ih]

theorem reach_list_mem (l : List CAtlas) (x : CAtlas) :
    x ∈ CAtlas.reach_list l ↔ ∃ y ∈ l, x ∈ CAtlas.reach y := by
  induction l with
  | nil => simp [CAtlas.reach_list]
  | cons y ys ih =>
      simp only [CAtlas.reach_list, List.mem_append, ih, List.mem_cons]
      constructor
      · rintro (h | ⟨z, hz, hx⟩)
        · exact ⟨y, Or.inl rfl, h⟩
        · exact ⟨z, Or.inr hz, hx⟩
      · rintro ⟨z, hz | hz, hx⟩
        · exact Or.inl (hz ▸ hx)
        · exact Or.inr ⟨z, hz, hx⟩

theorem reach_of_child (a c : CAtlas) (hc : c ∈ a.children) :
    ∀ z ∈ CAtlas.reach c, z ∈ CAtlas.reach a := by
  intro z hz
  cases a with
  | node i v lv ch =>
      simp only [CAtlas.reach, List.mem_cons]
      exact Or.inr ((reach_list_mem ch z).mpr ⟨c, hc, hz⟩)

theorem reach_cases (b x : CAtlas) (hx : x ∈ CAtlas.reach b) :
    x = b ∨ ∃ c ∈ b.children, x ∈ CAtlas.reach c := by
  cases b with
  | node i v lv ch =>
      rcases List.mem_cons.mp hx with h | h
      · exact Or.inl h
      · rcases (reach_list_mem ch x).mp h with ⟨c, hc, hxc⟩
        exact Or.inr ⟨c, hc, hxc⟩

theorem size_le_size_list_of_mem (c : CAtlas) (l : List CAtlas) (hc : c ∈ l) :
    CAtlas.size c ≤ CAtlas.size_list l := by
  induction l with
  | nil => cases hc
  | cons x xs ih =>
      rw [size_list_cons]
      rcases List.mem_cons.mp hc with h | h
      · rw [h]; omega
      · have := ih h; omega

theorem size_child_lt (a c : CAtlas) (hc : c ∈ a.children) :
    CAtlas.size c < CAtlas.size a := by
  have h1 := size_le_size_list_of_mem c a.children hc
  have h2 := catlas_size_eq a
  omega

theorem reach_trans_aux (n : Nat) : ∀ a : CAtlas, CAtlas.size a ≤ n →
    ∀ x ∈ CAtlas.reach a, ∀ z ∈ CAtlas.reach x, z ∈ CAtlas.reach a := by
  induction n with
  | zero =>
      intro a ha
      exact absurd ha (by have := catlas_size_pos a; omega)
  | succ n ih =>
      intro a ha x hx z hz
      rcases reach_cases a x hx with h | ⟨c, hc, hxc⟩
      · exact h ▸ hz
      · have hsz : CAtlas.size c ≤ n := by
          have := size_child_lt a c hc
          omega
        exact reach_of_child a c hc z (ih c hsz x hxc z hz)

theorem reach_trans (a x z : CAtlas) (hx : x ∈ CAtlas.reach a)
    (hz : z ∈ CAtlas.reach x) : z ∈ CAtlas.reach a :=
  reach_trans_aux (CAtlas.size a) a le_rfl x hx z hz

/-- Everything the traversal pops is reachable from the stack. -/
theorem write_visited_sound (fuel : Nat) : ∀ stack seen x,
    x ∈ write_visited fuel stack seen → x ∈ CAtlas.reach_list stack := by
  induction fuel with
  | zero => intro stack seen x hx; cases stack <;> cases hx
  | succ fuel ih =>
      intro stack seen x hx
      cases stack with
      | nil => cases hx
      | cons curr rest =>
          simp only [write_visited] at hx
          rw [reach_list_mem]
          rcases List.mem_cons.mp hx with h | h
          · exact ⟨curr, List.mem_cons_self _ _, h ▸ reach_head curr⟩
          · have h2 := ih _ _ x h
            rw [reach_list_mem] at h2
            rcases h2 with ⟨y, hy, hxy⟩
            rcases List.mem_append.mp hy with hy2 | hy2
            · have hy3 : y ∈ curr.children := by
                have := List.mem_reverse.mp hy2
                exact List.mem_of_mem_filter this
              exact ⟨curr, List.mem_cons_self _ _,
                reach_of_child curr y hy3 x hxy⟩
            · exact ⟨y, List.mem_cons_of_mem _ hy2, hxy⟩

/-- Children of popped nodes are popped too (or were already seen). -/
theorem write_visited_closed (fuel : Nat) : ∀ stack seen x c,
    CAtlas.size_list stack ≤ fuel →
    x ∈ write_visited fuel stack seen → c ∈ x.children →
    c ∈ write_visited fuel stack seen ∨ c ∈ seen := by
  induction fuel with
  | zero =>
      intro stack seen x c hf hx
      cases stack with
      | nil => cases hx
      | cons y r =>
          exfalso
          have := catlas_size_pos y
          rw [size_list_cons] at hf
          omega
  | succ fuel ih =>
      intro stack seen x c hf hx hc
      cases stack with
      | nil => cases hx
      | cons curr rest =>
          have hmeas : CAtlas.size_list
              ((curr.children.filter (fun z => decide (z ∉ curr :: seen))).reverse
                ++ rest) ≤ fuel := by
            have h9 := write_measure_lt curr rest
              (fun z => decide (z ∉ curr :: seen))
            rw [size_list_cons] at hf h9
            omega
          simp only [write_visited] at hx ⊢
          rcases List.mem_cons.mp hx with h | h
          · by_cases hcs : c ∈ curr :: seen
            · rcases List.mem_cons.mp hcs with h2 | h2
              · exact Or.inl (List.mem_cons.mpr (Or.inl h2))
              · exact Or.inr h2
            · have hcp : c ∈ (curr.children.filter
                  (fun z => decide (z ∉ curr :: seen))).reverse ++ rest := by
                refine List.mem_append_left _ ?_
                rw [List.mem_reverse]
                refine List.mem_filter.mpr ⟨?_, by simpa using hcs⟩
                rw [← h]; exact hc
              exact Or.inl (List.mem_cons_of_mem _
                (write_visited_stack_mem fuel _ _ c hmeas hcp))
          · rcases ih _ _ x c hmeas h hc with h2 | h2
            · exact Or.inl (List.mem_cons_of_mem _ h2)
            · rcases List.mem_cons.mp h2 with h3 | h3
              · exact Or.inl (List.mem_cons.mpr (Or.inl h3))
              · exact Or.inr h3

theorem reach_subset_of_closed (W : List CAtlas)
    (hcl : ∀ x ∈ W, ∀ c ∈ x.children, c ∈ W) :
    ∀ n, ∀ x ∈ W, CAtlas.size x ≤ n → ∀ z ∈ CAtlas.reach x, z ∈ W := by
  intro n
  induction n with
  | zero =>
      intro x _ hs
      exact absurd hs (by have := catlas_size_pos x; omega)
  | succ n ih =>
      intro x hx hs z hz
      rcases reach_cases x z hz with h | ⟨c, hc, hzc⟩
      · rw [h]; exact hx
      · have hcW : c ∈ W := hcl x hx c hc
        have hsz : CAtlas.size c ≤ n := by
          have := size_child_lt x c hc
          omega
        exact ih c hcW hsz z hzc

/-- The node set popped by `CAtlas.write`'s traversal is exactly the
reachable set. -/
theorem write_visited_set (a : CAtlas) (x : CAtlas) :
    x ∈ write_visited (CAtlas.size a) [a] [] ↔ x ∈ CAtlas.reach a := by
  constructor
  · intro hx
    have := write_visited_sound (CAtlas.size a) [a] [] x hx
    simpa [CAtlas.reach_list] using this
  · intro hx
    have haW : a ∈ write_visited (CAtlas.size a) [a] [] :=
      write_visited_stack_mem (CAtlas.size a) [a] [] a
        (by simp [CAtlas.size_list]) (List.mem_singleton.mpr rfl)
    have hcl : ∀ y ∈ write_visited (CAtlas.size a) [a] [],
        ∀ c ∈ y.children, c ∈ write_visited (CAtlas.size a) [a] [] := by
      intro y hy c hc
      rcases write_visited_closed (CAtlas.size a) [a] [] y c
          (by simp [CAtlas.size_list]) hy hc with h | h
      · exact h
      · cases h
    exact reach_subset_of_closed _ hcl (CAtlas.size a) a haW le_rfl x hx

theorem catlas_write_mem (a : CAtlas) (r : CRecord) :
    r ∈ CAtlas.write a ↔ ∃ x ∈ CAtlas.reach a, r = CAtlas.record x := by
  rw [CAtlas.write, write_go_eq_visited]
  simp only [List.mem_map]
  constructor
  · rintro ⟨x, hx, hr⟩
    exact ⟨x, (write_visited_set a x).mp hx, hr.symm⟩
  · rintro ⟨x, hx, hr⟩
    exact ⟨x, (write_visited_set a x).mpr hx, hr.symm⟩

theorem record_idx (x : CAtlas) : (CAtlas.record x).1 = x.idx := by
  cases x; rfl

theorem record_vertex (x : CAtlas) : (CAtlas.record x).2.1 = x.vertex := by
  cases x; rfl

theorem record_level (x : CAtlas) : (CAtlas.record x).2.2.1 = x.level := by
  cases x; rfl

theorem record_children (x : CAtlas) :
    (CAtlas.record x).2.2.2 = x.children.map CAtlas.idx := by
  cases x; rfl

theorem read_len_fold (recs : List CRecord) : ∀ st0 : ReadState,
    (recs.foldl read_record st0).len =
      recs.foldl (fun m r => max m (r.1 + 1)) st0.len := by
  induction recs with
  | nil => intro st0; rfl
  | cons r recs ih => intro st0; exact ih _

theorem fold_max_base_le (recs : List CRecord) : ∀ m : Nat,
    m ≤ recs.foldl (fun m r => max m (r.1 + 1)) m := by
  induction recs with
  | nil => intro m; exact le_rfl
  | cons r recs ih =>
      intro m
      exact le_trans (le_max_left _ _) (ih _)

theorem fold_max_mem_le (recs : List CRecord) : ∀ m : Nat, ∀ r ∈ recs,
    r.1 + 1 ≤ recs.foldl (fun m r => max m (r.1 + 1)) m := by
  induction recs with
  | nil => intro m r hr; cases hr
  | cons q recs ih =>
      intro m r hr
      rcases List.mem_cons.mp hr with h | h
      · subst h
        exact le_trans (le_max_right _ _) (fold_max_base_le recs _)
      · exact ih _ r h

theorem fold_max_bound (recs : List CRecord) : ∀ m B : Nat, m ≤ B →
    (∀ r ∈ recs, r.1 + 1 ≤ B) →
    recs.foldl (fun m r => max m (r.1 + 1)) m ≤ B := by
  induction recs with
  | nil => intro m B hm _; exact hm
  | cons r recs ih =>
      intro m B hm hall
      refine ih _ B ?_ (fun q hq => hall q (List.mem_cons_of_mem _ hq))
      exact max_le hm (hall r (List.mem_cons_self _ _))

theorem read_entry_stable (recs : List CRecord) : ∀ (st0 : ReadState)
    (i v l : Nat), st0.entry i = some (v, l) →
    (∀ r ∈ recs, r.1 = i → r.2.1 = v ∧ r.2.2.1 = l) →
    (recs.foldl read_record st0).entry i = some (v, l) := by
  induction recs with
  | nil => intro st0 i v l h0 _; exact h0
  | cons r recs ih =>
      intro st0 i v l h0 hU
      refine ih _ i v l ?_ (fun q hq => hU q (List.mem_cons_of_mem _ hq))
      by_cases hr : r.1 = i
      · have := hU r (List.mem_cons_self _ _) hr
        simp only [read_record, hr, upd_same]
        rw [this.1, this.2]
      · simp only [read_record]
        rw [upd_other _ _ _ _ (fun h => hr h.symm)]
        exact h0

theorem read_entry_set (recs : List CRecord) : ∀ (st0 : ReadState)
    (i v l : Nat), (∃ r ∈ recs, r.1 = i) →
    (∀ r ∈ recs, r.1 = i → r.2.1 = v ∧ r.2.2.1 = l) →
    (recs.foldl read_record st0).entry i = some (v, l) := by
  induction recs with
  | nil => intro st0 i v l hex _; rcases hex with ⟨r, hr, _⟩; cases hr
  | cons r recs ih =>
      intro st0 i v l hex hU
      by_cases hr : r.1 = i
      · refine read_entry_stable recs _ i v l ?_
          (fun q hq => hU q (List.mem_cons_of_mem _ hq))
        have := hU r (List.mem_cons_self _ _) hr
        simp only [read_record, hr, upd_same]
        rw [this.1, this.2]
      · rcases hex with ⟨q, hq, hqi⟩
        rcases List.mem_cons.mp hq with h | h
        · exact absurd (h ▸ hqi) hr
        · exact ih _ i v l ⟨q, h, hqi⟩
            (fun q hq => hU q (List.mem_cons_of_mem _ hq))

theorem read_child_mem (recs : List CRecord) : ∀ (st0 : ReadState) (i c : Nat),
    c ∈ (recs.foldl read_record st0).childIds i ↔
      c ∈ st0.childIds i ∨ ∃ r ∈ recs, r.1 = i ∧ c ∈ r.2.2.2 := by
  induction recs with
  | nil => intro st0 i c; simp
  | cons r recs ih =>
      intro st0 i c
      rw [List.foldl_cons, ih]
      by_cases hr : r.1 = i
      · simp only [read_record, hr, upd_same, List.mem_append]
        constructor
        · rintro ((h | h) | ⟨q, hq, hqc⟩)
          · exact Or.inl h
          · exact Or.inr ⟨r, List.mem_cons_self _ _, hr, h⟩
          · exact Or.inr ⟨q, List.mem_cons_of_mem _ hq, hqc⟩
        · rintro (h | ⟨q, hq, hqi, hqc⟩)
          · exact Or.inl (Or.inl h)
          · rcases List.mem_cons.mp hq with h2 | h2
            · exact Or.inl (Or.inr (h2 ▸ hqc))
            · exact Or.inr ⟨q, h2, hqi, hqc⟩
      · simp only [read_record]
        rw [upd_other _ _ _ _ (fun h => hr h.symm)]
        constructor
        · rintro (h | ⟨q, hq, hqi, hqc⟩)
          · exact Or.inl h
          · exact Or.inr ⟨q, List.mem_cons_of_mem _ hq, hqi, hqc⟩
        · rintro (h | ⟨q, hq, hqi, hqc⟩)
          · exact Or.inl h
          · rcases List.mem_cons.mp hq with h2 | h2
            · exact absurd (h2 ▸ hqi) hr
            · exact Or.inr ⟨q, h2, hqi, hqc⟩

theorem reach_idx_le (a : CAtlas)
    (hdec : ∀ x ∈ CAtlas.reach a, ∀ c ∈ x.children, CAtlas.idx c < CAtlas.idx x) :
    ∀ x ∈ CAtlas.reach a, CAtlas.idx x ≤ CAtlas.idx a := by
  have haux : ∀ n, ∀ b : CAtlas, CAtlas.size b ≤ n → b ∈ CAtlas.reach a →
      ∀ x ∈ CAtlas.reach b, CAtlas.idx x ≤ CAtlas.idx b := by
    intro n
    induction n with
    | zero =>
        intro b hs
        exact absurd hs (by have := catlas_size_pos b; omega)
    | succ n ih =>
        intro b hs hb x hx
        rcases reach_cases b x hx with h | ⟨c, hc, hxc⟩
        · rw [h]
        · have hcb : c ∈ CAtlas.reach a :=
            reach_trans a b c hb (reach_of_child b c hc c (reach_head c))
          have hsz : CAtlas.size c ≤ n := by
            have := size_child_lt b c hc
            omega
          have h1 := ih c hsz hcb x hxc
          have h2 := hdec b hb c hc
          omega
  intro x hx
  exact haux (CAtlas.size a) a le_rfl (reach_head a) x hx

theorem link_node_idx (st : ReadState) (f i : Nat) :
    (link_node st f i).idx = i := by
  cases f <;> rfl

theorem link_node_vertex (st : ReadState) (f i : Nat) :
    (link_node st f i).vertex = ((st.entry i).getD (0, 0)).1 := by
  cases f <;> rfl

theorem link_node_level (st : ReadState) (f i : Nat) :
    (link_node st f i).level = ((st.entry i).getD (0, 0)).2 := by
  cases f <;> rfl

/-- C8 (counterexample): writing the two-leaf atlas emits the root as the
FIRST record of the persisted format (the DFS stack starts with the root and
pops it immediately); the last record is a leaf, not the root. -/
theorem catlas_write_root_position_cex :
    (CAtlas.write atlas2).head? = some (CAtlas.record atlas2) ∧
    (CAtlas.write atlas2).getLast? = some (0, 10, 0, []) ∧
    (0, 10, 0, []) ≠ CAtlas.record atlas2 := by
  refine ⟨by decide, by decide, by decide⟩

/-- C8 (amended): for every index whose node ids are unique and strictly
decrease from parent to child, writing with `CAtlas.write` and reloading
with `CAtlas.read` reproduces an isomorphic node/child structure: the read
array covers exactly the ids up to the root's, every reachable node's id
maps back to its vertex and level, the children id sets coincide, and the
reconstructed root returned by `read` (the node in the LAST slot of the
reconstruction array, i.e. the highest id -- in the persisted format itself
the root is the first record, not the last) carries the original root's id,
vertex, level and children ids. -/
theorem catlas_write_read_roundtrip (a : CAtlas)
    (hinj : ∀ x ∈ CAtlas.reach a, ∀ y ∈ CAtlas.reach a,
      CAtlas.idx x = CAtlas.idx y → x = y)
    (hdec : ∀ x ∈ CAtlas.reach a, ∀ c ∈ x.children,
      CAtlas.idx c < CAtlas.idx x) :
    ((CAtlas.write a).foldl read_record read_init).len = CAtlas.idx a + 1 ∧
    (∀ x ∈ CAtlas.reach a,
      ((CAtlas.write a).foldl read_record read_init).entry (CAtlas.idx x) =
        some (CAtlas.vertex x, CAtlas.level x)) ∧
    (∀ x ∈ CAtlas.reach a, ∀ i,
      (i ∈ ((CAtlas.write a).foldl read_record read_init).childIds (CAtlas.idx x) ↔
        ∃ c ∈ x.children, CAtlas.idx c = i)) ∧
    (CAtlas.read (CAtlas.write a)).idx = CAtlas.idx a ∧
    (CAtlas.read (CAtlas.write a)).vertex = CAtlas.vertex a ∧
    (CAtlas.read (CAtlas.write a)).level = CAtlas.level a ∧
    (CAtlas.read (CAtlas.write a)).children.map CAtlas.idx =
      ((CAtlas.write a).foldl read_record read_init).childIds (CAtlas.idx a) := by
  have hidxle := reach_idx_le a hdec
  have hU : ∀ x ∈ CAtlas.reach a, ∀ r ∈ CAtlas.write a, r.1 = CAtlas.idx x →
      r.2.1 = CAtlas.vertex x ∧ r.2.2.1 = CAtlas.level x := by
    intro x hx r hr hri
    rcases (catlas_write_mem a r).mp hr with ⟨y, hy, hry⟩
    have hyx : y = x := by
      apply hinj y hy x hx
      rw [← record_idx y, ← hry, hri]
    subst hyx
    rw [hry, record_vertex, record_level]
    exact ⟨rfl, rfl⟩
  have hlen : ((CAtlas.write a).foldl read_record read_init).len =
      CAtlas.idx a + 1 := by
    rw [read_len_fold]
    have hroot : CAtlas.record a ∈ CAtlas.write a :=
      (catlas_write_mem a _).mpr ⟨a, reach_head a, rfl⟩
    have hge := fold_max_mem_le (CAtlas.write a) read_init.len _ hroot
    rw [record_idx] at hge
    have hle : (CAtlas.write a).foldl (fun m r => max m (r.1 + 1))
        read_init.len ≤ CAtlas.idx a + 1 := by
      refine fold_max_bound _ _ _ (by simp [read_init]) ?_
      intro r hr
      rcases (catlas_write_mem a r).mp hr with ⟨y, hy, hry⟩
      rw [hry, record_idx]
      have := hidxle y hy
      omega
    omega
  have hentry : ∀ x ∈ CAtlas.reach a,
      ((CAtlas.write a).foldl read_record read_init).entry (CAtlas.idx x) =
        some (CAtlas.vertex x, CAtlas.level x) := by
    intro x hx
    refine read_entry_set _ _ _ _ _ ?_ (hU x hx)
    exact ⟨CAtlas.record x, (catlas_write_mem a _).mpr ⟨x, hx, rfl⟩, record_idx x⟩
  have hchild : ∀ x ∈ CAtlas.reach a, ∀ i,
      (i ∈ ((CAtlas.write a).foldl read_record read_init).childIds (CAtlas.idx x) ↔
        ∃ c ∈ x.children, CAtlas.idx c = i) := by
    intro x hx i
    rw [read_child_mem]
    simp only [read_init, false_or]
    constructor
    · rintro (h | ⟨r, hr, hri, hir⟩)
      · cases h
      · rcases (catlas_write_mem a r).mp hr with ⟨y, hy, hry⟩
        have hyx : y = x := by
          apply hinj y hy x hx
          rw [← record_idx y, ← hry, hri]
        subst hyx
        rw [hry, record_children] at hir
        rcases List.mem_map.mp hir with ⟨c, hc, hci⟩
        exact ⟨c, hc, hci⟩
    · rintro ⟨c, hc, hci⟩
      refine Or.inr ⟨CAtlas.record x, (catlas_write_mem a _).mpr ⟨x, hx, rfl⟩,
        record_idx x, ?_⟩
      rw [record_children]
      exact List.mem_map.mpr ⟨c, hc, hci⟩
  have hread : CAtlas.read (CAtlas.write a) =
      link_node ((CAtlas.write a).foldl read_record read_init)
        (((CAtlas.write a).foldl read_record read_init).len)
        (((CAtlas.write a).foldl read_record read_init).len - 1) := rfl
  refine ⟨hlen, hentry, hchild, ?_, ?_, ?_, ?_⟩
  · rw [hread, link_node_idx, hlen]
    simp
  · rw [hread, link_node_vertex, hlen]
    simp only [Nat.add_sub_cancel]
    rw [hentry a (reach_head a)]
    rfl
  · rw [hread, link_node_level, hlen]
    simp only [Nat.add_sub_cancel]
    rw [hentry a (reach_head a)]
    rfl
  · rw [hread, hlen]
    simp only [Nat.add_sub_cancel, link_node, CAtlas.children]
    rw [List.map_map]
    have : (CAtlas.idx ∘ link_node ((CAtlas.write a).foldl read_record read_init)
        (CAtlas.idx a)) = id := by
      funext i
      simp [link_node_idx]
    rw [this, List.map_id]

/-- Witness for the amended C8 on the two-leaf atlas. -/
theorem catlas_write_read_roundtrip_witness :
    ((∀ x ∈ CAtlas.reach atlas2, ∀ y ∈ CAtlas.reach atlas2,
        CAtlas.idx x = CAtlas.idx y → x = y) ∧
      (∀ x ∈ CAtlas.reach atlas2, ∀ c ∈ x.children,
        CAtlas.idx c < CAtlas.idx x)) ∧
    (((CAtlas.write atlas2).foldl read_record read_init).len =
        CAtlas.idx atlas2 + 1 ∧
      (∀ x ∈ CAtlas.reach atlas2,
        ((CAtlas.write atlas2).foldl read_record read_init).entry (CAtlas.idx x) =
          some (CAtlas.vertex x, CAtlas.level x)) ∧
      (∀ x ∈ CAtlas.reach atlas2, ∀ i,
        (i ∈ ((CAtlas.write atlas2).foldl read_record read_init).childIds
            (CAtlas.idx x) ↔
          ∃ c ∈ x.children, CAtlas.idx c = i)) ∧
      (CAtlas.read (CAtlas.write atlas2)).idx = CAtlas.idx atlas2 ∧
      (CAtlas.read (CAtlas.write atlas2)).vertex = CAtlas.vertex atlas2 ∧
      (CAtlas.read (CAtlas.write atlas2)).level = CAtlas.level atlas2 ∧
      (CAtlas.read (CAtlas.write atlas2)).children.map CAtlas.idx =
        ((CAtlas.write atlas2).foldl read_record read_init).childIds
          (CAtlas.idx atlas2)) :=
  ⟨⟨by decide, by decide⟩,
    catlas_write_read_roundtrip atlas2 (by decide) (by decide)⟩

/-- Witness for the amended C9 at a level-2 checkpoint with a two-parent
missing vertex (the loop aborts) and at the level-1 counterexample state. -/
theorem handle_missing_nodes_spec_witness :
    cp_graph_cex.nodes.length < cp_nodes_cex.length ∧
    ((1 = 1 →
        handle_missing_nodes cp_nodes_cex cp_graph_cex 1 =
          .ok ((missing_of cp_nodes_cex cp_graph_cex).foldl add_node cp_graph_cex)) ∧
      (1 ≠ 1 →
        (handle_missing_nodes cp_nodes_cex cp_graph_cex 1 = .error () ↔
          ∃ v ∈ missing_of cp_nodes_cex cp_graph_cex,
            parent_count_of cp_nodes_cex v ≠ 1))) :=
  ⟨by decide, handle_missing_nodes_spec cp_nodes_cex cp_graph_cex 1 (by decide)⟩

/-! ### Generic list helpers for the bucket invariant (claim C6) -/

theorem getD_set_self (l : List Nat) (i a : Nat) (h : i < l.length) :
    (l.set i a).getD i 0 = a := by
  rw [List.getD_eq_getElem?_getD, List.getElem?_set_eq_of_lt a (by simpa using h)]
  rfl

theorem getD_set_other (l : List Nat) (i j a : Nat) (h : i ≠ j) :
    (l.set i a).getD j 0 = l.getD j 0 := by
  rw [List.getD_eq_getElem?_getD, List.getElem?_set_ne h, ← List.getD_eq_getElem?_getD]

theorem getD_map_range (n i : Nat) (f : Nat → Nat) (h : i < n) :
    ((List.range n).map f).getD i 0 = f i := by
  rw [List.getD_eq_getElem?_getD, List.getElem?_map, List.getElem?_range h]
  rfl

theorem getD_mapIdx (l : List Nat) (f : Nat → Nat → Nat) (i : Nat)
    (h : i < l.length) :
    (l.mapIdx f).getD i 0 = f i (l.getD i 0) := by
  rw [List.getD_eq_getElem?_getD, List.getElem?_mapIdx, List.getElem?_eq_getElem h]
  simp [List.getD_eq_getElem?_getD, List.getElem?_eq_getElem h]

theorem in_neighbors_w_mem (g : Graph) (v w u : Nat) :
    u ∈ in_neighbors_w g v w ↔ (u, v, w) ∈ g.arcs := by
  unfold in_neighbors_w
  rw [List.mem_filterMap]
  constructor
  · rintro ⟨⟨x, y, z⟩, ha, hu⟩
    simp only at hu
    by_cases hc : y = v ∧ z = w
    · rw [if_pos hc] at hu
      have hx := Option.some_inj.mp hu
      rcases hc with ⟨hv, hw⟩
      subst hx; subst hv; subst hw
      exact ha
    · rw [if_neg hc] at hu
      exact absurd hu (by simp)
  · intro h
    exact ⟨(u, v, w), h, by simp⟩

theorem in_neighbors_w_nodup (g : Graph) (v w : Nat) (h : g.arcs.Nodup) :
    (in_neighbors_w g v w).Nodup := by
  unfold in_neighbors_w
  refine List.Nodup.filterMap ?_ h
  rintro ⟨x, y, z⟩ ⟨x2, y2, z2⟩ b hb hb2
  simp only [Option.mem_def] at hb hb2
  split at hb
  case isTrue hc =>
    split at hb2
    case isTrue hc2 =>
      injection hb with h1
      injection hb2 with h2
      obtain ⟨hy, hz⟩ := hc
      obtain ⟨hy2, hz2⟩ := hc2
      simp [h1, h2, hy, hz, hy2, hz2]
    case isFalse h2 => exact absurd hb2 (by simp)
  case isFalse h2 => exact absurd hb (by simp)

theorem length_filter_split (l : List Nat) (p q r : Nat → Bool)
    (hr : ∀ x ∈ l, r x = (p x || q x)) (hdisj : ∀ x ∈ l, ¬(p x = true ∧ q x = true)) :
    (l.filter r).length = (l.filter p).length + (l.filter q).length := by
  induction l with
  | nil => simp
  | cons a l ih =>
      have hra := hr a (List.mem_cons_self _ _)
      have hda := hdisj a (List.mem_cons_self _ _)
      have ihl := ih (fun x hx => hr x (List.mem_cons_of_mem _ hx))
        (fun x hx => hdisj x (List.mem_cons_of_mem _ hx))
      cases hp : p a <;> cases hq : q a
      · simp [List.filter_cons, hra, hp, hq, ihl]
      · simp [List.filter_cons, hra, hp, hq, ihl]
        omega
      · simp [List.filter_cons, hra, hp, hq, ihl]
        omega
      · exact absurd ⟨hp, hq⟩ hda

theorem countP_range_update_eq (n k : Nat) (p q : Nat → Bool)
    (hag : ∀ x, x < n → x ≠ k → p x = q x) (hpq : p k = q k) :
    ((List.range n).filter q).length = ((List.range n).filter p).length := by
  refine congrArg List.length (List.filter_congr ?_).symm
  intro x hx
  rw [List.mem_range] at hx
  by_cases hxk : x = k
  · rw [hxk, hpq]
  · exact hag x hx hxk

theorem countP_range_update_succ (n k : Nat) (p q : Nat → Bool) :
    (∀ x, x < n → x ≠ k → p x = q x) → k < n → p k = false →
    q k = true →
    ((List.range n).filter q).length = ((List.range n).filter p).length + 1 := by
  induction n with
  | zero => intro _ hk; cases hk
  | succ n ih =>
      intro hag hk hp hq
      rw [List.range_succ, List.filter_append, List.filter_append,
        List.length_append, List.length_append]
      by_cases hkn : k = n
      · subst hkn
        have h1 : (List.range k).filter q = (List.range k).filter p := by
          refine List.filter_congr ?_
          intro x hx
          rw [List.mem_range] at hx
          exact (hag x (by omega) (by omega)).symm
        rw [h1]
        simp [List.filter_cons, hp, hq]
      · have ihh := ih (fun x hx hxk => hag x (by omega) hxk) (by omega) hp hq
        rw [ihh]
        have hn : q n = p n := (hag n (by omega) (by omega)).symm
        have hsing : (List.filter q [n]).length = (List.filter p [n]).length := by
          rw [List.filter_cons, List.filter_cons, hn]
          split <;> rfl
        rw [hsing]
        omega

/-- Positions of a length-`n` profile sorted non-decreasingly: the positions
with value below a threshold form exactly the prefix whose length is their
count. -/
theorem sorted_block (n : Nat) (f : Nat → Nat) (d : Nat)
    (hsort : ∀ q, q < n → ∀ p, p ≤ q → f p ≤ f q) :
    ∀ p, p < n → (f p < d ↔
      p < ((List.range n).filter (fun x => decide (f x < d))).length) := by
  intro p hp
  constructor
  · intro hfp
    have hsub : (List.range (p + 1)).Sublist (List.range n) :=
      List.range_sublist.mpr (by omega)
    have hall : (List.range (p + 1)).filter (fun x => decide (f x < d)) =
        List.range (p + 1) := by
      rw [List.filter_eq_self]
      intro x hx
      rw [List.mem_range] at hx
      have : f x ≤ f p := hsort p hp x (by omega)
      simp; omega
    have := (hsub.filter (fun x => decide (f x < d))).length_le
    rw [hall] at this
    simp only [List.length_range] at this
    omega
  · intro hlt
    by_contra hfp
    have hsubset : ((List.range n).filter (fun x => decide (f x < d))).toFinset ⊆
        Finset.range p := by
      intro x hx
      rw [List.mem_toFinset, List.mem_filter, List.mem_range] at hx
      rw [Finset.mem_range]
      by_contra hxp
      have hpx : p ≤ x := by omega
      have := hsort x hx.1 p hpx
      have hfx : f x < d := by simpa using hx.2
      omega
    have h1 := Finset.card_le_card hsubset
    rw [Finset.card_range] at h1
    have h2 := List.toFinset_card_of_nodup
      (((List.nodup_range n)).filter (fun x => decide (f x < d)))
    omega

theorem length_filter_mono (l : List Nat) (p q : Nat → Bool)
    (h : ∀ x ∈ l, p x = true → q x = true) :
    (l.filter p).length ≤ (l.filter q).length := by
  rw [← List.countP_eq_length_filter, ← List.countP_eq_length_filter]
  exact List.countP_mono_left h

theorem nodup_subset_length_le {α : Type} [DecidableEq α] (l l2 : List α)
    (hd : l.Nodup) (hsub : l ⊆ l2) : l.length ≤ l2.length := by
  have h1 : l.toFinset ⊆ l2.toFinset := by
    intro x hx
    rw [List.mem_toFinset] at hx ⊢
    exact hsub hx
  have h2 := Finset.card_le_card h1
  rw [List.toFinset_card_of_nodup hd] at h2
  exact h2.trans (List.toFinset_card_le l2)

theorem in_neighbors_mem (g : Graph) (v u w : Nat) :
    (u, w) ∈ in_neighbors g v ↔ (u, v, w) ∈ g.arcs := by
  unfold in_neighbors
  rw [List.mem_filterMap]
  constructor
  · rintro ⟨⟨x, y, z⟩, ha, hu⟩
    simp only at hu
    by_cases hc : y = v
    · rw [if_pos hc] at hu
      have h2 := Option.some_inj.mp hu
      injection h2 with h3 h4
      subst h3; subst h4; subst hc
      exact ha
    · rw [if_neg hc] at hu
      exact absurd hu (by simp)
  · intro h
    exact ⟨(u, v, w), h, by simp⟩

theorem sum_set_succ (l : List Nat) : ∀ i, i < l.length →
    (l.set i (l.getD i 0 + 1)).sum = l.sum + 1 := by
  induction l with
  | nil => intro i h; cases h
  | cons a l ih =>
      intro i h
      cases i with
      | zero => simp [List.sum_cons]; omega
      | succ i =>
          have h2 := ih i (Nat.lt_of_succ_lt_succ (by simpa using h))
          simp only [List.set_cons_succ, List.getD_cons_succ, List.sum_cons]
          rw [h2]
          omega

theorem take_sum_le (l : List Nat) (e e2 : Nat) (h : e ≤ e2) :
    (l.take e).sum ≤ (l.take e2).sum := by
  have h1 : l.take e2 = (l.take e2).take e ++ (l.take e2).drop e :=
    (List.take_append_drop _ _).symm
  have h2 : (l.take e2).take e = l.take e := by
    rw [List.take_take, min_eq_left h]
  have h3 : (l.take e2).sum = (l.take e).sum + ((l.take e2).drop e).sum := by
    conv_lhs => rw [h1]
    rw [List.sum_append, h2]
  omega

theorem take_sum_succ (l : List Nat) (e : Nat) (h : e < l.length) :
    (l.take (e + 1)).sum = (l.take e).sum + l.getD e 0 := by
  rw [List.take_succ, List.sum_append]
  congr 1
  simp [List.getElem?_eq_getElem h, List.getD_eq_getElem?_getD]

theorem length_filter_range_lt (n c : Nat) (h : c ≤ n) :
    ((List.range n).filter (fun p => decide (p < c))).length = c := by
  have hb : ∀ p, p < n → (p < c ↔
      p < ((List.range n).filter (fun p => decide (p < c))).length) :=
    fun p hp => sorted_block n (fun x => x) c (fun q _ p2 hpq => hpq) p hp
  have hmn : ((List.range n).filter (fun p => decide (p < c))).length ≤ n := by
    simpa using (List.filter_sublist (List.range n)).length_le
  rcases Nat.lt_trichotomy
    (((List.range n).filter (fun p => decide (p < c))).length) c with hlt | heq | hgt
  · have := (hb _ (by omega)).mp hlt
    omega
  · exact heq
  · have := (hb c (by omega)).mpr hgt
    omega

theorem length_filter_eq_of_nodup (l : List Nat) (hd : l.Nodup) (a : Nat)
    (h : a ∈ l) : (l.filter (fun x => decide (x = a))).length = 1 := by
  have h1 : l.filter (fun x => decide (x = a)) = l.filter (· == a) := by
    apply List.filter_congr
    intro x _
    by_cases hx : x = a <;> simp [hx]
  rw [h1, ← List.countP_eq_length_filter]
  exact List.count_eq_one_of_mem hd h

theorem length_filter_eq_cond (l : List Nat) (hd : l.Nodup) (a : Nat) (h : a ∈ l)
    (P : Nat → Prop) [DecidablePred P] :
    (l.filter (fun x => decide (P x ∧ x = a))).length = if P a then 1 else 0 := by
  by_cases hp : P a
  · rw [if_pos hp]
    have h1 : l.filter (fun x => decide (P x ∧ x = a)) =
        l.filter (fun x => decide (x = a)) := by
      apply List.filter_congr
      intro x _
      by_cases hx : x = a
      · subst hx; simp [hp]
      · simp [hx]
    rw [h1]
    exact length_filter_eq_of_nodup l hd a h
  · rw [if_neg hp, List.length_eq_zero, List.filter_eq_nil_iff]
    intro x hx
    simp only [decide_eq_true_eq]
    rintro ⟨hpx, rfl⟩
    exact hp hpx

theorem foldl_max_le_base (f : Nat → Nat) : ∀ (l : List Nat) (a : Nat),
    a ≤ l.foldl (fun m v => max m (f v)) a := by
  intro l
  induction l with
  | nil => intro a; exact Nat.le_refl a
  | cons y l ih =>
      intro a
      simp only [List.foldl_cons]
      exact le_trans (Nat.le_max_left _ _) (ih _)

theorem foldl_max_le_mem (f : Nat → Nat) : ∀ (l : List Nat) (a x : Nat), x ∈ l →
    f x ≤ l.foldl (fun m v => max m (f v)) a := by
  intro l
  induction l with
  | nil => intro a x hx; cases hx
  | cons y l ih =>
      intro a x hx
      simp only [List.foldl_cons]
      rcases List.mem_cons.mp hx with h | h
      · subst h
        exact le_trans (Nat.le_max_right _ _) (foldl_max_le_base f l _)
      · exact ih _ _ h

theorem ldo_maxdeg_le (g : Graph) (comp : List Nat) (v : Nat) (hv : v ∈ comp) :
    in_degree g v ≤ ldo_maxdeg g comp :=
  foldl_max_le_mem (in_degree g) comp 0 v hv

theorem getD_replicate_zero (n d : Nat) : (List.replicate n (0 : Nat)).getD d 0 = 0 := by
  rw [List.getD_eq_getElem?_getD, List.getElem?_replicate]
  split <;> rfl

theorem ldo_deg_count_append (g : Graph) (l1 l2 : List Nat) (d : Nat) :
    ldo_deg_count g (l1 ++ l2) d = ldo_deg_count g l1 d + ldo_deg_count g l2 d := by
  unfold ldo_deg_count
  rw [List.filter_append, List.length_append]

theorem dc_fold_spec (g : Graph) (m : Nat) :
    ∀ (l : List Nat) (dc0 : List Nat), dc0.length = m + 1 →
    (∀ v ∈ l, in_degree g v ≤ m) →
    (l.foldl (fun dc v => dc.set (in_degree g v) (dc.getD (in_degree g v) 0 + 1))
      dc0).length = m + 1 ∧
    ∀ d, d ≤ m →
      (l.foldl (fun dc v => dc.set (in_degree g v) (dc.getD (in_degree g v) 0 + 1))
        dc0).getD d 0 = dc0.getD d 0 + ldo_deg_count g l d := by
  intro l
  induction l with
  | nil =>
      intro dc0 hlen hdeg
      refine ⟨hlen, ?_⟩
      intro d hd
      simp [ldo_deg_count]
  | cons v l ih =>
      intro dc0 hlen hdeg
      simp only [List.foldl_cons]
      have hv : in_degree g v ≤ m := hdeg v (List.mem_cons_self _ _)
      have hlen2 : (dc0.set (in_degree g v) (dc0.getD (in_degree g v) 0 + 1)).length
          = m + 1 := by
        rw [List.length_set]; exact hlen
      obtain ⟨hL, hD⟩ := ih _ hlen2 (fun x hx => hdeg x (List.mem_cons_of_mem _ hx))
      refine ⟨hL, ?_⟩
      intro d hd
      rw [hD d hd]
      by_cases hdv : in_degree g v = d
      · have h1 : (dc0.set (in_degree g v) (dc0.getD (in_degree g v) 0 + 1)).getD d 0
            = dc0.getD d 0 + 1 := by
          rw [← hdv]
          exact getD_set_self dc0 _ _ (by omega)
        have h2 : ldo_deg_count g (v :: l) d = ldo_deg_count g l d + 1 := by
          unfold ldo_deg_count
          rw [List.filter_cons]
          simp [hdv]
        rw [h1, h2]
        omega
      · have h1 : (dc0.set (in_degree g v) (dc0.getD (in_degree g v) 0 + 1)).getD d 0
            = dc0.getD d 0 := getD_set_other dc0 _ _ _ hdv
        have h2 : ldo_deg_count g (v :: l) d = ldo_deg_count g l d := by
          unfold ldo_deg_count
          rw [List.filter_cons]
          simp [hdv]
        rw [h1, h2]

theorem ldo_degree_counts_spec (g : Graph) (comp : List Nat) :
    (ldo_degree_counts g comp).length = ldo_maxdeg g comp + 1 ∧
    ∀ d, d ≤ ldo_maxdeg g comp →
      (ldo_degree_counts g comp).getD d 0 = ldo_deg_count g comp d := by
  unfold ldo_degree_counts
  obtain ⟨h1, h2⟩ := dc_fold_spec g (ldo_maxdeg g comp) comp
    (List.replicate (ldo_maxdeg g comp + 1) 0) (by simp)
    (fun v hv => ldo_maxdeg_le g comp v hv)
  refine ⟨h1, fun d hd => ?_⟩
  rw [h2 d hd, getD_replicate_zero]
  omega

theorem dc_fold_sum (g : Graph) :
    ∀ (l : List Nat) (dc0 : List Nat), (∀ v ∈ l, in_degree g v < dc0.length) →
    (l.foldl (fun dc v => dc.set (in_degree g v) (dc.getD (in_degree g v) 0 + 1))
      dc0).sum = dc0.sum + l.length := by
  intro l
  induction l with
  | nil => intro dc0 hdeg; simp
  | cons v l ih =>
      intro dc0 hdeg
      simp only [List.foldl_cons]
      have hv := hdeg v (List.mem_cons_self _ _)
      have h1 := sum_set_succ dc0 (in_degree g v) hv
      have h2 := ih (dc0.set (in_degree g v) (dc0.getD (in_degree g v) 0 + 1))
        (fun x hx => by
          rw [List.length_set]
          exact hdeg x (List.mem_cons_of_mem _ hx))
      rw [h2, h1]
      simp [List.length_cons]
      omega

theorem ldo_degree_counts_sum (g : Graph) (comp : List Nat) :
    (ldo_degree_counts g comp).sum = comp.length := by
  unfold ldo_degree_counts
  rw [dc_fold_sum g comp _ (fun v hv => by
    rw [List.length_replicate]
    exact Nat.lt_succ_of_le (ldo_maxdeg_le g comp v hv))]
  simp

theorem ldo_bstart_mono (g : Graph) (comp : List Nat) (e e2 : Nat) (h : e ≤ e2) :
    ldo_bstart g comp e ≤ ldo_bstart g comp e2 :=
  take_sum_le _ _ _ h

theorem ldo_bstart_succ (g : Graph) (comp : List Nat) (e : Nat)
    (he : e ≤ ldo_maxdeg g comp) :
    ldo_bstart g comp (e + 1) = ldo_bstart g comp e + ldo_deg_count g comp e := by
  unfold ldo_bstart
  rw [take_sum_succ _ _ (by rw [(ldo_degree_counts_spec g comp).1]; omega),
    (ldo_degree_counts_spec g comp).2 e he]

theorem ldo_bstart_top (g : Graph) (comp : List Nat) :
    ldo_bstart g comp (ldo_maxdeg g comp + 1) = comp.length := by
  unfold ldo_bstart
  rw [List.take_of_length_le (le_of_eq (ldo_degree_counts_spec g comp).1)]
  exact ldo_degree_counts_sum g comp

theorem ldo_bstart_le_len (g : Graph) (comp : List Nat) (e : Nat) :
    ldo_bstart g comp e ≤ comp.length := by
  rcases Nat.le_total e (ldo_maxdeg g comp + 1) with h | h
  · rw [← ldo_bstart_top g comp]
    exact ldo_bstart_mono _ _ _ _ h
  · unfold ldo_bstart
    rw [List.take_of_length_le (by rw [(ldo_degree_counts_spec g comp).1]; omega)]
    exact le_of_eq (ldo_degree_counts_sum g comp)

theorem ldo_assign_fold (g : Graph) (comp : List Nat) (hnd : comp.Nodup) :
    ∀ (todo done : List Nat) (st : List Nat × (Nat → Nat) × List Nat),
    comp = done ++ todo → LdoAssignInv g comp done st →
    LdoAssignInv g comp comp
      (todo.foldl (ldo_assign (fun v => in_degree g v)) st) := by
  intro todo
  induction todo with
  | nil =>
      intro done st hc hI
      rw [List.append_nil] at hc
      subst hc
      simpa using hI
  | cons v0 todo ih =>
      intro done st hc hI
      simp only [List.foldl_cons]
      have hv0comp : v0 ∈ comp := by
        rw [hc]; exact List.mem_append_right _ (List.mem_cons_self _ _)
      have hd0 : in_degree g v0 ≤ ldo_maxdeg g comp := ldo_maxdeg_le g comp v0 hv0comp
      have hv0done : v0 ∉ done := by
        intro hmem
        have hnd2 := hnd
        rw [hc] at hnd2
        exact List.disjoint_of_nodup_append hnd2 hmem (List.mem_cons_self _ _)
      -- the pointer read by the assignment
      have hp : st.2.2.getD (in_degree g v0) 0 =
          ldo_bstart g comp (in_degree g v0) + ldo_deg_count g done (in_degree g v0) :=
        hI.hptr _ hd0
      have hcnt : ∀ d, ldo_deg_count g comp d =
          ldo_deg_count g (done ++ [v0]) d + ldo_deg_count g todo d := by
        intro d
        rw [← ldo_deg_count_append]
        rw [hc, List.append_assoc]
        rfl
      have hcnt2 : ldo_deg_count g (done ++ [v0]) (in_degree g v0) =
          ldo_deg_count g done (in_degree g v0) + 1 := by
        rw [ldo_deg_count_append]
        simp [ldo_deg_count]
      have hcnt3 : ∀ d, d ≠ in_degree g v0 →
          ldo_deg_count g (done ++ [v0]) d = ldo_deg_count g done d := by
        intro d hd
        rw [ldo_deg_count_append]
        have : ldo_deg_count g [v0] d = 0 := by
          simp [ldo_deg_count]
          omega
        omega
      have hloc_lt : st.2.2.getD (in_degree g v0) 0 < comp.length := by
        have h1 : ldo_bstart g comp (in_degree g v0) +
            ldo_deg_count g done (in_degree g v0) + 1 ≤
            ldo_bstart g comp (in_degree g v0) +
            ldo_deg_count g comp (in_degree g v0) := by
          have := hcnt (in_degree g v0)
          have := hcnt2
          omega
        have h2 : ldo_bstart g comp (in_degree g v0) +
            ldo_deg_count g comp (in_degree g v0) =
            ldo_bstart g comp (in_degree g v0 + 1) :=
          (ldo_bstart_succ g comp _ hd0).symm
        have h3 := ldo_bstart_le_len g comp (in_degree g v0 + 1)
        omega
      refine ih (done ++ [v0]) _ (by rw [hc, List.append_assoc]; rfl) ?_
      dsimp only [ldo_assign]
      constructor
      · -- bins length
        show (st.1.set _ v0).length = comp.length
        rw [List.length_set]
        exact hI.hlen
      · -- pointer list length
        show (st.2.2.set _ _).length = ldo_maxdeg g comp + 1
        rw [List.length_set]
        exact hI.hplen
      · -- pointers
        intro d hd
        by_cases hdv : in_degree g v0 = d
        · subst hdv
          show (st.2.2.set (in_degree g v0) (st.2.2.getD (in_degree g v0) 0 + 1)).getD
            (in_degree g v0) 0 = _
          rw [getD_set_self _ _ _ (by rw [hI.hplen]; omega), hp, hcnt2]
          omega
        · show (st.2.2.set (in_degree g v0) (st.2.2.getD (in_degree g v0) 0 + 1)).getD
            d 0 = _
          rw [getD_set_other _ _ _ _ hdv, hI.hptr d hd,
            hcnt3 d (fun hh => hdv hh.symm)]
      · -- per-vertex facts
        intro v hv
        dsimp only
        rcases List.mem_append.mp hv with hvd | hvv
        · -- an earlier vertex: unaffected, bounds only widen
          have hvne : v ≠ v0 := fun hh => hv0done (hh ▸ hvd)
          obtain ⟨hb1, hb2, hb3⟩ := hI.hvert v hvd
          have hlocv : (upd st.2.1 v0 (st.2.2.getD (in_degree g v0) 0)) v = st.2.1 v :=
            upd_other _ _ _ _ hvne
          have hcnt_le : ldo_deg_count g done (in_degree g v) ≤
              ldo_deg_count g (done ++ [v0]) (in_degree g v) := by
            rw [ldo_deg_count_append]
            omega
          have hvcomp : v ∈ comp := by rw [hc]; exact List.mem_append_left _ hvd
          have hdv : in_degree g v ≤ ldo_maxdeg g comp := ldo_maxdeg_le g comp v hvcomp
          -- v's slot differs from the newly written one
          have hslot : st.2.2.getD (in_degree g v0) 0 ≠ st.2.1 v := by
            have harith : ldo_deg_count g done (in_degree g v) ≤
                ldo_deg_count g comp (in_degree g v) := by
              have := hcnt (in_degree g v)
              have := hcnt_le
              omega
            rcases Nat.lt_trichotomy (in_degree g v) (in_degree g v0) with hlt | heq | hgt
            · -- v's whole block lies before the write position
              have h1 : st.2.1 v < ldo_bstart g comp (in_degree g v + 1) := by
                have := ldo_bstart_succ g comp (in_degree g v) hdv
                omega
              have h2 : ldo_bstart g comp (in_degree g v + 1) ≤
                  ldo_bstart g comp (in_degree g v0) :=
                ldo_bstart_mono g comp _ _ hlt
              omega
            · -- same block: v sits strictly before the pointer
              rw [heq] at hb2
              omega
            · -- v's block lies after the write position
              have h1 : st.2.2.getD (in_degree g v0) 0 <
                  ldo_bstart g comp (in_degree g v0 + 1) := by
                have := ldo_bstart_succ g comp (in_degree g v0) hd0
                have := hcnt (in_degree g v0)
                have := hcnt2
                omega
              have h2 : ldo_bstart g comp (in_degree g v0 + 1) ≤
                  ldo_bstart g comp (in_degree g v) :=
                ldo_bstart_mono g comp _ _ hgt
              omega
          refine ⟨?_, ?_, ?_⟩
          · rw [hlocv]; exact hb1
          · rw [hlocv]; omega
          · show (st.1.set (st.2.2.getD (in_degree g v0) 0) v0).getD
              ((upd st.2.1 v0 (st.2.2.getD (in_degree g v0) 0)) v) 0 = v
            rw [hlocv, getD_set_other _ _ _ _ hslot]
            exact hb3
        · -- the newly placed vertex v0
          have hveq : v = v0 := by simpa using hvv
          subst hveq
          have hlocv : (upd st.2.1 v (st.2.2.getD (in_degree g v) 0)) v =
              st.2.2.getD (in_degree g v) 0 := upd_same _ _ _
          refine ⟨?_, ?_, ?_⟩
          · rw [hlocv, hp]
            omega
          · rw [hlocv, hp, hcnt2]
            omega
          · rw [hlocv]
            exact getD_set_self _ _ _ (by rw [hI.hlen]; exact hloc_lt)

theorem ldo_setup_eq (g : Graph) (comp : List Nat) :
    ldo_setup g comp =
      { bins := (comp.foldl (ldo_assign (fun v => in_degree g v))
            (List.replicate comp.length 0, fun _ => 0,
              (List.range (ldo_maxdeg g comp + 1)).map
                (fun i => ((ldo_degree_counts g comp).take i).sum))).1,
        bin_starts := (List.range (ldo_maxdeg g comp + 1)).map
          (fun i => ((ldo_degree_counts g comp).take i).sum),
        degrees := fun v => in_degree g v,
        location := (comp.foldl (ldo_assign (fun v => in_degree g v))
            (List.replicate comp.length 0, fun _ => 0,
              (List.range (ldo_maxdeg g comp + 1)).map
                (fun i => ((ldo_degree_counts g comp).take i).sum))).2.1,
        graph := g } := rfl

theorem ldo_mid_step_core (g0 : Graph) (comp : List Nat) (k v u0 d lu c w : Nat)
    (l : List Nat) (s s2 : LdoState)
    (hM : LdoMid g0 comp k v (u0 :: l) s)
    (hu0comp : u0 ∈ comp) (hu0v : u0 ≠ v)
    (hd_def : d = s.degrees u0) (hlu_def : lu = s.location u0)
    (hc_def : c = s.bin_starts.getD d 0) (hw_def : w = s.bins.getD c 0)
    (hnotlt : ¬ lu < s.location v)
    (hbs2 : s2.bin_starts = s.bin_starts.set d (c + 1))
    (hdeg2 : s2.degrees = upd s.degrees u0 (d - 1))
    (hgr2 : s2.graph = s.graph)
    (hswap : (w ≠ u0 ∧ s2.bins = (s.bins.set lu w).set c u0 ∧
        s2.location = upd (upd s.location w lu) u0 c) ∨
      (w = u0 ∧ s2.bins = s.bins ∧ s2.location = s.location)) :
    LdoMid g0 comp k v l s2 := by
  obtain ⟨hu0l, hlnd⟩ : u0 ∉ l ∧ l.Nodup := List.nodup_cons.mp hM.hlnd
  have hn := hM.hk
  have hlu_n : lu < comp.length := hlu_def ▸ (hM.hloc u0 hu0comp).1
  have hbinslu : s.bins.getD lu 0 = u0 := by
    rw [hlu_def]; exact (hM.hloc u0 hu0comp).2
  have hlu_ne_k : lu ≠ k := by
    intro hh
    apply hu0v
    rw [← hbinslu, hh, hM.hvbin]
  have hk_le_lu : k ≤ lu := by
    have h2 : ¬ lu < k := by rw [← hM.hvloc]; exact hnotlt
    omega
  have hlu_ge : k + 1 ≤ lu := by omega
  have hd1 : 1 ≤ d := by
    have hc := hM.hcount u0 hu0comp (by rw [← hlu_def]; exact hlu_ge)
    rw [if_pos (List.mem_cons_self _ _), ← hd_def] at hc
    omega
  have hd_le : d ≤ ldo_maxdeg g0 comp := hd_def ▸ hM.hdeg u0 hu0comp
  have hposc : ldo_pos_count comp s d = c := by
    rw [hc_def]; exact (hM.hstart d hd_le).symm
  have hb : ∀ p, p < comp.length →
      (s.degrees (s.bins.getD p 0) < d ↔ p < ldo_pos_count comp s d) :=
    fun p hp => sorted_block comp.length (fun p => s.degrees (s.bins.getD p 0)) d
      hM.hsort p hp
  have hc_le_lu : c ≤ lu := by
    have h1 : ¬ (s.degrees (s.bins.getD lu 0) < d) := by
      rw [hbinslu, ← hd_def]; omega
    have h2 : ¬ (lu < ldo_pos_count comp s d) := fun hh => h1 ((hb lu hlu_n).mpr hh)
    rw [hposc] at h2
    omega
  have hc_n : c < comp.length := by omega
  have hck : k + 1 ≤ c := by
    have h1 : s.degrees (s.bins.getD k 0) = 0 := hM.hzero k (le_refl k)
    have h2 := (hb k (by omega)).mp (by rw [h1]; omega)
    rw [hposc] at h2
    omega
  have hw_comp : w ∈ comp := by rw [hw_def]; exact (hM.hpos c hc_n).1
  have hlocw : s.location w = c := by rw [hw_def]; exact (hM.hpos c hc_n).2
  have hdw : s.degrees w = d := by
    have h1 : ¬ (s.degrees (s.bins.getD c 0) < d) := by
      intro hh
      have h3 := (hb c hc_n).mp hh
      rw [hposc] at h3
      omega
    have h2 : s.degrees (s.bins.getD c 0) ≤ s.degrees (s.bins.getD lu 0) :=
      hM.hsort lu hlu_n c hc_le_lu
    rw [hbinslu, ← hd_def] at h2
    rw [← hw_def] at h1 h2
    omega
  have hwv : w ≠ v := by
    intro hh
    have h1 := hlocw
    rw [hh, hM.hvloc] at h1
    omega
  have hwu0_iff : (w = u0) ↔ (c = lu) := by
    constructor
    · intro hh
      rw [← hlocw, hh, hlu_def]
    · intro hh
      rw [hw_def, hh, hbinslu]
  have hblen2 : s2.bins.length = comp.length := by
    rcases hswap with ⟨_, hbins_eq, _⟩ | ⟨_, hbins_eq, _⟩
    · rw [hbins_eq, List.length_set, List.length_set]
      exact hM.hbins
    · rw [hbins_eq]
      exact hM.hbins
  have hbins2 : ∀ p, p < comp.length → s2.bins.getD p 0 =
      if p = c then u0 else if p = lu then w else s.bins.getD p 0 := by
    intro p hp
    rcases hswap with ⟨hwu, hbins_eq, _⟩ | ⟨hwu, hbins_eq, _⟩
    · rw [hbins_eq]
      by_cases hpc : p = c
      · rw [if_pos hpc, hpc]
        exact getD_set_self _ _ _ (by rw [List.length_set, hM.hbins]; exact hc_n)
      · rw [if_neg hpc, getD_set_other _ _ _ _ (fun hh => hpc hh.symm)]
        by_cases hplu : p = lu
        · rw [if_pos hplu, hplu]
          exact getD_set_self _ _ _ (by rw [hM.hbins]; exact hlu_n)
        · rw [if_neg hplu, getD_set_other _ _ _ _ (fun hh => hplu hh.symm)]
    · have hcl : c = lu := hwu0_iff.mp hwu
      rw [hbins_eq]
      by_cases hpc : p = c
      · rw [if_pos hpc, hpc, ← hw_def]
        exact hwu
      · rw [if_neg hpc]
        by_cases hplu : p = lu
        · exact absurd (hplu.trans hcl.symm) hpc
        · rw [if_neg hplu]
  have hloc2 : ∀ x, s2.location x =
      if x = u0 then c else if x = w then lu else s.location x := by
    intro x
    rcases hswap with ⟨hwu, _, hloc_eq⟩ | ⟨hwu, _, hloc_eq⟩
    · rw [hloc_eq]
      by_cases hxu : x = u0
      · rw [if_pos hxu, hxu, upd_same]
      · rw [if_neg hxu, upd_other _ _ _ _ hxu]
        by_cases hxw : x = w
        · rw [if_pos hxw, hxw, upd_same]
        · rw [if_neg hxw, upd_other _ _ _ _ hxw]
    · have hcl : c = lu := hwu0_iff.mp hwu
      rw [hloc_eq]
      by_cases hxu : x = u0
      · rw [if_pos hxu, hxu, ← hlu_def]
        exact hcl.symm
      · rw [if_neg hxu]
        by_cases hxw : x = w
        · rw [if_pos hxw, hxw, hlocw]
          exact hcl
        · rw [if_neg hxw]
  have hf : ∀ p, p < comp.length → s2.degrees (s2.bins.getD p 0) =
      if p = c then d - 1 else s.degrees (s.bins.getD p 0) := by
    intro p hp
    rw [hbins2 p hp, hdeg2]
    by_cases hpc : p = c
    · rw [if_pos hpc, if_pos hpc, upd_same]
    · rw [if_neg hpc, if_neg hpc]
      by_cases hplu : p = lu
      · rw [if_pos hplu]
        have hwu : w ≠ u0 := fun hh => hpc (hplu.trans (hwu0_iff.mp hh).symm)
        rw [upd_other _ _ _ _ hwu, hdw, hplu, hbinslu]
        exact hd_def
      · rw [if_neg hplu]
        have hxne : s.bins.getD p 0 ≠ u0 := by
          intro hh
          apply hplu
          have h2 := (hM.hpos p hp).2
          rw [hh, ← hlu_def] at h2
          exact h2.symm
        rw [upd_other _ _ _ _ hxne]
  constructor
  · exact hblen2
  · rw [hbs2, List.length_set]
    exact hM.hbs
  · intro x hx
    rw [hloc2 x]
    by_cases hxu : x = u0
    · rw [if_pos hxu]
      refine ⟨hc_n, ?_⟩
      rw [hbins2 c hc_n, if_pos rfl, hxu]
    · rw [if_neg hxu]
      by_cases hxw : x = w
      · rw [if_pos hxw]
        refine ⟨hlu_n, ?_⟩
        have hlu_ne_c : ¬ (lu = c) := by
          intro hh
          exact hxu (by rw [hxw, hwu0_iff.mpr hh.symm])
        rw [hbins2 lu hlu_n, if_neg hlu_ne_c, if_pos rfl]
        exact hxw.symm
      · rw [if_neg hxw]
        obtain ⟨hx1, hx2⟩ := hM.hloc x hx
        refine ⟨hx1, ?_⟩
        rw [hbins2 _ hx1]
        have hne1 : ¬ (s.location x = c) := by
          intro hh
          apply hxw
          have h3 : w = x := by rw [hw_def, ← hh, hx2]
          exact h3.symm
        have hne2 : ¬ (s.location x = lu) := by
          intro hh
          apply hxu
          have h3 : u0 = x := by rw [← hbinslu, ← hh, hx2]
          exact h3.symm
        rw [if_neg hne1, if_neg hne2]
        exact hx2
  · intro p hp
    rw [hbins2 p hp]
    by_cases hpc : p = c
    · rw [if_pos hpc]
      refine ⟨hu0comp, ?_⟩
      rw [hloc2 u0, if_pos rfl, hpc]
    · rw [if_neg hpc]
      by_cases hplu : p = lu
      · rw [if_pos hplu]
        refine ⟨hw_comp, ?_⟩
        have hwu : w ≠ u0 := fun hh => hpc (hplu.trans (hwu0_iff.mp hh).symm)
        rw [hloc2 w, if_neg hwu, if_pos rfl, hplu]
      · rw [if_neg hplu]
        obtain ⟨h1, h2⟩ := hM.hpos p hp
        refine ⟨h1, ?_⟩
        have hne1 : ¬ (s.bins.getD p 0 = u0) := by
          intro hh
          apply hplu
          have h3 := (hM.hpos p hp).2
          rw [hh, ← hlu_def] at h3
          exact h3.symm
        have hne2 : ¬ (s.bins.getD p 0 = w) := by
          intro hh
          apply hpc
          have h3 := (hM.hpos p hp).2
          rw [hh, hlocw] at h3
          exact h3.symm
        rw [hloc2 _, if_neg hne1, if_neg hne2]
        exact h2
  · intro q hq p hpq
    rw [hf q hq, hf p (by omega)]
    by_cases hqc : q = c <;> by_cases hpc : p = c
    · rw [if_pos hqc, if_pos hpc]
    · rw [if_pos hqc, if_neg hpc]
      have hpltc : p < c := by omega
      have h3 := (hb p (by omega)).mpr (by rw [hposc]; omega)
      omega
    · rw [if_neg hqc, if_pos hpc]
      have hcq : c < q := by omega
      have h2 : ¬ (s.degrees (s.bins.getD q 0) < d) := by
        intro hh
        have h3 := (hb q hq).mp hh
        rw [hposc] at h3
        omega
      omega
    · rw [if_neg hqc, if_neg hpc]
      exact hM.hsort q hq p hpq
  · intro e he
    rw [hbs2]
    by_cases hed : e = d
    · subst hed
      rw [getD_set_self _ _ _ (by rw [hM.hbs]; omega)]
      have hsucc : ldo_pos_count comp s2 e = ldo_pos_count comp s e + 1 := by
        unfold ldo_pos_count
        refine countP_range_update_succ comp.length c _ _ ?_ hc_n ?_ ?_
        · intro x hx hxc
          show decide (s.degrees (s.bins.getD x 0) < e) =
            decide (s2.degrees (s2.bins.getD x 0) < e)
          rw [hf x hx, if_neg hxc]
        · show decide (s.degrees (s.bins.getD c 0) < e) = false
          rw [← hw_def, hdw]
          simp
        · show decide (s2.degrees (s2.bins.getD c 0) < e) = true
          rw [hf c hc_n, if_pos rfl]
          simp
          omega
      rw [hsucc, hposc]
    · rw [getD_set_other _ _ _ _ (fun hh => hed hh.symm)]
      have heqc : ldo_pos_count comp s2 e = ldo_pos_count comp s e := by
        unfold ldo_pos_count
        refine countP_range_update_eq comp.length c _ _ ?_ ?_
        · intro x hx hxc
          show decide (s.degrees (s.bins.getD x 0) < e) =
            decide (s2.degrees (s2.bins.getD x 0) < e)
          rw [hf x hx, if_neg hxc]
        · show decide (s.degrees (s.bins.getD c 0) < e) =
            decide (s2.degrees (s2.bins.getD c 0) < e)
          rw [hf c hc_n, if_pos rfl, ← hw_def, hdw, decide_eq_decide]
          omega
      rw [heqc]
      exact hM.hstart e he
  · intro x hx
    rw [hdeg2]
    by_cases hxu : x = u0
    · rw [hxu, upd_same]
      omega
    · rw [upd_other _ _ _ _ hxu]
      exact hM.hdeg x hx
  · intro p hpk
    have hp_n : p < comp.length := by omega
    rw [hf p hp_n, if_neg (by omega)]
    exact hM.hzero p hpk
  · rw [hgr2]
    exact hM.hsub
  · intro u hu hloc_u
    have hcnt_eq : ldo_out_count comp s2 (k + 1) u = ldo_out_count comp s (k + 1) u := by
      unfold ldo_out_count
      refine congrArg List.length (List.filter_congr ?_)
      intro x hx
      rw [hgr2, hloc2 x]
      by_cases hxu : x = u0
      · rw [if_pos hxu, hxu, decide_eq_decide, ← hlu_def]
        constructor
        · rintro ⟨h1, _⟩
          exact ⟨h1, by omega⟩
        · rintro ⟨h1, _⟩
          exact ⟨h1, by omega⟩
      · rw [if_neg hxu]
        by_cases hxw : x = w
        · rw [if_pos hxw, hxw, hlocw, decide_eq_decide]
          constructor
          · rintro ⟨h1, _⟩
            exact ⟨h1, by omega⟩
          · rintro ⟨h1, _⟩
            exact ⟨h1, by omega⟩
        · rw [if_neg hxw]
    have hloc_u_old : k + 1 ≤ s.location u := by
      rw [hloc2 u] at hloc_u
      by_cases hxu : u = u0
      · rw [hxu, ← hlu_def]
        exact hlu_ge
      · rw [if_neg hxu] at hloc_u
        by_cases hxw : u = w
        · rw [hxw, hlocw]
          exact hck
        · rw [if_neg hxw] at hloc_u
          exact hloc_u
    rw [hcnt_eq, hdeg2]
    by_cases hxu : u = u0
    · have hcm := hM.hcount u0 hu0comp (by rw [← hlu_def]; exact hlu_ge)
      rw [if_pos (List.mem_cons_self _ _), ← hd_def] at hcm
      rw [hxu, upd_same, if_neg hu0l]
      omega
    · rw [upd_other _ _ _ _ hxu]
      have hcm := hM.hcount u hu hloc_u_old
      have hind : (if u ∈ l then 1 else 0) ≤ (if u ∈ u0 :: l then 1 else 0) := by
        by_cases hul : u ∈ l
        · rw [if_pos hul, if_pos (List.mem_cons_of_mem _ hul)]
        · rw [if_neg hul]
          exact Nat.zero_le _
      omega
  · exact hM.hk
  · rw [hbins2 k (by omega), if_neg (by omega), if_neg (by omega)]
    exact hM.hvbin
  · rw [hloc2 v, if_neg (fun hh => hu0v hh.symm), if_neg (fun hh => hwv hh.symm)]
    exact hM.hvloc
  · exact hlnd
  · exact fun u huu => hM.harcs u (List.mem_cons_of_mem _ huu)

theorem ldo_setup_inv (g : Graph) (comp : List Nat) (h : ldo_precondition g comp) :
    LdoInv g comp 0 (ldo_setup g comp) := by
  obtain ⟨hanti, hself, hw1, hclosed, hand, hcompnd⟩ := h
  rw [ldo_setup_eq]
  have hinit : LdoAssignInv g comp []
      (List.replicate comp.length 0, fun _ => 0,
        (List.range (ldo_maxdeg g comp + 1)).map
          (fun i => ((ldo_degree_counts g comp).take i).sum)) := by
    constructor
    · simp
    · simp
    · intro d hd
      dsimp only
      rw [getD_map_range _ _ _ (by omega)]
      show ((ldo_degree_counts g comp).take d).sum =
        ldo_bstart g comp d + ldo_deg_count g [] d
      simp [ldo_bstart, ldo_deg_count]
    · intro v hv
      exact absurd hv (List.not_mem_nil v)
  have hF := ldo_assign_fold g comp hcompnd comp [] _ (List.nil_append comp).symm hinit
  have hv1 : ∀ v ∈ comp,
      (comp.foldl (ldo_assign (fun v => in_degree g v))
        (List.replicate comp.length 0, fun _ => 0,
          (List.range (ldo_maxdeg g comp + 1)).map
            (fun i => ((ldo_degree_counts g comp).take i).sum))).2.1 v < comp.length ∧
      (comp.foldl (ldo_assign (fun v => in_degree g v))
        (List.replicate comp.length 0, fun _ => 0,
          (List.range (ldo_maxdeg g comp + 1)).map
            (fun i => ((ldo_degree_counts g comp).take i).sum))).1.getD
        ((comp.foldl (ldo_assign (fun v => in_degree g v))
          (List.replicate comp.length 0, fun _ => 0,
            (List.range (ldo_maxdeg g comp + 1)).map
              (fun i => ((ldo_degree_counts g comp).take i).sum))).2.1 v) 0 = v := by
    intro v hv
    obtain ⟨hb1, hb2, hb3⟩ := hF.hvert v hv
    refine ⟨?_, hb3⟩
    have hdv := ldo_maxdeg_le g comp v hv
    have h2 := ldo_bstart_succ g comp (in_degree g v) hdv
    have h3 := ldo_bstart_le_len g comp (in_degree g v + 1)
    omega
  have hblock : ∀ v ∈ comp,
      ldo_bstart g comp (in_degree g v) ≤
        (comp.foldl (ldo_assign (fun v => in_degree g v))
          (List.replicate comp.length 0, fun _ => 0,
            (List.range (ldo_maxdeg g comp + 1)).map
              (fun i => ((ldo_degree_counts g comp).take i).sum))).2.1 v ∧
      (comp.foldl (ldo_assign (fun v => in_degree g v))
        (List.replicate comp.length 0, fun _ => 0,
          (List.range (ldo_maxdeg g comp + 1)).map
            (fun i => ((ldo_degree_counts g comp).take i).sum))).2.1 v <
        ldo_bstart g comp (in_degree g v + 1) := by
    intro v hv
    obtain ⟨hb1, hb2, _⟩ := hF.hvert v hv
    have h2 := ldo_bstart_succ g comp (in_degree g v) (ldo_maxdeg_le g comp v hv)
    exact ⟨hb1, by omega⟩
  have hinj : ∀ v ∈ comp, ∀ u ∈ comp,
      (comp.foldl (ldo_assign (fun v => in_degree g v))
        (List.replicate comp.length 0, fun _ => 0,
          (List.range (ldo_maxdeg g comp + 1)).map
            (fun i => ((ldo_degree_counts g comp).take i).sum))).2.1 v =
      (comp.foldl (ldo_assign (fun v => in_degree g v))
        (List.replicate comp.length 0, fun _ => 0,
          (List.range (ldo_maxdeg g comp + 1)).map
            (fun i => ((ldo_degree_counts g comp).take i).sum))).2.1 u → v = u := by
    intro v hv u hu he
    have h1 := (hv1 v hv).2
    have h2 := (hv1 u hu).2
    rw [he] at h1
    exact h1.symm.trans h2
  have hsurj : ∀ p, p < comp.length → ∃ v ∈ comp,
      (comp.foldl (ldo_assign (fun v => in_degree g v))
        (List.replicate comp.length 0, fun _ => 0,
          (List.range (ldo_maxdeg g comp + 1)).map
            (fun i => ((ldo_degree_counts g comp).take i).sum))).2.1 v = p := by
    intro p hp
    have hnd2 := hcompnd.map_on (fun x hx y hy hxy => hinj x hx y hy hxy)
    have hsubset : (comp.map
        (comp.foldl (ldo_assign (fun v => in_degree g v))
          (List.replicate comp.length 0, fun _ => 0,
            (List.range (ldo_maxdeg g comp + 1)).map
              (fun i => ((ldo_degree_counts g comp).take i).sum))).2.1).toFinset ⊆
        Finset.range comp.length := by
      intro x hx
      rw [List.mem_toFinset, List.mem_map] at hx
      obtain ⟨v, hv, hveq⟩ := hx
      rw [Finset.mem_range]
      exact hveq ▸ (hv1 v hv).1
    have hcard : (Finset.range comp.length).card ≤
        (comp.map
          (comp.foldl (ldo_assign (fun v => in_degree g v))
            (List.replicate comp.length 0, fun _ => 0,
              (List.range (ldo_maxdeg g comp + 1)).map
                (fun i => ((ldo_degree_counts g comp).take i).sum))).2.1).toFinset.card := by
      rw [Finset.card_range, List.toFinset_card_of_nodup hnd2, List.length_map]
    have heq := Finset.eq_of_subset_of_card_le hsubset hcard
    have hpmem : p ∈ (comp.map
        (comp.foldl (ldo_assign (fun v => in_degree g v))
          (List.replicate comp.length 0, fun _ => 0,
            (List.range (ldo_maxdeg g comp + 1)).map
              (fun i => ((ldo_degree_counts g comp).take i).sum))).2.1).toFinset := by
      rw [heq]
      exact Finset.mem_range.mpr hp
    rw [List.mem_toFinset, List.mem_map] at hpmem
    exact hpmem
  constructor
  · dsimp only
    exact hF.hlen
  · dsimp only
    simp
  · intro x hx
    dsimp only
    exact ⟨(hv1 x hx).1, (hv1 x hx).2⟩
  · intro p hp
    dsimp only
    obtain ⟨v, hv, hveq⟩ := hsurj p hp
    rw [← hveq, (hv1 v hv).2]
    exact ⟨hv, rfl⟩
  · intro q hq p hpq
    dsimp only
    obtain ⟨vq, hvq, hq2⟩ := hsurj q hq
    obtain ⟨vp, hvp, hp2⟩ := hsurj p (lt_of_le_of_lt hpq hq)
    rw [← hq2, ← hp2] at hpq
    rw [← hq2, ← hp2, (hv1 vq hvq).2, (hv1 vp hvp).2]
    by_contra hcon
    push_neg at hcon
    have h1 := (hblock vq hvq).2
    have h2 := (hblock vp hvp).1
    have h3 : ldo_bstart g comp (in_degree g vq + 1) ≤
        ldo_bstart g comp (in_degree g vp) := ldo_bstart_mono g comp _ _ (by omega)
    omega
  · intro d hd
    dsimp only
    rw [getD_map_range _ _ _ (by omega)]
    unfold ldo_pos_count
    dsimp only
    have hcongr : (List.range comp.length).filter
        (fun p => decide (in_degree g
          ((comp.foldl (ldo_assign (fun v => in_degree g v))
            (List.replicate comp.length 0, fun _ => 0,
              (List.range (ldo_maxdeg g comp + 1)).map
                (fun i => ((ldo_degree_counts g comp).take i).sum))).1.getD p 0) < d)) =
        (List.range comp.length).filter
          (fun p => decide (p < ldo_bstart g comp d)) := by
      apply List.filter_congr
      intro p hp
      rw [List.mem_range] at hp
      obtain ⟨v, hv, hveq⟩ := hsurj p hp
      rw [← hveq, (hv1 v hv).2]
      by_cases hc : in_degree g v < d
      · have hlt := lt_of_lt_of_le (hblock v hv).2 (ldo_bstart_mono g comp _ _ hc)
        simp [hc, hlt]
      · have hge : ¬ ((comp.foldl (ldo_assign (fun v => in_degree g v))
            (List.replicate comp.length 0, fun _ => 0,
              (List.range (ldo_maxdeg g comp + 1)).map
                (fun i => ((ldo_degree_counts g comp).take i).sum))).2.1 v <
            ldo_bstart g comp d) := by
          have hb := (hblock v hv).1
          have hm := ldo_bstart_mono g comp d (in_degree g v) (by omega)
          omega
        simp [hc, hge]
    rw [hcongr, length_filter_range_lt _ _ (ldo_bstart_le_len g comp d)]
    rfl
  · intro x hx
    dsimp only
    exact ldo_maxdeg_le g comp x hx
  · intro p hp
    exact absurd hp (Nat.not_lt_zero p)
  · dsimp only
    exact List.Sublist.refl _
  · intro u hu _
    dsimp only
    unfold ldo_out_count
    dsimp only
    have hcongr : comp.filter (fun x => decide ((u, x, 1) ∈ g.arcs ∧
        0 ≤ (comp.foldl (ldo_assign (fun v => in_degree g v))
          (List.replicate comp.length 0, fun _ => 0,
            (List.range (ldo_maxdeg g comp + 1)).map
              (fun i => ((ldo_degree_counts g comp).take i).sum))).2.1 x)) =
        comp.filter (fun x => decide ((u, x, 1) ∈ g.arcs)) := by
      apply List.filter_congr
      intro x _
      simp
    rw [hcongr]
    have hnd2 : (comp.filter (fun x => decide ((u, x, 1) ∈ g.arcs))).Nodup :=
      hcompnd.filter _
    have hmap_nd : ((comp.filter (fun x => decide ((u, x, 1) ∈ g.arcs))).map
        (fun x => (x, 1))).Nodup := by
      refine hnd2.map ?_
      intro a b hab
      injection hab
    have hsubs : ∀ y ∈ (comp.filter (fun x => decide ((u, x, 1) ∈ g.arcs))).map
        (fun x => (x, 1)), y ∈ in_neighbors g u := by
      intro y hy
      rw [List.mem_map] at hy
      obtain ⟨x, hx, hyeq⟩ := hy
      rw [List.mem_filter] at hx
      have harc : (u, x, 1) ∈ g.arcs := by simpa using hx.2
      have harc2 : (x, u, 1) ∈ g.arcs := by simpa using hanti (u, x, 1) harc
      rw [← hyeq]
      exact (in_neighbors_mem g u x 1).mpr harc2
    have hlen := nodup_subset_length_le _ _ hmap_nd hsubs
    rw [List.length_map] at hlen
    exact hlen

theorem ldo_nbr_step_mid (g0 : Graph) (comp : List Nat)
    (hpre : ldo_precondition g0 comp) (k v u0 : Nat) (l : List Nat) (s : LdoState)
    (hM : LdoMid g0 comp k v (u0 :: l) s) :
    LdoMid g0 comp k v l (ldo_nbr_step v s u0) := by
  obtain ⟨hanti, hself, hw1, hclosed, hand, hcompnd⟩ := hpre
  have harc0 : (u0, v, 1) ∈ g0.arcs := hM.harcs u0 (List.mem_cons_self _ _)
  have hu0v : u0 ≠ v := by
    have := hself (u0, v, 1) harc0
    simpa using this
  have hu0comp : u0 ∈ comp := by
    have := hclosed (u0, v, 1) harc0
    simpa using this.1
  by_cases hcase : s.location u0 < s.location v
  · -- u0 already removed: only the graph loses the arc u0 -> v
    have hstep : ldo_nbr_step v s u0 = { s with graph := remove_arc s.graph u0 v } := by
      simp only [ldo_nbr_step]
      rw [if_pos hcase]
    rw [hstep]
    constructor
    · exact hM.hbins
    · exact hM.hbs
    · exact hM.hloc
    · exact hM.hpos
    · exact hM.hsort
    · exact hM.hstart
    · exact hM.hdeg
    · exact hM.hzero
    · show (remove_arc s.graph u0 v).arcs.Sublist g0.arcs
      unfold remove_arc
      exact (List.filter_sublist _).trans hM.hsub
    · intro u hu hloc
      have hc := hM.hcount u hu hloc
      have hmono : ldo_out_count comp { s with graph := remove_arc s.graph u0 v }
          (k + 1) u ≤ ldo_out_count comp s (k + 1) u := by
        unfold ldo_out_count
        apply length_filter_mono
        intro x hx hpx
        rw [decide_eq_true_eq] at hpx ⊢
        obtain ⟨harc, hlx⟩ := hpx
        refine ⟨?_, hlx⟩
        have harc2 : (u, x, 1) ∈ (remove_arc s.graph u0 v).arcs := harc
        unfold remove_arc at harc2
        exact List.mem_of_mem_filter harc2
      have hind : (if u ∈ l then 1 else 0) ≤ (if u ∈ u0 :: l then 1 else 0) := by
        by_cases hul : u ∈ l
        · rw [if_pos hul, if_pos (List.mem_cons_of_mem _ hul)]
        · rw [if_neg hul]
          exact Nat.zero_le _
      have hdeg_eq : ({ s with graph := remove_arc s.graph u0 v } : LdoState).degrees u
          = s.degrees u := rfl
      omega
    · exact hM.hk
    · exact hM.hvbin
    · exact hM.hvloc
    · exact (List.nodup_cons.mp hM.hlnd).2
    · exact fun x hxx => hM.harcs x (List.mem_cons_of_mem _ hxx)
  · -- u0 not yet removed: swap-and-decrement, resolved by the core lemma
    by_cases hwu : s.bins.getD (s.bin_starts.getD (s.degrees u0) 0) 0 ≠ u0
    · have hstep : ldo_nbr_step v s u0 =
          { s with
            bins := (s.bins.set (s.location u0)
                (s.bins.getD (s.bin_starts.getD (s.degrees u0) 0) 0)).set
              (s.bin_starts.getD (s.degrees u0) 0) u0,
            bin_starts := s.bin_starts.set (s.degrees u0)
              (s.bin_starts.getD (s.degrees u0) 0 + 1),
            degrees := upd s.degrees u0 (s.degrees u0 - 1),
            location := upd (upd s.location
                (s.bins.getD (s.bin_starts.getD (s.degrees u0) 0) 0)
                (s.location u0)) u0 (s.bin_starts.getD (s.degrees u0) 0) } := by
        simp only [ldo_nbr_step]
        rw [if_neg hcase, if_pos hwu]
      rw [hstep]
      exact ldo_mid_step_core g0 comp k v u0 (s.degrees u0) (s.location u0)
        (s.bin_starts.getD (s.degrees u0) 0)
        (s.bins.getD (s.bin_starts.getD (s.degrees u0) 0) 0) l s _ hM hu0comp hu0v
        rfl rfl rfl rfl hcase rfl rfl rfl (Or.inl ⟨hwu, rfl, rfl⟩)
    · have hstep : ldo_nbr_step v s u0 =
          { s with
            bin_starts := s.bin_starts.set (s.degrees u0)
              (s.bin_starts.getD (s.degrees u0) 0 + 1),
            degrees := upd s.degrees u0 (s.degrees u0 - 1) } := by
        simp only [ldo_nbr_step]
        rw [if_neg hcase, if_neg hwu]
      push_neg at hwu
      rw [hstep]
      exact ldo_mid_step_core g0 comp k v u0 (s.degrees u0) (s.location u0)
        (s.bin_starts.getD (s.degrees u0) 0)
        (s.bins.getD (s.bin_starts.getD (s.degrees u0) 0) 0) l s _ hM hu0comp hu0v
        rfl rfl rfl rfl hcase rfl rfl rfl (Or.inr ⟨hwu, rfl, rfl⟩)

theorem ldo_extract_pre_mid (g0 : Graph) (comp : List Nat)
    (hpre : ldo_precondition g0 comp) (k v dv : Nat) (s : LdoState)
    (hI : LdoInv g0 comp k s) (hk : k < comp.length)
    (hv_def : v = s.bins.getD k 0) (hdv_def : dv = s.degrees v) :
    LdoMid g0 comp k v (in_neighbors_w s.graph v 1) (ldo_extract_pre s k) := by
  obtain ⟨hanti, hself, hw1, hclosed, hand, hcompnd⟩ := hpre
  have hstep : ldo_extract_pre s k =
      { s with
        bin_starts := if s.degrees (s.bins.getD k 0) > 0
          then s.bin_starts.mapIdx
            (fun i x => if 1 ≤ i ∧ i ≤ s.degrees (s.bins.getD k 0) then x + 1 else x)
          else s.bin_starts,
        degrees := upd s.degrees (s.bins.getD k 0) 0 } := by
    simp only [ldo_extract_pre]
  rw [← hv_def] at hstep
  rw [← hdv_def] at hstep
  rw [hstep]
  have hvcomp : v ∈ comp := by rw [hv_def]; exact (hI.hpos k hk).1
  have hvloc : s.location v = k := by rw [hv_def]; exact (hI.hpos k hk).2
  have hbins_ne : ∀ p, p < comp.length → p ≠ k → s.bins.getD p 0 ≠ v := by
    intro p hp hpk hh
    apply hpk
    have h2 := (hI.hpos p hp).2
    rw [hh, hvloc] at h2
    exact h2.symm
  have hf : ∀ p, p < comp.length → (upd s.degrees v 0) (s.bins.getD p 0) =
      if p = k then 0 else s.degrees (s.bins.getD p 0) := by
    intro p hp
    by_cases hpk : p = k
    · rw [if_pos hpk, hpk, ← hv_def, upd_same]
    · rw [if_neg hpk, upd_other _ _ _ _ (hbins_ne p hp hpk)]
  constructor
  · exact hI.hbins
  · dsimp only
    by_cases hdv : dv > 0
    · rw [if_pos hdv, List.length_mapIdx]
      exact hI.hbs
    · rw [if_neg hdv]
      exact hI.hbs
  · exact hI.hloc
  · exact hI.hpos
  · intro q hq p hpq
    show (upd s.degrees v 0) (s.bins.getD p 0) ≤ (upd s.degrees v 0) (s.bins.getD q 0)
    rw [hf p (by omega), hf q hq]
    by_cases hpk : p = k <;> by_cases hqk : q = k
    · rw [if_pos hpk, if_pos hqk]
    · rw [if_pos hpk, if_neg hqk]
      exact Nat.zero_le _
    · rw [if_neg hpk, if_pos hqk]
      rw [hI.hzero p (by omega)]
    · rw [if_neg hpk, if_neg hqk]
      exact hI.hsort q hq p hpq
  · intro e he
    have hstart_s : s.bin_starts.getD e 0 =
        ((List.range comp.length).filter
          (fun p => decide (s.degrees (s.bins.getD p 0) < e))).length := hI.hstart e he
    show (if dv > 0
        then s.bin_starts.mapIdx (fun i x => if 1 ≤ i ∧ i ≤ dv then x + 1 else x)
        else s.bin_starts).getD e 0 =
      ((List.range comp.length).filter
        (fun p => decide ((upd s.degrees v 0) (s.bins.getD p 0) < e))).length
    by_cases hcond : 1 ≤ e ∧ e ≤ dv
    · have hdv0 : dv > 0 := by omega
      rw [if_pos hdv0, getD_mapIdx _ _ _ (by rw [hI.hbs]; omega)]
      have hsucc : ((List.range comp.length).filter
          (fun p => decide ((upd s.degrees v 0) (s.bins.getD p 0) < e))).length =
        ((List.range comp.length).filter
          (fun p => decide (s.degrees (s.bins.getD p 0) < e))).length + 1 := by
        refine countP_range_update_succ comp.length k _ _ ?_ hk ?_ ?_
        · intro x hx hxk
          show decide (s.degrees (s.bins.getD x 0) < e) =
            decide ((upd s.degrees v 0) (s.bins.getD x 0) < e)
          rw [hf x hx, if_neg hxk]
        · show decide (s.degrees (s.bins.getD k 0) < e) = false
          rw [← hv_def, ← hdv_def]
          simp only [decide_eq_false_iff_not]
          omega
        · show decide ((upd s.degrees v 0) (s.bins.getD k 0) < e) = true
          rw [hf k hk, if_pos rfl]
          simp only [decide_eq_true_eq]
          omega
      rw [hsucc, ← hstart_s]
      show (if 1 ≤ e ∧ e ≤ dv then s.bin_starts.getD e 0 + 1 else s.bin_starts.getD e 0)
        = s.bin_starts.getD e 0 + 1
      rw [if_pos hcond]
    · have heqc : ((List.range comp.length).filter
          (fun p => decide ((upd s.degrees v 0) (s.bins.getD p 0) < e))).length =
        ((List.range comp.length).filter
          (fun p => decide (s.degrees (s.bins.getD p 0) < e))).length := by
        refine countP_range_update_eq comp.length k _ _ ?_ ?_
        · intro x hx hxk
          show decide (s.degrees (s.bins.getD x 0) < e) =
            decide ((upd s.degrees v 0) (s.bins.getD x 0) < e)
          rw [hf x hx, if_neg hxk]
        · show decide (s.degrees (s.bins.getD k 0) < e) =
            decide ((upd s.degrees v 0) (s.bins.getD k 0) < e)
          rw [hf k hk, if_pos rfl, ← hv_def, ← hdv_def, decide_eq_decide]
          omega
      rw [heqc, ← hstart_s]
      by_cases hdv0 : dv > 0
      · rw [if_pos hdv0, getD_mapIdx _ _ _ (by rw [hI.hbs]; omega)]
        show (if 1 ≤ e ∧ e ≤ dv then s.bin_starts.getD e 0 + 1 else s.bin_starts.getD e 0)
          = s.bin_starts.getD e 0
        rw [if_neg hcond]
      · rw [if_neg hdv0]
  · intro x hx
    show (upd s.degrees v 0) x ≤ ldo_maxdeg g0 comp
    by_cases hxv : x = v
    · rw [hxv, upd_same]
      exact Nat.zero_le _
    · rw [upd_other _ _ _ _ hxv]
      exact hI.hdeg x hx
  · intro p hpk
    show (upd s.degrees v 0) (s.bins.getD p 0) = 0
    rw [hf p (by omega)]
    by_cases hpk2 : p = k
    · rw [if_pos hpk2]
    · rw [if_neg hpk2]
      exact hI.hzero p (by omega)
  · exact hI.hsub
  · intro u hu hloc_u
    have hloc_u2 : k + 1 ≤ s.location u := hloc_u
    have huv : u ≠ v := by
      intro hh
      rw [hh, hvloc] at hloc_u2
      omega
    show ldo_out_count comp s (k + 1) u +
        (if u ∈ in_neighbors_w s.graph v 1 then 1 else 0) ≤ (upd s.degrees v 0) u
    rw [upd_other _ _ _ _ huv]
    have hsplit : ldo_out_count comp s k u = ldo_out_count comp s (k + 1) u +
        (comp.filter (fun x => decide ((u, x, 1) ∈ s.graph.arcs ∧ x = v))).length := by
      unfold ldo_out_count
      refine length_filter_split comp _ _ _ ?_ ?_
      · intro x hx
        by_cases harc : (u, x, 1) ∈ s.graph.arcs
        · by_cases hxv : x = v
          · have h1 : k ≤ s.location v := by rw [hvloc]
            have harc2 : (u, v, 1) ∈ s.graph.arcs := hxv ▸ harc
            simp [hxv, harc2, h1]
          · by_cases hge : k + 1 ≤ s.location x
            · have h1 : k ≤ s.location x := by omega
              simp [harc, hxv, hge, h1]
            · have h1 : ¬ (k ≤ s.location x) := by
                intro hh
                have hxk : s.location x = k := by omega
                apply hxv
                have h2 := (hI.hloc x hx).2
                rw [hxk] at h2
                rw [← h2, hv_def]
              simp [harc, hxv, hge, h1]
        · simp [harc]
      · intro x hx
        rintro ⟨h1, h2⟩
        rw [decide_eq_true_eq] at h1 h2
        obtain ⟨_, hge⟩ := h1
        obtain ⟨_, hxv⟩ := h2
        rw [hxv, hvloc] at hge
        omega
    have hqcount : (comp.filter
        (fun x => decide ((u, x, 1) ∈ s.graph.arcs ∧ x = v))).length =
        if (u, v, 1) ∈ s.graph.arcs then 1 else 0 :=
      length_filter_eq_cond comp hcompnd v hvcomp (fun x => (u, x, 1) ∈ s.graph.arcs)
    have hind : (if u ∈ in_neighbors_w s.graph v 1 then 1 else 0) =
        (if (u, v, 1) ∈ s.graph.arcs then 1 else 0) := by
      by_cases harc : (u, v, 1) ∈ s.graph.arcs
      · rw [if_pos harc, if_pos ((in_neighbors_w_mem s.graph v 1 u).mpr harc)]
      · rw [if_neg harc, if_neg (fun hh => harc ((in_neighbors_w_mem s.graph v 1 u).mp hh))]
    have hbase := hI.hcount u hu (by omega)
    omega
  · exact hk
  · exact hv_def.symm
  · exact hvloc
  · exact in_neighbors_w_nodup s.graph v 1 (hI.hsub.nodup hand)
  · intro x hxx
    exact hI.hsub.subset ((in_neighbors_w_mem s.graph v 1 x).mp hxx)

theorem ldo_mid_fold (g0 : Graph) (comp : List Nat) (hpre : ldo_precondition g0 comp)
    (k v : Nat) : ∀ (l : List Nat) (s : LdoState), LdoMid g0 comp k v l s →
    LdoMid g0 comp k v [] (l.foldl (ldo_nbr_step v) s) := by
  intro l
  induction l with
  | nil =>
      intro s hM
      simpa using hM
  | cons u l ih =>
      intro s hM
      simp only [List.foldl_cons]
      exact ih _ (ldo_nbr_step_mid g0 comp hpre k v u l s hM)

theorem ldo_mid_fold_take (g0 : Graph) (comp : List Nat)
    (hpre : ldo_precondition g0 comp) (k v : Nat) :
    ∀ (l : List Nat) (j : Nat) (s : LdoState), LdoMid g0 comp k v l s →
    LdoMid g0 comp k v (l.drop j) ((l.take j).foldl (ldo_nbr_step v) s) := by
  intro l
  induction l with
  | nil =>
      intro j s hM
      simpa using hM
  | cons u l ih =>
      intro j s hM
      cases j with
      | zero => simpa using hM
      | succ j =>
          simp only [List.take_succ_cons, List.drop_succ_cons, List.foldl_cons]
          exact ih j _ (ldo_nbr_step_mid g0 comp hpre k v u l s hM)

theorem ldo_mid_nil_inv (g0 : Graph) (comp : List Nat) (k v : Nat) (s : LdoState)
    (hM : LdoMid g0 comp k v [] s) : LdoInv g0 comp (k + 1) s := by
  constructor
  · exact hM.hbins
  · exact hM.hbs
  · exact hM.hloc
  · exact hM.hpos
  · exact hM.hsort
  · exact hM.hstart
  · exact hM.hdeg
  · intro p hp
    exact hM.hzero p (by omega)
  · exact hM.hsub
  · intro u hu hge
    have h2 := hM.hcount u hu hge
    rw [if_neg (List.not_mem_nil u)] at h2
    omega

theorem ldo_run_inv (g : Graph) (comp : List Nat) (hpre : ldo_precondition g comp) :
    ∀ k, k ≤ comp.length → LdoInv g comp k (ldo_run g comp k) := by
  intro k
  induction k with
  | zero =>
      intro _
      exact ldo_setup_inv g comp hpre
  | succ k ih =>
      intro hk1
      have hk : k < comp.length := by omega
      have hI := ih (by omega)
      have hrun : ldo_run g comp (k + 1) = ldo_extract (ldo_run g comp k) k := by
        unfold ldo_run
        rw [List.range_succ, List.foldl_append]
        simp
      rw [hrun]
      have hextract : ldo_extract (ldo_run g comp k) k =
          ((in_neighbors_w (ldo_extract_pre (ldo_run g comp k) k).graph
            ((ldo_run g comp k).bins.getD k 0) 1).foldl
            (ldo_nbr_step ((ldo_run g comp k).bins.getD k 0))
            (ldo_extract_pre (ldo_run g comp k) k)) := by
        simp only [ldo_extract]
      rw [hextract]
      have hgr_pre : (ldo_extract_pre (ldo_run g comp k) k).graph =
          (ldo_run g comp k).graph := rfl
      rw [hgr_pre]
      have hmid := ldo_extract_pre_mid g comp hpre k
        ((ldo_run g comp k).bins.getD k 0)
        ((ldo_run g comp k).degrees ((ldo_run g comp k).bins.getD k 0))
        (ldo_run g comp k) hI hk rfl rfl
      exact ldo_mid_nil_inv g comp k _ _ (ldo_mid_fold g comp hpre k _ _ _ hmid)

theorem ldo_mid_inv (g : Graph) (comp : List Nat) (hpre : ldo_precondition g comp)
    (k : Nat) (hk : k < comp.length) (j : Nat) :
    LdoMid g comp k ((ldo_run g comp k).bins.getD k 0)
      ((in_neighbors_w (ldo_run g comp k).graph
        ((ldo_run g comp k).bins.getD k 0) 1).drop j)
      (ldo_mid g comp k j) := by
  have hI := ldo_run_inv g comp hpre k (by omega)
  have hmid := ldo_extract_pre_mid g comp hpre k
    ((ldo_run g comp k).bins.getD k 0)
    ((ldo_run g comp k).degrees ((ldo_run g comp k).bins.getD k 0))
    (ldo_run g comp k) hI hk rfl rfl
  have hunf : ldo_mid g comp k j =
      ((in_neighbors_w (ldo_extract_pre (ldo_run g comp k) k).graph
        ((ldo_run g comp k).bins.getD k 0) 1).take j).foldl
        (ldo_nbr_step ((ldo_run g comp k).bins.getD k 0))
        (ldo_extract_pre (ldo_run g comp k) k) := by
    simp only [ldo_mid]
  rw [hunf]
  have hgr : (ldo_extract_pre (ldo_run g comp k) k).graph =
      (ldo_run g comp k).graph := rfl
  rw [hgr]
  exact ldo_mid_fold_take g comp hpre k _ _ j _ hmid

/-- C6: throughout `low_degree_orientation` — after `ldo_setup` (`k = 0`), at
every main-loop boundary (`ldo_run`, one state per extraction), and across
every single degree decrement / vertex removal inside an iteration
(`ldo_mid`, one state per handled in-neighbour) — `location[v]` points to the
slot of the bucket array holding `v` (and conversely), and the bucket array
is grouped by residual degree in non-decreasing order. -/
theorem low_degree_orientation_bucket_invariant (g : Graph) (comp : List Nat)
    (h : ldo_precondition g comp) :
    (∀ k, k ≤ comp.length → bucket_invariant comp (ldo_run g comp k)) ∧
    (∀ k j, k < comp.length → bucket_invariant comp (ldo_mid g comp k j)) := by
  constructor
  · intro k hk
    have hI := ldo_run_inv g comp h k hk
    exact ⟨hI.hloc, hI.hpos, hI.hsort⟩
  · intro k j hk
    have hM := ldo_mid_inv g comp h k hk j
    exact ⟨hM.hloc, hM.hpos, hM.hsort⟩

/-! ### Connectivity of the domination graph (claim C3) -/

theorem lunion_mem_left (a b : List Nat) (y : Nat) (h : y ∈ a) : y ∈ lunion a b := by
  unfold lunion
  exact List.mem_append_left _ h

theorem lunion_mem_right (a b : List Nat) (y : Nat) (h : y ∈ b) : y ∈ lunion a b := by
  unfold lunion
  by_cases ha : y ∈ a
  · exact List.mem_append_left _ ha
  · refine List.mem_append_right _ ?_
    rw [List.mem_filter]
    exact ⟨h, by simpa using ha⟩

theorem lunion_mem_elim (a b : List Nat) (y : Nat) (h : y ∈ lunion a b) :
    y ∈ a ∨ y ∈ b := by
  unfold lunion at h
  rcases List.mem_append.mp h with h2 | h2
  · exact Or.inl h2
  · exact Or.inr (List.mem_filter.mp h2).1

theorem lsdiff_nil (a : List Nat) : lsdiff a [] = a := by
  unfold lsdiff
  simp

theorem lsdiff_mem (a b : List Nat) (y : Nat) :
    y ∈ lsdiff a b ↔ y ∈ a ∧ y ∉ b := by
  unfold lsdiff
  rw [List.mem_filter]
  simp

theorem headD_mem (l : List Nat) (d : Nat) (h : l ≠ []) : l.headD d ∈ l := by
  cases l with
  | nil => exact absurd rfl h
  | cons a t => exact List.mem_cons_self _ _

theorem sort_by_key_mem (key : Nat → Nat) (l : List Nat) (x : Nat) :
    x ∈ sort_by_key key l ↔ x ∈ l :=
  (sort_by_key_perm key l).mem_iff

theorem pairs_of_mem2 {α : Type} : ∀ (l : List α) (a b : α), a ∈ l → b ∈ l →
    a ≠ b → (a, b) ∈ pairs_of l ∨ (b, a) ∈ pairs_of l := by
  intro l
  induction l with
  | nil => intro a b ha; cases ha
  | cons c t ih =>
      intro a b ha hb hne
      rcases List.mem_cons.mp ha with hac | hat
      · have hbt : b ∈ t := by
          rcases List.mem_cons.mp hb with hbc | hbt
          · exact absurd (hac.trans hbc.symm) hne
          · exact hbt
        left
        unfold pairs_of
        refine List.mem_append_left _ ?_
        rw [List.mem_map]
        exact ⟨b, hbt, by rw [hac]⟩
      · rcases List.mem_cons.mp hb with hbc | hbt
        · right
          unfold pairs_of
          refine List.mem_append_left _ ?_
          rw [List.mem_map]
          exact ⟨a, hat, by rw [hbc]⟩
        · rcases ih a b hat hbt hne with h | h
          · left
            unfold pairs_of
            exact List.mem_append_right _ h
          · right
            unfold pairs_of
            exact List.mem_append_right _ h

theorem dedup_length_one (l : List Nat) (h : l.dedup.length = 1) :
    ∀ a ∈ l, ∀ b ∈ l, a = b := by
  obtain ⟨c, hc⟩ := List.length_eq_one.mp h
  intro a ha b hb
  have h1 : a ∈ l.dedup := List.mem_dedup.mpr ha
  have h2 : b ∈ l.dedup := List.mem_dedup.mpr hb
  rw [hc] at h1 h2
  simp at h1 h2
  rw [h1, h2]

theorem add_arc_mono (g : Graph) (u v w : Nat) : g.arcs ⊆ (add_arc g u v w).arcs := by
  unfold add_arc
  split
  · exact fun a ha => ha
  · exact fun a ha => List.mem_append_left _ ha

theorem add_arc_mem_self (g : Graph) (u v w : Nat) : (u, v, w) ∈ (add_arc g u v w).arcs := by
  unfold add_arc
  split
  · assumption
  · exact List.mem_append_right _ (List.mem_cons_self _ _)

theorem add_arc_nodes (g : Graph) (u v w : Nat) : (add_arc g u v w).nodes = g.nodes := by
  unfold add_arc
  split <;> rfl

theorem foldl_graph_mono {α : Type} (f : Graph → α → Graph)
    (hf : ∀ h a, h.arcs ⊆ (f h a).arcs) :
    ∀ (l : List α) (h : Graph), h.arcs ⊆ (l.foldl f h).arcs := by
  intro l
  induction l with
  | nil => intro h x hx; exact hx
  | cons b t ih =>
      intro h x hx
      simp only [List.foldl_cons]
      exact ih _ (hf h b hx)

theorem foldl_graph_mem {α : Type} (f : Graph → α → Graph)
    (hf : ∀ h a, h.arcs ⊆ (f h a).arcs) :
    ∀ (l : List α) (h : Graph) (a : α), a ∈ l →
    ∀ x, (∀ h0, x ∈ (f h0 a).arcs) → x ∈ (l.foldl f h).arcs := by
  intro l
  induction l with
  | nil => intro h a ha; cases ha
  | cons b t ih =>
      intro h a ha x hx
      simp only [List.foldl_cons]
      rcases List.mem_cons.mp ha with hab | hat
      · subst hab
        exact foldl_graph_mono f hf t _ (hx h)
      · exact ih _ a hat x hx

theorem adjU_symm (g : Graph) (x y : Nat) (h : adjU g x y) : adjU g y x := by
  obtain ⟨a, ha, hc⟩ := h
  exact ⟨a, ha, hc.symm⟩

theorem adjU_of_mem_left (g : Graph) (x y w : Nat) (h : (x, y, w) ∈ g.arcs) :
    adjU g x y := ⟨(x, y, w), h, Or.inl ⟨rfl, rfl⟩⟩

theorem adjU_of_mem_right (g : Graph) (x y w : Nat) (h : (y, x, w) ∈ g.arcs) :
    adjU g x y := ⟨(y, x, w), h, Or.inr ⟨rfl, rfl⟩⟩

theorem adjU_mono (g g2 : Graph) (hsub : g.arcs ⊆ g2.arcs) (x y : Nat)
    (h : adjU g x y) : adjU g2 x y := by
  obtain ⟨a, ha, hc⟩ := h
  exact ⟨a, hsub ha, hc⟩

theorem reachable_mono (g g2 : Graph) (hsub : g.arcs ⊆ g2.arcs) (x y : Nat)
    (h : Relation.ReflTransGen (adjU g) x y) :
    Relation.ReflTransGen (adjU g2) x y :=
  Relation.ReflTransGen.mono (fun a b hab => adjU_mono g g2 hsub a b hab) h

theorem reachable_symm (g : Graph) (x y : Nat)
    (h : Relation.ReflTransGen (adjU g) x y) :
    Relation.ReflTransGen (adjU g) y x :=
  Relation.ReflTransGen.symmetric (fun a b hab => adjU_symm g a b hab) h

theorem ci_fold_le_acc (lab : Nat → Nat) (v : Nat) :
    ∀ (l : List (Nat × Nat × Nat)) (acc : Nat),
    l.foldl (fun m a => if a.1 = v then min m (lab a.2.1)
      else if a.2.1 = v then min m (lab a.1) else m) acc ≤ acc := by
  intro l
  induction l with
  | nil => intro acc; exact le_refl acc
  | cons a t ih =>
      intro acc
      simp only [List.foldl_cons]
      refine le_trans (ih _) ?_
      split
      · exact min_le_left _ _
      · split
        · exact min_le_left _ _
        · exact le_refl _

theorem ci_fold_le_out (lab : Nat → Nat) (v : Nat) :
    ∀ (l : List (Nat × Nat × Nat)) (acc : Nat) (a : Nat × Nat × Nat), a ∈ l →
    a.1 = v →
    l.foldl (fun m a => if a.1 = v then min m (lab a.2.1)
      else if a.2.1 = v then min m (lab a.1) else m) acc ≤ lab a.2.1 := by
  intro l
  induction l with
  | nil => intro acc a ha; cases ha
  | cons b t ih =>
      intro acc a ha h1
      simp only [List.foldl_cons]
      rcases List.mem_cons.mp ha with hab | hat
      · subst hab
        rw [if_pos h1]
        exact le_trans (ci_fold_le_acc lab v t _) (min_le_right _ _)
      · exact ih _ a hat h1

theorem ci_fold_le_in (lab : Nat → Nat) (v : Nat) :
    ∀ (l : List (Nat × Nat × Nat)) (acc : Nat) (a : Nat × Nat × Nat), a ∈ l →
    a.2.1 = v →
    l.foldl (fun m a => if a.1 = v then min m (lab a.2.1)
      else if a.2.1 = v then min m (lab a.1) else m) acc ≤ lab a.1 := by
  intro l
  induction l with
  | nil => intro acc a ha; cases ha
  | cons b t ih =>
      intro acc a ha h2
      simp only [List.foldl_cons]
      rcases List.mem_cons.mp ha with hab | hat
      · subst hab
        by_cases h1 : a.1 = v
        · rw [if_pos h1]
          have hl : lab a.2.1 = lab a.1 := by rw [h2, h1]
          rw [← hl]
          exact le_trans (ci_fold_le_acc lab v t _) (min_le_right _ _)
        · rw [if_neg h1, if_pos h2]
          exact le_trans (ci_fold_le_acc lab v t _) (min_le_right _ _)
      · exact ih _ a hat h2

theorem ci_fold_cases (lab : Nat → Nat) (v : Nat) :
    ∀ (l : List (Nat × Nat × Nat)) (acc : Nat),
    l.foldl (fun m a => if a.1 = v then min m (lab a.2.1)
      else if a.2.1 = v then min m (lab a.1) else m) acc = acc ∨
    ∃ a ∈ l,
      l.foldl (fun m a => if a.1 = v then min m (lab a.2.1)
        else if a.2.1 = v then min m (lab a.1) else m) acc = lab a.2.1 ∧ a.1 = v ∨
      l.foldl (fun m a => if a.1 = v then min m (lab a.2.1)
        else if a.2.1 = v then min m (lab a.1) else m) acc = lab a.1 ∧ a.2.1 = v := by
  intro l
  induction l with
  | nil => intro acc; exact Or.inl rfl
  | cons b t ih =>
      intro acc
      simp only [List.foldl_cons]
      rcases ih (if b.1 = v then min acc (lab b.2.1)
          else if b.2.1 = v then min acc (lab b.1) else acc) with heq | ⟨a, hat, hcase⟩
      · rw [heq]
        by_cases h1 : b.1 = v
        · rw [if_pos h1]
          rcases le_total acc (lab b.2.1) with hle | hle
          · rw [min_eq_left hle]
            exact Or.inl rfl
          · rw [min_eq_right hle]
            refine Or.inr ⟨b, List.mem_cons_self _ _, ?_⟩
            left
            exact ⟨rfl, h1⟩
        · rw [if_neg h1]
          by_cases h2 : b.2.1 = v
          · rw [if_pos h2]
            rcases le_total acc (lab b.1) with hle | hle
            · rw [min_eq_left hle]
              exact Or.inl rfl
            · rw [min_eq_right hle]
              refine Or.inr ⟨b, List.mem_cons_self _ _, ?_⟩
              right
              exact ⟨rfl, h2⟩
          · rw [if_neg h2]
            exact Or.inl rfl
      · exact Or.inr ⟨a, List.mem_cons_of_mem _ hat, hcase⟩

theorem ci_round_le_self (g : Graph) (lab : Nat → Nat) (v : Nat) :
    ci_round g lab v ≤ lab v := by
  unfold ci_round
  split
  · exact ci_fold_le_acc lab v g.arcs (lab v)
  · exact le_refl _

theorem ci_round_le_adj (g : Graph) (lab : Nat → Nat) (v m : Nat)
    (hv : v ∈ g.nodes) (hadj : adjU g v m) : ci_round g lab v ≤ lab m := by
  unfold ci_round
  rw [if_pos hv]
  obtain ⟨a, ha, hc⟩ := hadj
  rcases hc with ⟨h1, h2⟩ | ⟨h1, h2⟩
  · rw [← h2]
    exact ci_fold_le_out lab v g.arcs (lab v) a ha h1
  · rw [← h1]
    exact ci_fold_le_in lab v g.arcs (lab v) a ha h2

theorem ci_round_cases (g : Graph) (lab : Nat → Nat) (v : Nat) :
    ci_round g lab v = lab v ∨
    (v ∈ g.nodes ∧ ∃ m, adjU g v m ∧ ci_round g lab v = lab m) := by
  by_cases hv : v ∈ g.nodes
  · have hunf : ci_round g lab v = g.arcs.foldl (fun m a =>
        if a.1 = v then min m (lab a.2.1)
        else if a.2.1 = v then min m (lab a.1) else m) (lab v) := by
      unfold ci_round
      rw [if_pos hv]
    rcases ci_fold_cases lab v g.arcs (lab v) with heq | ⟨a, hat, hcase⟩
    · left
      rw [hunf, heq]
    · rcases hcase with ⟨heq, h1⟩ | ⟨heq, h2⟩
      · right
        refine ⟨hv, a.2.1, adjU_of_mem_left g v a.2.1 a.2.2 ?_, by rw [hunf, heq]⟩
        have : a = (v, a.2.1, a.2.2) := by
          rcases a with ⟨x, y, z⟩
          simp only at h1
          rw [h1]
        rw [← this]
        exact hat
      · right
        refine ⟨hv, a.1, adjU_of_mem_right g v a.1 a.2.2 ?_, by rw [hunf, heq]⟩
        have : a = (a.1, v, a.2.2) := by
          rcases a with ⟨x, y, z⟩
          simp only at h2
          rw [h2]
        rw [← this]
        exact hat
  · left
    unfold ci_round
    rw [if_neg hv]

theorem ci_walk_succ (g : Graph) : ∀ (k : Nat) (v u : Nat), ci_walk g k v u →
    ci_walk g (k + 1) v u := by
  intro k
  induction k with
  | zero =>
      intro v u h
      exact Or.inl h
  | succ k ih =>
      intro v u h
      rcases h with h | ⟨hv, m, hadj, hw⟩
      · exact Or.inl h
      · exact Or.inr ⟨hv, m, hadj, ih m u hw⟩

theorem ci_iter_le_id (g : Graph) : ∀ (k v : Nat), ((ci_round g)^[k] id) v ≤ v := by
  intro k
  induction k with
  | zero => intro v; exact le_refl v
  | succ k ih =>
      intro v
      rw [Function.iterate_succ_apply']
      exact le_trans (ci_round_le_self g _ v) (ih v)

theorem ci_iter_walk_le (g : Graph) : ∀ (k v u : Nat), ci_walk g k v u →
    ((ci_round g)^[k] id) v ≤ u := by
  intro k
  induction k with
  | zero =>
      intro v u h
      exact le_of_eq h
  | succ k ih =>
      intro v u h
      rw [Function.iterate_succ_apply']
      rcases h with h | ⟨hv, m, hadj, hw⟩
      · subst h
        exact le_trans (ci_round_le_self g _ v) (ci_iter_le_id g k v)
      · exact le_trans (ci_round_le_adj g _ v m hv hadj) (ih m u hw)

theorem ci_iter_walk_ex (g : Graph) : ∀ (k v : Nat), ∃ u, ci_walk g k v u ∧
    ((ci_round g)^[k] id) v = u := by
  intro k
  induction k with
  | zero => intro v; exact ⟨v, rfl, rfl⟩
  | succ k ih =>
      intro v
      rw [Function.iterate_succ_apply']
      rcases ci_round_cases g ((ci_round g)^[k] id) v with heq | ⟨hv, m, hadj, heq⟩
      · obtain ⟨u, hw, he⟩ := ih v
        exact ⟨u, ci_walk_succ g k v u hw, heq.trans he⟩
      · obtain ⟨u, hw, he⟩ := ih m
        exact ⟨u, Or.inr ⟨hv, m, hadj, hw⟩, heq.trans he⟩

theorem ci_walk_reachable (g : Graph) : ∀ (k v u : Nat), ci_walk g k v u →
    Relation.ReflTransGen (adjU g) v u := by
  intro k
  induction k with
  | zero =>
      intro v u h
      rw [h]
  | succ k ih =>
      intro v u h
      rcases h with h | ⟨_, m, hadj, hw⟩
      · rw [h]
      · exact Relation.ReflTransGen.head hadj (ih m u hw)

/-- Soundness of the modelled `component_index`: equal labels only arise from
genuinely connected vertices. -/
theorem component_index_reachable (g : Graph) (x y : Nat)
    (h : component_index g x = component_index g y) :
    Relation.ReflTransGen (adjU g) x y := by
  unfold component_index at h
  obtain ⟨u1, hw1, he1⟩ := ci_iter_walk_ex g g.nodes.length x
  obtain ⟨u2, hw2, he2⟩ := ci_iter_walk_ex g g.nodes.length y
  have hu : u1 = u2 := by rw [← he1, ← he2, h]
  refine (ci_walk_reachable g _ x u1 hw1).trans ?_
  rw [hu]
  exact reachable_symm g y u2 (ci_walk_reachable g _ y u2 hw2)

theorem foldl_dar_mono {α : Type}
    (step : (Nat → Nat → List Nat) → α → (Nat → Nat → List Nat))
    (hstep : ∀ d a x r y, y ∈ d x r → y ∈ step d a x r) :
    ∀ (l : List α) (d : Nat → Nat → List Nat) (x r y : Nat), y ∈ d x r →
    y ∈ (l.foldl step d) x r := by
  intro l
  induction l with
  | nil => intro d x r y h; exact h
  | cons b t ih =>
      intro d x r y h
      simp only [List.foldl_cons]
      exact ih _ x r y (hstep d b x r y h)

theorem foldl_dar_mem {α : Type}
    (step : (Nat → Nat → List Nat) → α → (Nat → Nat → List Nat))
    (hstep : ∀ d a x r y, y ∈ d x r → y ∈ step d a x r) :
    ∀ (l : List α) (a : α), a ∈ l → ∀ (d : Nat → Nat → List Nat) (u0 r0 v r y : Nat),
    y ∈ d u0 r0 → (∀ d2, y ∈ d2 u0 r0 → y ∈ step d2 a v r) →
    y ∈ (l.foldl step d) v r := by
  intro l
  induction l with
  | nil => intro a ha; cases ha
  | cons b t ih =>
      intro a ha d u0 r0 v r y hseed hins
      simp only [List.foldl_cons]
      rcases List.mem_cons.mp ha with hab | hat
      · subst hab
        exact foldl_dar_mono step hstep t _ v r y (hins d hseed)
      · exact ih a hat _ u0 r0 v r y (hstep d b u0 r0 y hseed) hins

theorem foldl_dar_pres {α : Type} (P : (Nat → Nat → List Nat) → Prop)
    (step : (Nat → Nat → List Nat) → α → (Nat → Nat → List Nat)) :
    ∀ (l : List α), (∀ d a, a ∈ l → P d → P (step d a)) →
    ∀ d, P d → P (l.foldl step d) := by
  intro l
  induction l with
  | nil => intro _ d h; exact h
  | cons b t ih =>
      intro hstep d h
      simp only [List.foldl_cons]
      exact ih (fun d2 a ha h2 => hstep d2 a (List.mem_cons_of_mem _ ha) h2) _
        (hstep d b (List.mem_cons_self _ _) h)

theorem atd_pull_fold_mono (g : Graph) (radius vv : Nat) :
    ∀ (d2 : Nat → Nat → List Nat) (p : Nat × Nat) (x r y : Nat), y ∈ d2 x r →
    y ∈ ((List.range (radius + 1)).foldl (fun d3 r2 =>
      if p.2 + r2 ≤ radius then
        fun x2 r3 => if x2 = vv ∧ r3 = p.2 + r2
          then lunion (d3 x2 r3) (d3 p.1 r2) else d3 x2 r3
      else d3) d2) x r := by
  intro d2 p x r y h
  refine foldl_dar_mono _ ?_ _ _ x r y h
  intro d3 r2 x2 r3 y2 h2
  split
  · dsimp only
    split
    · exact lunion_mem_left _ _ _ h2
    · exact h2
  · exact h2

theorem atd_push_fold_mono (g : Graph) (radius vv : Nat) :
    ∀ (d2 : Nat → Nat → List Nat) (p : Nat × Nat) (x r y : Nat), y ∈ d2 x r →
    y ∈ ((List.range (radius + 1)).foldl (fun d3 r2 =>
      if p.2 + r2 ≤ radius then
        fun x2 r3 => if x2 = p.1 ∧ r3 = p.2 + r2
          then lunion (d3 x2 r3) (d3 vv r2) else d3 x2 r3
      else d3) d2) x r := by
  intro d2 p x r y h
  refine foldl_dar_mono _ ?_ _ _ x r y h
  intro d3 r2 x2 r3 y2 h2
  split
  · dsimp only
    split
    · exact lunion_mem_left _ _ _ h2
    · exact h2
  · exact h2

theorem atd_step_mono (g : Graph) (radius vv : Nat) :
    ∀ (d : Nat → Nat → List Nat) (x r y : Nat), y ∈ d x r →
    y ∈ atd_vertex_step g radius d vv x r := by
  intro d x r y h
  simp only [atd_vertex_step]
  refine foldl_dar_mono _
    (fun d2 p x2 r3 y2 h2 => atd_push_fold_mono g radius vv d2 p x2 r3 y2 h2) _ _ x r y ?_
  exact foldl_dar_mono _
    (fun d2 p x2 r3 y2 h2 => atd_pull_fold_mono g radius vv d2 p x2 r3 y2 h2) _ _ x r y h

theorem atd_step_insert_pull (g : Graph) (radius : Nat) (hrad : 1 ≤ radius)
    (u vv : Nat) (harc : (u, vv, 1) ∈ g.arcs) :
    ∀ d, u ∈ d u 0 → u ∈ atd_vertex_step g radius d vv vv 1 := by
  intro d hd
  simp only [atd_vertex_step]
  refine foldl_dar_mono _
    (fun d2 p x2 r3 y2 h2 => atd_push_fold_mono g radius vv d2 p x2 r3 y2 h2) _ _ vv 1 u ?_
  refine foldl_dar_mem _
    (fun d2 p x2 r3 y2 h2 => atd_pull_fold_mono g radius vv d2 p x2 r3 y2 h2)
    (in_neighbors g vv) (u, 1) ?_ d u 0 vv 1 u hd ?_
  · exact (in_neighbors_mem g vv u 1).mpr harc
  · intro d2 hd2
    refine foldl_dar_mem _ ?_ (List.range (radius + 1)) 0 ?_ d2 u 0 vv 1 u hd2 ?_
    · intro d3 r2 x2 r3 y2 h2
      split
      · dsimp only
        split
        · exact lunion_mem_left _ _ _ h2
        · exact h2
      · exact h2
    · rw [List.mem_range]
      omega
    · intro d3 hd3
      show u ∈ (if (1 : Nat) + 0 ≤ radius then
          (fun x2 r3 => if x2 = vv ∧ r3 = 1 + 0
            then lunion (d3 x2 r3) (d3 u 0) else d3 x2 r3) else d3) vv 1
      rw [if_pos (by omega)]
      rw [if_pos ⟨rfl, rfl⟩]
      exact lunion_mem_right _ _ _ hd3

theorem atd_step_insert_push (g : Graph) (radius : Nat) (hrad : 1 ≤ radius)
    (u target : Nat) (harc : (target, u, 1) ∈ g.arcs) :
    ∀ d, u ∈ d u 0 → u ∈ atd_vertex_step g radius d u target 1 := by
  intro d hd
  simp only [atd_vertex_step]
  refine foldl_dar_mem _
    (fun d2 p x2 r3 y2 h2 => atd_push_fold_mono g radius u d2 p x2 r3 y2 h2)
    (in_neighbors g u) (target, 1) ?_ _ u 0 target 1 u
    (foldl_dar_mono _
      (fun d2 p x2 r3 y2 h2 => atd_pull_fold_mono g radius u d2 p x2 r3 y2 h2)
      _ _ u 0 u hd) ?_
  · exact (in_neighbors_mem g u target 1).mpr harc
  · intro d2 hd2
    refine foldl_dar_mem _ ?_ (List.range (radius + 1)) 0 ?_ d2 u 0 target 1 u hd2 ?_
    · intro d3 r2 x2 r3 y2 h2
      split
      · dsimp only
        split
        · exact lunion_mem_left _ _ _ h2
        · exact h2
      · exact h2
    · rw [List.mem_range]
      omega
    · intro d3 hd3
      show u ∈ (if (1 : Nat) + 0 ≤ radius then
          (fun x2 r3 => if x2 = target ∧ r3 = 1 + 0
            then lunion (d3 x2 r3) (d3 u 0) else d3 x2 r3) else d3) target 1
      rw [if_pos (by omega)]
      rw [if_pos ⟨rfl, rfl⟩]
      exact lunion_mem_right _ _ _ hd3

theorem atd_after_insert (g : Graph) (domset nodes : List Nat) (radius : Nat)
    (hrad : 1 ≤ radius) (u w : Nat) (hu_dom : u ∈ domset)
    (hedge : ((u, w, 1) ∈ g.arcs ∧ w ∈ nodes) ∨ ((w, u, 1) ∈ g.arcs ∧ u ∈ nodes)) :
    u ∈ ((List.range 2).foldl
      (fun dar _ => nodes.foldl (atd_vertex_step g radius) dar)
      (fun v r => if r = 0 ∧ v ∈ domset then [v] else [])) w 1 := by
  have hseed : u ∈ (fun (v r : Nat) =>
      if r = 0 ∧ v ∈ domset then [v] else ([] : List Nat)) u 0 := by
    simp [hu_dom]
  refine foldl_dar_mem _
    (fun d a x r y h => foldl_dar_mono _
      (fun d2 vv x2 r2 y2 h2 => atd_step_mono g radius vv d2 x2 r2 y2 h2) _ _ x r y h)
    (List.range 2) 0 ?_ _ u 0 w 1 u hseed ?_
  · rw [List.mem_range]
    omega
  · intro d2 hd2
    rcases hedge with ⟨harc, hw_nodes⟩ | ⟨harc, hu_nodes⟩
    · exact foldl_dar_mem _
        (fun d3 vv x r y h => atd_step_mono g radius vv d3 x r y h)
        nodes w hw_nodes d2 u 0 w 1 u hd2
        (fun d4 hd4 => atd_step_insert_pull g radius hrad u w harc d4 hd4)
    · exact foldl_dar_mem _
        (fun d3 vv x r y h => atd_step_mono g radius vv d3 x r y h)
        nodes u hu_nodes d2 u 0 w 1 u hd2
        (fun d4 hd4 => atd_step_insert_push g radius hrad u w harc d4 hd4)

theorem atd_step_sub (g : Graph) (radius : Nat) (domset : List Nat) (vv : Nat)
    (d : Nat → Nat → List Nat) (hP : ∀ x r y, y ∈ d x r → y ∈ domset) :
    ∀ x r y, y ∈ atd_vertex_step g radius d vv x r → y ∈ domset := by
  simp only [atd_vertex_step]
  have hinner : ∀ (A B E F : Nat),
      ∀ (d3 : Nat → Nat → List Nat), (∀ x r y, y ∈ d3 x r → y ∈ domset) →
      ∀ x r y, y ∈ (if A ≤ radius then
        (fun x2 r3 => if x2 = B ∧ r3 = A then lunion (d3 x2 r3) (d3 E F) else d3 x2 r3)
        else d3) x r → y ∈ domset := by
    intro A B E F d3 h3 x r y hy
    split at hy
    · dsimp only at hy
      split at hy
      · rcases lunion_mem_elim _ _ _ hy with h | h
        · exact h3 _ _ _ h
        · exact h3 _ _ _ h
      · exact h3 _ _ _ hy
    · exact h3 _ _ _ hy
  refine foldl_dar_pres (fun d2 => ∀ x r y, y ∈ d2 x r → y ∈ domset) _ _ ?_ _
    (foldl_dar_pres (fun d2 => ∀ x r y, y ∈ d2 x r → y ∈ domset) _ _ ?_ d hP)
  · intro d2 p _ h2
    exact foldl_dar_pres (fun d3 => ∀ x r y, y ∈ d3 x r → y ∈ domset) _ _
      (fun d3 r2 _ h3 => hinner (p.2 + r2) p.1 vv r2 d3 h3) d2 h2
  · intro d2 p _ h2
    exact foldl_dar_pres (fun d3 => ∀ x r y, y ∈ d3 x r → y ∈ domset) _ _
      (fun d3 r2 _ h3 => hinner (p.2 + r2) vv p.1 r2 d3 h3) d2 h2

theorem atd_after_sub (g : Graph) (domset nodes : List Nat) (radius : Nat) :
    ∀ x r y, y ∈ ((List.range 2).foldl
      (fun dar _ => nodes.foldl (atd_vertex_step g radius) dar)
      (fun v r => if r = 0 ∧ v ∈ domset then [v] else [])) x r → y ∈ domset := by
  refine foldl_dar_pres (fun d2 => ∀ x r y, y ∈ d2 x r → y ∈ domset) _ _ ?_ _ ?_
  · intro d a _ h
    exact foldl_dar_pres (fun d2 => ∀ x r y, y ∈ d2 x r → y ∈ domset) _ _
      (fun d2 vv _ h2 => atd_step_sub g radius domset vv d2 h2) d h
  · intro x r y hy
    dsimp only at hy
    split at hy
    · rename_i hc
      have : y = x := by simpa using hy
      rw [this]
      exact hc.2
    · exact absurd hy (List.not_mem_nil y)

theorem atd_step_zero (g : Graph) (radius : Nat) (vv : Nat) (Z : Nat → List Nat)
    (hw : ∀ a ∈ g.arcs, 1 ≤ a.2.2)
    (d : Nat → Nat → List Nat) (hP : ∀ x, d x 0 = Z x) :
    ∀ x, atd_vertex_step g radius d vv x 0 = Z x := by
  simp only [atd_vertex_step]
  have hinner : ∀ (W B E F : Nat), 1 ≤ W →
      ∀ (d3 : Nat → Nat → List Nat), (∀ x, d3 x 0 = Z x) →
      ∀ x, (if W ≤ radius then
        (fun x2 r3 => if x2 = B ∧ r3 = W then lunion (d3 x2 r3) (d3 E F) else d3 x2 r3)
        else d3) x 0 = Z x := by
    intro W B E F hW d3 h3 x
    split
    · dsimp only
      rw [if_neg (by rintro ⟨-, h2⟩; omega)]
      exact h3 x
    · exact h3 x
  have hWpos : ∀ p : Nat × Nat, p ∈ in_neighbors g vv → ∀ r2 : Nat, 1 ≤ p.2 + r2 := by
    intro p hp r2
    have harc : (p.1, vv, p.2) ∈ g.arcs := (in_neighbors_mem g vv p.1 p.2).mp hp
    have := hw _ harc
    simp only at this
    omega
  refine foldl_dar_pres (fun d2 => ∀ x, d2 x 0 = Z x) _ _ ?_ _
    (foldl_dar_pres (fun d2 => ∀ x, d2 x 0 = Z x) _ _ ?_ d hP)
  · intro d2 p hp h2
    exact foldl_dar_pres (fun d3 => ∀ x, d3 x 0 = Z x) _ _
      (fun d3 r2 _ h3 => hinner (p.2 + r2) p.1 vv r2 (hWpos p hp r2) d3 h3) d2 h2
  · intro d2 p hp h2
    exact foldl_dar_pres (fun d3 => ∀ x, d3 x 0 = Z x) _ _
      (fun d3 r2 _ h3 => hinner (p.2 + r2) vv p.1 r2 (hWpos p hp r2) d3 h3) d2 h2

theorem atd_after_zero (g : Graph) (domset nodes : List Nat) (radius : Nat)
    (hw : ∀ a ∈ g.arcs, 1 ≤ a.2.2) :
    ∀ x, ((List.range 2).foldl
      (fun dar _ => nodes.foldl (atd_vertex_step g radius) dar)
      (fun v r => if r = 0 ∧ v ∈ domset then [v] else [])) x 0 =
      (if x ∈ domset then [x] else []) := by
  refine foldl_dar_pres (fun d2 => ∀ x, d2 x 0 = (if x ∈ domset then [x] else [])) _ _ ?_ _ ?_
  · intro d a _ h
    exact foldl_dar_pres (fun d2 => ∀ x, d2 x 0 = (if x ∈ domset then [x] else [])) _ _
      (fun d2 vv _ h2 => atd_step_zero g radius vv _ hw d2 h2) d h
  · intro x
    simp

theorem lunion_nil_left (b : List Nat) : lunion [] b = b := by
  unfold lunion
  simp

theorem cleanup_rest (darv : Nat → List Nat) :
    ∀ (l : List Nat) (st : (Nat → List Nat) × List Nat), (∀ r ∈ l, 2 ≤ r) →
    ((l.foldl (fun st r =>
        (upd st.1 r (lsdiff (st.1 r) st.2), lunion st.2 (lsdiff (st.1 r) st.2)))
      st).1 0 = st.1 0 ∧
     (l.foldl (fun st r =>
        (upd st.1 r (lsdiff (st.1 r) st.2), lunion st.2 (lsdiff (st.1 r) st.2)))
      st).1 1 = st.1 1) := by
  intro l
  induction l with
  | nil => intro st _; exact ⟨rfl, rfl⟩
  | cons b t ih =>
      intro st hge
      simp only [List.foldl_cons]
      have hb := hge b (List.mem_cons_self _ _)
      obtain ⟨h0, h1⟩ := ih _ (fun r hr => hge r (List.mem_cons_of_mem _ hr))
      refine ⟨?_, ?_⟩
      · rw [h0]
        dsimp only
        rw [upd_other _ _ _ _ (by omega)]
      · rw [h1]
        dsimp only
        rw [upd_other _ _ _ _ (by omega)]

theorem atd_cleanup_at01 (radius : Nat) (hrad : 1 ≤ radius) (darv : Nat → List Nat) :
    atd_cleanup_vertex radius darv 0 = darv 0 ∧
    atd_cleanup_vertex radius darv 1 = lsdiff (darv 1) (darv 0) := by
  obtain ⟨m, hm⟩ : ∃ m, radius = m + 1 := ⟨radius - 1, by omega⟩
  subst hm
  have hrange : List.range (m + 1 + 1) =
      0 :: 1 :: ((List.range m).map Nat.succ).map Nat.succ := by
    rw [List.range_succ_eq_map, List.range_succ_eq_map, List.map_cons]
  have hge : ∀ r ∈ ((List.range m).map Nat.succ).map Nat.succ, 2 ≤ r := by
    intro r hr
    rw [List.mem_map] at hr
    obtain ⟨r2, hr2, hre⟩ := hr
    rw [List.mem_map] at hr2
    obtain ⟨r3, _, hre2⟩ := hr2
    omega
  constructor
  · show ((List.range (m + 1 + 1)).foldl (fun st r =>
        (upd st.1 r (lsdiff (st.1 r) st.2), lunion st.2 (lsdiff (st.1 r) st.2)))
      (darv, [])).1 0 = darv 0
    rw [hrange]
    simp only [List.foldl_cons]
    rw [(cleanup_rest darv _ _ hge).1]
    simp [upd, lsdiff_nil, lunion_nil_left]
  · show ((List.range (m + 1 + 1)).foldl (fun st r =>
        (upd st.1 r (lsdiff (st.1 r) st.2), lunion st.2 (lsdiff (st.1 r) st.2)))
      (darv, [])).1 1 = lsdiff (darv 1) (darv 0)
    rw [hrange]
    simp only [List.foldl_cons]
    rw [(cleanup_rest darv _ _ hge).2]
    simp [upd, lsdiff_nil, lunion_nil_left]

theorem cleanup_fold_sub (darv : Nat → List Nat) :
    ∀ (l : List Nat) (st : (Nat → List Nat) × List Nat),
    (∀ r2 y, y ∈ st.1 r2 → y ∈ darv r2) →
    ∀ r2 y, y ∈ ((l.foldl (fun st r =>
        (upd st.1 r (lsdiff (st.1 r) st.2), lunion st.2 (lsdiff (st.1 r) st.2)))
      st).1) r2 → y ∈ darv r2 := by
  intro l
  induction l with
  | nil => intro st h; exact h
  | cons b t ih =>
      intro st h
      simp only [List.foldl_cons]
      refine ih _ ?_
      intro r2 y hy
      dsimp only at hy
      by_cases hrb : r2 = b
      · rw [hrb, upd_same] at hy
        rw [hrb]
        exact h b y (lsdiff_mem _ _ _ |>.mp hy).1
      · rw [upd_other _ _ _ _ hrb] at hy
        exact h r2 y hy

theorem atd_cleanup_sub (radius : Nat) (darv : Nat → List Nat) (r y : Nat)
    (hy : y ∈ atd_cleanup_vertex radius darv r) : y ∈ darv r := by
  refine cleanup_fold_sub darv (List.range (radius + 1)) (darv, []) ?_ r y hy
  intro r2 y2 h
  exact h

theorem assign_zero (g : Graph) (domset nodes : List Nat) (radius : Nat)
    (hw : ∀ a ∈ g.arcs, 1 ≤ a.2.2) (hrad : 1 ≤ radius) (x : Nat) :
    assign_to_dominators g domset radius nodes x 0 =
      (if x ∈ domset then [x] else []) := by
  show atd_cleanup_vertex radius (((List.range 2).foldl
      (fun dar _ => nodes.foldl (atd_vertex_step g radius) dar)
      (fun v r => if r = 0 ∧ v ∈ domset then [v] else [])) x) 0 = _
  rw [(atd_cleanup_at01 radius hrad _).1]
  exact atd_after_zero g domset nodes radius hw x

theorem assign_one_mem (g : Graph) (domset nodes : List Nat) (radius : Nat)
    (hw : ∀ a ∈ g.arcs, 1 ≤ a.2.2) (hrad : 1 ≤ radius) (u w : Nat)
    (hu_dom : u ∈ domset)
    (hedge : ((u, w, 1) ∈ g.arcs ∧ w ∈ nodes) ∨ ((w, u, 1) ∈ g.arcs ∧ u ∈ nodes))
    (hne : u ≠ w) :
    u ∈ assign_to_dominators g domset radius nodes w 1 := by
  show u ∈ atd_cleanup_vertex radius (((List.range 2).foldl
      (fun dar _ => nodes.foldl (atd_vertex_step g radius) dar)
      (fun v r => if r = 0 ∧ v ∈ domset then [v] else [])) w) 1
  rw [(atd_cleanup_at01 radius hrad _).2, lsdiff_mem]
  refine ⟨atd_after_insert g domset nodes radius hrad u w hu_dom hedge, ?_⟩
  rw [atd_after_zero g domset nodes radius hw w]
  split
  · intro hmem
    exact hne (by simpa using hmem)
  · exact List.not_mem_nil u

theorem closest_head_dom (radius : Nat) (hrad : 1 ≤ radius) (darv : Nat → List Nat)
    (h0 : darv 0 ≠ []) :
    closest_dominators_of radius darv = sort_by_key (fun v => v) (darv 0) := by
  obtain ⟨m, hm⟩ : ∃ m, radius = m + 1 := ⟨radius - 1, by omega⟩
  subst hm
  have hrange : List.range (m + 1 + 1) =
      0 :: 1 :: ((List.range m).map Nat.succ).map Nat.succ := by
    rw [List.range_succ_eq_map, List.range_succ_eq_map, List.map_cons]
  simp [closest_dominators_of, hrange, h0]

theorem closest_head_one (radius : Nat) (hrad : 1 ≤ radius) (darv : Nat → List Nat)
    (h0 : darv 0 = []) (h1 : darv 1 ≠ []) :
    closest_dominators_of radius darv = sort_by_key (fun v => v) (darv 1) := by
  obtain ⟨m, hm⟩ : ∃ m, radius = m + 1 := ⟨radius - 1, by omega⟩
  subst hm
  have hrange : List.range (m + 1 + 1) =
      0 :: 1 :: ((List.range m).map Nat.succ).map Nat.succ := by
    rw [List.range_succ_eq_map, List.range_succ_eq_map, List.map_cons]
  simp [closest_dominators_of, hrange, h0, h1]

theorem closest_of_dominator (g : Graph) (domset nodes : List Nat) (radius : Nat)
    (hw : ∀ a ∈ g.arcs, 1 ≤ a.2.2) (hrad : 1 ≤ radius) (x : Nat) (hx : x ∈ domset) :
    closest_dominators_of radius (assign_to_dominators g domset radius nodes x) = [x] := by
  have h0 : assign_to_dominators g domset radius nodes x 0 = [x] := by
    rw [assign_zero g domset nodes radius hw hrad x, if_pos hx]
  rw [closest_head_dom radius hrad _ (by rw [h0]; simp), h0]
  rfl

theorem closest_mem_adj (g : Graph) (domset nodes : List Nat) (radius : Nat)
    (hw : ∀ a ∈ g.arcs, 1 ≤ a.2.2) (hrad : 1 ≤ radius) (u w : Nat)
    (hu_dom : u ∈ domset) (hw_notdom : w ∉ domset)
    (hedge : ((u, w, 1) ∈ g.arcs ∧ w ∈ nodes) ∨ ((w, u, 1) ∈ g.arcs ∧ u ∈ nodes)) :
    u ∈ closest_dominators_of radius (assign_to_dominators g domset radius nodes w) := by
  have hne : u ≠ w := fun hh => hw_notdom (hh ▸ hu_dom)
  have h1 : u ∈ assign_to_dominators g domset radius nodes w 1 :=
    assign_one_mem g domset nodes radius hw hrad u w hu_dom hedge hne
  have h0 : assign_to_dominators g domset radius nodes w 0 = [] := by
    rw [assign_zero g domset nodes radius hw hrad w, if_neg hw_notdom]
  rw [closest_head_one radius hrad _ h0 (List.ne_nil_of_mem h1), sort_by_key_mem]
  exact h1

theorem closest_sub_domset (g : Graph) (domset nodes : List Nat) (radius : Nat)
    (v y : Nat)
    (hy : y ∈ closest_dominators_of radius (assign_to_dominators g domset radius nodes v)) :
    y ∈ domset := by
  unfold closest_dominators_of at hy
  rw [sort_by_key_mem] at hy
  cases hl : (List.range (radius + 1)).filterMap
      (fun r => if assign_to_dominators g domset radius nodes v r ≠ []
        then some (assign_to_dominators g domset radius nodes v r) else none) with
  | nil =>
      rw [hl] at hy
      exact absurd hy (List.not_mem_nil y)
  | cons l0 rest =>
      rw [hl] at hy
      simp only [List.headD_cons] at hy
      have hl0 : l0 ∈ (List.range (radius + 1)).filterMap
          (fun r => if assign_to_dominators g domset radius nodes v r ≠ []
            then some (assign_to_dominators g domset radius nodes v r) else none) := by
        rw [hl]
        exact List.mem_cons_self _ _
      rw [List.mem_filterMap] at hl0
      obtain ⟨r, _, hfr⟩ := hl0
      split at hfr
      · have hl0eq := Option.some_inj.mp hfr
        rw [← hl0eq] at hy
        have hy2 := atd_cleanup_sub radius _ r y hy
        exact atd_after_sub g domset nodes radius v r y hy2
      · exact absurd hfr (by simp)

theorem domination_graph_eq (g : Graph) (domset : List Nat) (radius : Nat)
    (nodes : List Nat) :
    domination_graph g domset radius nodes =
      (make_connected (dg_pre g domset radius nodes) domset
        (fun v => closest_dominators_of radius
          (assign_to_dominators g domset radius nodes v)) g nodes,
       fun v => closest_dominators_of radius
        (assign_to_dominators g domset radius nodes v)) := rfl

theorem add2_mono (h2 : Graph) (a b w : Nat) :
    h2.arcs ⊆ (add_arc (add_arc h2 a b w) b a w).arcs :=
  fun x hx => add_arc_mono _ _ _ _ (add_arc_mono _ _ _ _ hx)

theorem add2_mem1 (h2 : Graph) (a b w : Nat) :
    (a, b, w) ∈ (add_arc (add_arc h2 a b w) b a w).arcs :=
  add_arc_mono _ _ _ _ (add_arc_mem_self _ _ _ _)

theorem dg_pre_clique (g : Graph) (domset : List Nat) (radius : Nat)
    (nodes : List Nat) (v : Nat) (hv : v ∈ nodes) (x0 y0 : Nat)
    (hx0 : x0 ∈ closest_dominators_of radius (assign_to_dominators g domset radius nodes v))
    (hy0 : y0 ∈ closest_dominators_of radius (assign_to_dominators g domset radius nodes v))
    (hne : x0 ≠ y0) :
    adjU (dg_pre g domset radius nodes) x0 y0 := by
  simp only [dg_pre]
  rcases pairs_of_mem2 _ x0 y0 hx0 hy0 hne with hp | hp
  · refine adjU_of_mem_left _ x0 y0 1 ?_
    refine foldl_graph_mono _ (fun h vd =>
      foldl_graph_mono _ (fun h2 u2 => add2_mono h2 u2 vd 1) _ h) domset _ ?_
    refine foldl_graph_mem _ (fun h a =>
      foldl_graph_mono _ (fun h2 (p : Nat × Nat) => add2_mono h2 p.1 p.2 1) _ h) nodes _ v hv _ ?_
    intro h0
    exact foldl_graph_mem _ (fun h2 p => add2_mono h2 p.1 p.2 1) _ h0 (x0, y0) hp
      (x0, y0, 1) (fun h2 => add2_mem1 h2 x0 y0 1)
  · refine adjU_of_mem_right _ x0 y0 1 ?_
    refine foldl_graph_mono _ (fun h vd =>
      foldl_graph_mono _ (fun h2 u2 => add2_mono h2 u2 vd 1) _ h) domset _ ?_
    refine foldl_graph_mem _ (fun h a =>
      foldl_graph_mono _ (fun h2 (p : Nat × Nat) => add2_mono h2 p.1 p.2 1) _ h) nodes _ v hv _ ?_
    intro h0
    exact foldl_graph_mem _ (fun h2 p => add2_mono h2 p.1 p.2 1) _ h0 (y0, x0) hp
      (y0, x0, 1) (fun h2 => add2_mem1 h2 y0 x0 1)

theorem dg_pre_domadj (g : Graph) (domset : List Nat) (radius : Nat)
    (nodes : List Nat) (v u : Nat) (hv : v ∈ domset)
    (hu : u ∈ assign_to_dominators g domset radius nodes v 1) :
    adjU (dg_pre g domset radius nodes) u v := by
  simp only [dg_pre]
  refine adjU_of_mem_left _ u v 1 ?_
  refine foldl_graph_mem _ (fun h a =>
    foldl_graph_mono _ (fun h2 u2 => add2_mono h2 u2 a 1) _ h) domset _ v hv (u, v, 1) ?_
  intro h0
  refine foldl_graph_mem _ (fun h2 u2 => add2_mono h2 u2 v 1) _ h0 u ?_ (u, v, 1) ?_
  · rw [sort_by_key_mem]
    exact hu
  · intro h2
    exact add2_mem1 h2 u v 1

theorem make_connected_eq_of_one (domgraph : Graph) (domset : List Nat)
    (closest : Nat → List Nat) (g : Graph) (nodes : List Nat)
    (h1 : (domset.map (component_index domgraph)).dedup.length = 1) :
    make_connected domgraph domset closest g nodes = domgraph := by
  simp only [make_connected]
  rw [if_pos h1]

theorem make_connected_mono (domgraph : Graph) (domset : List Nat)
    (closest : Nat → List Nat) (g : Graph) (nodes : List Nat) :
    domgraph.arcs ⊆ (make_connected domgraph domset closest g nodes).arcs := by
  simp only [make_connected]
  split
  · exact fun a ha => ha
  · refine foldl_graph_mono _ ?_ _ _
    intro h u
    split
    · exact fun a ha => ha
    · refine foldl_graph_mono _ ?_ _ _
      intro h2 v
      split
      · refine foldl_graph_mono _ ?_ _ _
        intro h3 x
        exact foldl_graph_mono _ (fun h4 y => add2_mono h4 x y 1) _ _
      · exact fun a ha => ha

theorem make_connected_bridge (domgraph : Graph) (domset : List Nat)
    (closest : Nat → List Nat) (g : Graph) (nodes : List Nat)
    (hnot1 : ¬ (domset.map (component_index domgraph)).dedup.length = 1)
    (u v : Nat) (hu : u ∈ nodes) (hu_nd : u ∉ domset)
    (hv : v ∈ in_neighbors_w g u 1)
    (hndc : component_index domgraph ((closest u).headD 0) ≠
      component_index domgraph ((closest v).headD 0))
    (x0 y0 : Nat) (hx0 : x0 ∈ closest u) (hy0 : y0 ∈ closest v) :
    (x0, y0, 1) ∈ (make_connected domgraph domset closest g nodes).arcs := by
  simp only [make_connected]
  rw [if_neg hnot1]
  refine foldl_graph_mem _ ?_ nodes _ u hu (x0, y0, 1) ?_
  · intro h a
    split
    · exact fun z hz => hz
    · refine foldl_graph_mono _ ?_ _ _
      intro h2 v2
      split
      · refine foldl_graph_mono _ ?_ _ _
        intro h3 x
        exact foldl_graph_mono _ (fun h4 y => add2_mono h4 x y 1) _ _
      · exact fun z hz => hz
  · intro h0
    rw [if_neg hu_nd]
    refine foldl_graph_mem _ ?_ _ _ v hv (x0, y0, 1) ?_
    · intro h2 v2
      split
      · refine foldl_graph_mono _ ?_ _ _
        intro h3 x
        exact foldl_graph_mono _ (fun h4 y => add2_mono h4 x y 1) _ _
      · exact fun z hz => hz
    · intro h2
      rw [if_pos hndc]
      refine foldl_graph_mem _ ?_ _ _ x0 hx0 (x0, y0, 1) ?_
      · intro h3 x
        exact foldl_graph_mono _ (fun h4 y => add2_mono h4 x y 1) _ _
      · intro h3
        exact foldl_graph_mem _ (fun h4 y => add2_mono h4 x0 y 1) _ h3 y0 hy0
          (x0, y0, 1) (fun h4 => add2_mem1 h4 x0 y0 1)

/-- C3: if the graph restricted to the component is connected (through its
weight-1 edges), then any two dominators are joined in the coarse graph
returned by `domination_graph` after `make_connected`'s single bridging
scan.  The hypotheses are the pipeline's invariants: radius at least one,
the dominating set inside the component, positive arc weights, weight-1
arcs closed in the component, and the docstring precondition of
`domination_graph` that the assignment covers every component vertex. -/
theorem domination_graph_connected (g : Graph) (domset nodes : List Nat)
    (radius : Nat)
    (hrad : 1 ≤ radius)
    (hdom : ∀ x ∈ domset, x ∈ nodes)
    (hw : ∀ a ∈ g.arcs, 1 ≤ a.2.2)
    (hclosed : ∀ a ∈ g.arcs, a.2.2 = 1 → a.1 ∈ nodes ∧ a.2.1 ∈ nodes)
    (hcomplete : ∀ u ∈ nodes,
      closest_dominators_of radius (assign_to_dominators g domset radius nodes u) ≠ [])
    (hconn : ∀ x y, x ∈ nodes → y ∈ nodes → Relation.ReflTransGen (adj1 g) x y) :
    ∀ x y, x ∈ domset → y ∈ domset →
    Relation.ReflTransGen (adjU (domination_graph g domset radius nodes).1) x y := by
  intro x y hx hy
  rw [domination_graph_eq]
  show Relation.ReflTransGen (adjU (make_connected (dg_pre g domset radius nodes)
    domset (fun v => closest_dominators_of radius
      (assign_to_dominators g domset radius nodes v)) g nodes)) x y
  by_cases hnum :
      ((domset.map (component_index (dg_pre g domset radius nodes))).dedup.length = 1)
  · rw [make_connected_eq_of_one _ _ _ _ _ hnum]
    have heq : component_index (dg_pre g domset radius nodes) x =
        component_index (dg_pre g domset radius nodes) y :=
      dedup_length_one _ hnum _ (List.mem_map_of_mem _ hx) _ (List.mem_map_of_mem _ hy)
    exact component_index_reachable _ x y heq
  · have hmono : (dg_pre g domset radius nodes).arcs ⊆
        (make_connected (dg_pre g domset radius nodes) domset
          (fun v => closest_dominators_of radius
            (assign_to_dominators g domset radius nodes v)) g nodes).arcs :=
      make_connected_mono _ _ _ _ _
    have hclique : ∀ w ∈ nodes, ∀ a0 ∈ closest_dominators_of radius
        (assign_to_dominators g domset radius nodes w),
        ∀ b0 ∈ closest_dominators_of radius
          (assign_to_dominators g domset radius nodes w),
        Relation.ReflTransGen (adjU (make_connected (dg_pre g domset radius nodes)
          domset (fun v => closest_dominators_of radius
            (assign_to_dominators g domset radius nodes v)) g nodes)) a0 b0 := by
      intro w hwn a0 ha0 b0 hb0
      by_cases hab : a0 = b0
      · rw [hab]
      · exact Relation.ReflTransGen.single (adjU_mono _ _ hmono _ _
          (dg_pre_clique g domset radius nodes w hwn a0 b0 ha0 hb0 hab))
    have hdir : ∀ u u2, u ∈ nodes → u2 ∈ nodes → (u2, u, 1) ∈ g.arcs →
        ∀ x0, x0 ∈ closest_dominators_of radius
          (assign_to_dominators g domset radius nodes u) →
        ∀ y0, y0 ∈ closest_dominators_of radius
          (assign_to_dominators g domset radius nodes u2) →
        Relation.ReflTransGen (adjU (make_connected (dg_pre g domset radius nodes)
          domset (fun v => closest_dominators_of radius
            (assign_to_dominators g domset radius nodes v)) g nodes)) x0 y0 := by
      intro u u2 hun hu2n harc x0 hx0 y0 hy0
      by_cases hu_dom : u ∈ domset
      · have hcu := closest_of_dominator g domset nodes radius hw hrad u hu_dom
        rw [hcu] at hx0
        have hx0u : x0 = u := by simpa using hx0
        subst hx0u
        by_cases hu2_dom : u2 ∈ domset
        · have hcu2 := closest_of_dominator g domset nodes radius hw hrad u2 hu2_dom
          rw [hcu2] at hy0
          have hy0u : y0 = u2 := by simpa using hy0
          subst hy0u
          by_cases hequ : x0 = y0
          · rw [hequ]
          · have hmem := assign_one_mem g domset nodes radius hw hrad x0 y0 hu_dom
              (Or.inr ⟨harc, hun⟩) hequ
            exact Relation.ReflTransGen.single (adjU_mono _ _ hmono _ _
              (dg_pre_domadj g domset radius nodes y0 x0 hu2_dom hmem))
        · have hmem := closest_mem_adj g domset nodes radius hw hrad x0 u2 hu_dom
            hu2_dom (Or.inr ⟨harc, hun⟩)
          exact hclique u2 hu2n x0 hmem y0 hy0
      · by_cases hu2_dom : u2 ∈ domset
        · have hcu2 := closest_of_dominator g domset nodes radius hw hrad u2 hu2_dom
          rw [hcu2] at hy0
          have hy0u : y0 = u2 := by simpa using hy0
          subst hy0u
          have hmem := closest_mem_adj g domset nodes radius hw hrad y0 u hu2_dom
            hu_dom (Or.inl ⟨harc, hun⟩)
          exact hclique u hun x0 hx0 y0 hmem
        · by_cases hndc : component_index (dg_pre g domset radius nodes)
              ((closest_dominators_of radius
                (assign_to_dominators g domset radius nodes u)).headD 0) =
              component_index (dg_pre g domset radius nodes)
              ((closest_dominators_of radius
                (assign_to_dominators g domset radius nodes u2)).headD 0)
          · have hh1 := headD_mem _ 0 (hcomplete u hun)
            have hh2 := headD_mem _ 0 (hcomplete u2 hu2n)
            have hreach := component_index_reachable (dg_pre g domset radius nodes) _ _ hndc
            exact (hclique u hun x0 hx0 _ hh1).trans
              ((reachable_mono _ _ hmono _ _ hreach).trans (hclique u2 hu2n _ hh2 y0 hy0))
          · have harcmem := make_connected_bridge (dg_pre g domset radius nodes) domset
              (fun v => closest_dominators_of radius
                (assign_to_dominators g domset radius nodes v)) g nodes hnum u u2 hun
              hu_dom ((in_neighbors_w_mem g u 1 u2).mpr harc) hndc x0 y0 hx0 hy0
            exact Relation.ReflTransGen.single (adjU_of_mem_left _ x0 y0 1 harcmem)
    have hedge : ∀ u u2, u ∈ nodes → u2 ∈ nodes → adj1 g u u2 →
        ∀ x0, x0 ∈ closest_dominators_of radius
          (assign_to_dominators g domset radius nodes u) →
        ∀ y0, y0 ∈ closest_dominators_of radius
          (assign_to_dominators g domset radius nodes u2) →
        Relation.ReflTransGen (adjU (make_connected (dg_pre g domset radius nodes)
          domset (fun v => closest_dominators_of radius
            (assign_to_dominators g domset radius nodes v)) g nodes)) x0 y0 := by
      intro u u2 hun hu2n hadj x0 hx0 y0 hy0
      rcases hadj with harc | harc
      · exact reachable_symm _ y0 x0 (hdir u2 u hu2n hun harc y0 hy0 x0 hx0)
      · exact hdir u u2 hun hu2n harc x0 hx0 y0 hy0
    have hchain : ∀ z, Relation.ReflTransGen (adj1 g) x z → z ∈ nodes →
        ∀ b, b ∈ closest_dominators_of radius
          (assign_to_dominators g domset radius nodes z) →
        Relation.ReflTransGen (adjU (make_connected (dg_pre g domset radius nodes)
          domset (fun v => closest_dominators_of radius
            (assign_to_dominators g domset radius nodes v)) g nodes)) x b := by
      intro z hz
      induction hz with
      | refl =>
          intro _ b hb
          have hcx := closest_of_dominator g domset nodes radius hw hrad x hx
          rw [hcx] at hb
          have hbx : b = x := by simpa using hb
          rw [hbx]
      | @tail m z2 hxm hadj ih =>
          intro hzn b hb
          have hmn : m ∈ nodes := by
            rcases hadj with harc | harc
            · exact (hclosed _ harc rfl).1
            · exact (hclosed _ harc rfl).2
          have hbm := headD_mem _ 0 (hcomplete m hmn)
          exact (ih hmn _ hbm).trans (hedge m z2 hmn hzn hadj _ hbm b hb)
    have hcy := closest_of_dominator g domset nodes radius hw hrad y hy
    refine hchain y (hconn x y (hdom x hx) (hdom y hy)) (hdom y hy) y ?_
    rw [hcy]
    exact List.mem_cons_self _ _

/-- Witness for C3 on the single-edge graph with both endpoints dominating:
the assignment is complete and the two dominators end up connected. -/
theorem domination_graph_connected_witness :
    (∀ u ∈ [0, 1], closest_dominators_of 1
      (assign_to_dominators edge_graph [0, 1] 1 [0, 1] u) ≠ []) ∧
    Relation.ReflTransGen (adjU (domination_graph edge_graph [0, 1] 1 [0, 1]).1) 0 1 :=
  ⟨by decide,
   domination_graph_connected edge_graph [0, 1] [0, 1] 1 (by decide) (by decide)
     (by decide) (by decide) (by decide)
     (by
       intro x y hx hy
       fin_cases hx <;> fin_cases hy <;>
         first
           | exact Relation.ReflTransGen.refl
           | exact Relation.ReflTransGen.single (by decide))
     0 1 (by decide) (by decide)⟩

/-- Witness for C6 on the 0-1-2 path: the invariant holds at the setup state,
at both loop boundaries, and mid-iteration. -/
theorem low_degree_orientation_bucket_invariant_witness :
    ldo_precondition path3_graph [0, 1, 2] ∧
    bucket_invariant [0, 1, 2] (ldo_run path3_graph [0, 1, 2] 0) ∧
    bucket_invariant [0, 1, 2] (ldo_run path3_graph [0, 1, 2] 2) ∧
    bucket_invariant [0, 1, 2] (ldo_mid path3_graph [0, 1, 2] 1 1) :=
  ⟨by decide,
   (low_degree_orientation_bucket_invariant path3_graph [0, 1, 2] (by decide)).1 0
     (by decide),
   (low_degree_orientation_bucket_invariant path3_graph [0, 1, 2] (by decide)).1 2
     (by decide),
   (low_degree_orientation_bucket_invariant path3_graph [0, 1, 2] (by decide)).2 1 1
     (by decide)⟩

end SGC
